import Mathlib

/-!
# Storagescope: verification of the scanner core, tree store and delete helper

Shallow embedding of the Rust sources of `limbon2/Storagescope`:

* `src/platform.rs`   — `allocated_size` (the Unix branch, the one compiled on the
  platform the spec describes).
* `src/delete.rs`     — `delete_target`, `canonical_target_within_root`, `remove_target`.
* `src/app.rs`        — the tree store `nodes`/`children` maps and `prune_subtree`.
* `src/scanner/worker.rs` — the traversal engine, channel backpressure governor and
  the `run_scan` event protocol.

Modelling conventions:

* Machine integers (`u64`) are `Nat` with explicit saturation at `2^64 - 1`
  (`satAdd`, `satMul`), mirroring Rust's `saturating_add` / `saturating_mul`;
  `Nat` subtraction already saturates at 0 like `saturating_sub`.
* Filesystem paths are lists of components (`List String`); `Path::starts_with`
  is component-wise prefix, i.e. `List.isPrefixOf`.
* The filesystem seen by the scanner is a frozen value (`FsTree`): every
  fallible syscall outcome (stat failure, unreadable directory, broken symlink,
  failed canonicalize) is recorded in the tree, so one scan sees one consistent
  snapshot.  `SystemTime` timestamps are dropped from `NodeSummary` (they carry
  no information the spec or the claims mention).
* The bounded crossbeam channel is modelled by an oracle: a finite list of
  `SendResult`s consumed by successive `try_send` calls (an exhausted oracle
  means the channel accepts everything from then on).  Events actually accepted
  are accumulated in order in `sent` — the stream the consumer receives.
* The cancellation flag is an atomic that is only ever set; it is modelled by a
  countdown `cancelFuel : Option Nat`: `none` means the flag is never set,
  `some n` means the flag reads `false` for the first `n` reads and `true`
  afterwards.
* General recursion over the tree is expressed with an explicit `fuel`
  parameter (structural recursion, `none` = fuel exhausted), keeping every
  definition kernel-executable.  Fuel only limits recursion depth; all theorems
  are stated for runs that return a result.
-/

/-! ## Saturating 64-bit arithmetic -/

/-- Largest value of a Rust `u64`. -/
def U64MAX : Nat := 2 ^ 64 - 1

/-- Rust `u64::saturating_add`. -/
def satAdd (a b : Nat) : Nat := min (a + b) U64MAX

/-- Rust `u64::saturating_mul`. -/
def satMul (a b : Nat) : Nat := min (a * b) U64MAX

theorem satAdd_le_right (a b : Nat) (h : a ≤ U64MAX) : a ≤ satAdd a b := by
  simp only [satAdd]
  omega

theorem satAdd_le_max (a b : Nat) : satAdd a b ≤ U64MAX := by
  simp only [satAdd]; omega

theorem satAdd_mono (a b c : Nat) (h : a ≤ b) : satAdd a c ≤ satAdd b c := by
  simp only [satAdd]; omega

/-! ## Filesystem metadata and `platform.rs` -/

/-- The slice of `std::fs::Metadata` the scanner reads: `len()`, the Unix block
count `st_blocks`, and the Unix device id `st_dev` (used by `filesystem_id`). -/
structure Meta where
  len : Nat
  blocks : Nat
  dev : Nat
  deriving DecidableEq, Repr

/-- `platform.rs::allocated_size`, Unix branch: `blocks * 512` (saturating) when
the block count is nonzero, else fall through to `metadata.len()`. -/
def allocated_size (m : Meta) : Nat :=
  if m.blocks > 0 then satMul m.blocks 512 else m.len

/-- `platform.rs::filesystem_id`, Unix branch: always `Some(metadata.dev())`. -/
def filesystem_id (m : Meta) : Option Nat := some m.dev

/-! ## `model.rs`: scan data model -/

/-- `model.rs::FsEntryKind`. -/
inductive FsEntryKind where
  | file
  | dir
  | symlink
  | other
  deriving DecidableEq, Repr

/-- `model.rs::NodeSummary` (the `last_updated : SystemTime` field is dropped;
no claim mentions it). -/
structure NodeSummary where
  path : List String
  kind : FsEntryKind
  apparent_bytes : Nat
  allocated_bytes : Nat
  children_count : Nat
  is_complete : Bool
  deriving DecidableEq, Repr

/-- `model.rs::ScanOptions`. -/
structure ScanOptions where
  root : List String
  one_file_system : Bool
  follow_symlinks : Bool
  show_hidden : Bool
  show_files : Bool
  max_depth : Option Nat
  deriving DecidableEq, Repr

/-- `model.rs::ScanProgress` (all fields `u64`, hence kept `≤ U64MAX` by
construction). -/
structure ScanProgress where
  visited_entries : Nat := 0
  warnings : Nat := 0
  apparent_bytes_seen : Nat := 0
  allocated_bytes_seen : Nat := 0
  deriving DecidableEq, Repr

/-- The `format!` strings of the scanner's `Warning` messages, one constructor
per message shape; `backpressure` carries the three formatted counters of
`"scanner backpressure: dropped {} node updates; deferred {} progress updates
({} coalesced)"`. -/
inductive WarnMsg where
  | cannotStatPath
  | cannotFollowSymlinkTarget
  | cannotCanonicalizeSymlinkDir
  | symlinkCycle
  | cannotReadDirectory
  | cannotReadEntry
  | backpressure (dropped deferredProgress coalesced : Nat)
  deriving DecidableEq, Repr

/-- `model.rs::ScanEvent`.  `error` keeps the root path of the formatted
`"failed to stat {root}: {error}"` message. -/
inductive ScanEvent where
  | reset (root : List String)
  | nodeUpdated (node : NodeSummary)
  | progress (p : ScanProgress)
  | warning (path : List String) (message : WarnMsg)
  | complete (p : ScanProgress)
  | error (root : List String)
  | cancelled
  deriving DecidableEq, Repr

/-! ## `delete.rs` -/

/-- The filesystem interactions `delete_target` performs, frozen into a value:
the two `fs::canonicalize(target)` calls (in program order), the
`fs::canonicalize(scan_root)` call, and whether each of the three removal
syscalls would succeed.  `none` models an `Err` from `canonicalize`. -/
structure DeleteEnv where
  canonRoot : Option (List String)
  canonTarget1 : Option (List String)
  canonTarget2 : Option (List String)
  removeFileOk : Bool
  removeDirOk : Bool
  removeDirAllOk : Bool
  deriving DecidableEq, Repr

/-- The three removal syscalls of `delete.rs::remove_target`, in the order they
are attempted. -/
inductive RemoveOp where
  | removeFile
  | removeDir
  | removeDirAll
  deriving DecidableEq, Repr

/-- Reasons of the `AppError::Delete` errors raised by `delete.rs`. -/
inductive DeleteErr where
  | cannotResolveScanRoot
  | cannotResolvePath
  | refusingToDeleteStartupRoot
  | refusingToDeleteOutsideStartupRoot
  | targetChangedDuringSafetyCheck
  | deleteFailed
  deriving DecidableEq, Repr

/-- `delete.rs::canonical_target_within_root`, applied to one canonicalize
outcome: reject a target whose canonical form equals the canonical root or
does not lie beneath it (`Path::starts_with` = component prefix). -/
def canonical_target_within_root (canonTarget : Option (List String))
    (rootCanonical : List String) : Except DeleteErr (List String) :=
  match canonTarget with
  | none => .error .cannotResolvePath
  | some targetCanonical =>
    if targetCanonical = rootCanonical then
      .error .refusingToDeleteStartupRoot
    else if ¬ rootCanonical.isPrefixOf targetCanonical then
      .error .refusingToDeleteOutsideStartupRoot
    else
      .ok targetCanonical

/-- `delete.rs::remove_target`: try `remove_file`, then `remove_dir`, then
`remove_dir_all`; succeed on the first that works.  Also returns the list of
removal syscalls attempted (for stating "without removing anything"). -/
def remove_target (env : DeleteEnv) : Except DeleteErr Unit × List RemoveOp :=
  if env.removeFileOk then (.ok (), [.removeFile])
  else if env.removeDirOk then (.ok (), [.removeFile, .removeDir])
  else if env.removeDirAllOk then (.ok (), [.removeFile, .removeDir, .removeDirAll])
  else (.error .deleteFailed, [.removeFile, .removeDir, .removeDirAll])

/-- `delete.rs::delete_target`: canonicalize the scan root, check the target
against it, re-resolve the target and check again, refuse if the resolution
changed, then attempt removal.  The second component lists the removal
syscalls attempted (empty on every guarded error path). -/
def delete_target (env : DeleteEnv) : Except DeleteErr Unit × List RemoveOp :=
  match env.canonRoot with
  | none => (.error .cannotResolveScanRoot, [])
  | some root_canonical =>
    match canonical_target_within_root env.canonTarget1 root_canonical with
    | .error e => (.error e, [])
    | .ok initial_target =>
      match canonical_target_within_root env.canonTarget2 root_canonical with
      | .error e => (.error e, [])
      | .ok confirmed_target =>
        if confirmed_target ≠ initial_target then
          (.error .targetChangedDuringSafetyCheck, [])
        else
          remove_target env

/-! ## `app.rs`: tree store and `prune_subtree` -/

/-- The tree store of `app.rs::App`: `nodes : HashMap<PathBuf, NodeSummary>`
and `children : HashMap<PathBuf, Vec<PathBuf>>`, as association lists. -/
structure AppStore where
  nodes : List (List String × NodeSummary)
  children : List (List String × List (List String))
  deriving DecidableEq, Repr

/-- `app.rs::App::in_subtree`: `path == root || path.starts_with(root)`. -/
def in_subtree (path root : List String) : Bool :=
  path = root || root.isPrefixOf path

/-- `app.rs::App::prune_subtree`: collect the `nodes` keys inside the subtree,
remove each such key from `nodes` and from `children`, and strip references to
subtree paths from every remaining children list. -/
def prune_subtree (st : AppStore) (root : List String) : AppStore :=
  let to_remove : List (List String) :=
    (st.nodes.map Prod.fst).filter (fun path => in_subtree path root)
  let nodes := st.nodes.filter (fun kv => ¬ kv.1 ∈ to_remove)
  let children := st.children.filter (fun kv => ¬ kv.1 ∈ to_remove)
  let children := children.map (fun kv =>
    (kv.1, kv.2.filter (fun path => ¬ in_subtree path root)))
  { nodes := nodes, children := children }

/-- First-match association-list lookup (the `HashMap` read used to state what
`prune_subtree` leaves untouched). -/
def lookupKey {β : Type} (l : List (List String × β)) (k : List String) : Option β :=
  match l with
  | [] => none
  | kv :: rest => if kv.1 = k then some kv.2 else lookupKey rest k

/-! ## `worker.rs`: the filesystem snapshot seen by one scan -/

/-- Outcome of one `try_send` on the bounded crossbeam channel. -/
inductive SendResult where
  | ok
  | full
  | disconnected
  deriving DecidableEq, Repr

mutual
/-- The frozen filesystem content at one path, as the scanner's syscalls
observe it: `file`/`other` carry their metadata; `symlink` carries the link's
own (`symlink_metadata`) metadata and the fully resolved target of
`fs::metadata` (`none` = broken link); `dir` carries its metadata, the result
of `fs::canonicalize` (`none` = failure; used only when the directory is
reached through a symlink) and the result of `fs::read_dir` (`none` =
unreadable directory). -/
inductive FsTree where
  | file (meta : Meta)
  | other (meta : Meta)
  | symlink (meta : Meta) (target : Option FsTree)
  | dir (meta : Meta) (canon : Option Nat) (entries : Option (List RawEntry))

/-- One item of a `read_dir` iteration: `err` is an `Err` entry result, and
`entry` carries the file name together with the `symlink_metadata` outcome for
the child path (`none` = stat failure). -/
inductive RawEntry where
  | err
  | entry (name : String) (stat : Option FsTree)
end

def FsTree.meta : FsTree → Meta
  | .file m => m
  | .other m => m
  | .symlink m _ => m
  | .dir m _ _ => m

def FsTree.isSymlink : FsTree → Bool
  | .symlink _ _ => true
  | _ => false

def FsTree.isFile : FsTree → Bool
  | .file _ => true
  | _ => false

def FsTree.isDir : FsTree → Bool
  | .dir _ _ _ => true
  | _ => false

def FsTree.canon : FsTree → Option Nat
  | .dir _ c _ => c
  | _ => none

def FsTree.entries : FsTree → Option (List RawEntry)
  | .dir _ _ es => es
  | _ => none

/-- `fs::metadata(path)` given the `symlink_metadata` view: follows one symlink
to its fully resolved target, identity on everything else. -/
def resolved_of : FsTree → Option FsTree
  | .symlink _ target => target
  | t => some t

/-! ## `worker.rs::ScannerState` -/

/-- `worker.rs::ScannerState`, plus the channel model: `oracle` is the list of
outcomes the channel will give to successive `try_send` calls (exhausted =
always `ok`), `sent` is the ordered stream of accepted events, and
`cancelFuel` models the shared cancellation flag (see the module docstring). -/
structure ScannerSt where
  options : ScanOptions
  oracle : List SendResult
  sent : List ScanEvent
  cancelFuel : Option Nat
  progress : ScanProgress
  root_fs : Option Nat
  emitted_progress_entries : Nat
  visited_symlink_dirs : List Nat
  pending_progress : Option ScanProgress
  dropped_node_updates : Nat
  deferred_progress_updates : Nat
  coalesced_progress_updates : Nat
  backpressure_warning_emitted : Bool
  channel_closed : Bool

/-- `Sender::try_send` against the oracle. -/
def trySend (s : ScannerSt) (e : ScanEvent) : SendResult × ScannerSt :=
  match s.oracle with
  | [] => (.ok, { s with sent := s.sent ++ [e] })
  | .ok :: rest => (.ok, { s with oracle := rest, sent := s.sent ++ [e] })
  | .full :: rest => (.full, { s with oracle := rest })
  | .disconnected :: rest => (.disconnected, { s with oracle := rest })

/-- `ScannerState::try_flush_pending_progress`. -/
def try_flush_pending_progress (s : ScannerSt) : ScannerSt :=
  match s.pending_progress with
  | none => s
  | some p =>
    let s1 := { s with pending_progress := none }
    match trySend s1 (.progress p) with
    | (.ok, s2) => s2
    | (.full, s2) => { s2 with pending_progress := some p }
    | (.disconnected, s2) => { s2 with channel_closed := true }

/-- `ScannerState::handle_noncritical_backpressure`.  The catch-all arm is the
source's `unreachable!` (never hit from `send_noncritical`). -/
def handle_noncritical_backpressure (s : ScannerSt) (e : ScanEvent) : ScannerSt :=
  match e with
  | .nodeUpdated _ =>
    { s with dropped_node_updates := satAdd s.dropped_node_updates 1 }
  | .progress p =>
    let s1 := { s with deferred_progress_updates := satAdd s.deferred_progress_updates 1 }
    let s2 := if s1.pending_progress.isSome then
        { s1 with coalesced_progress_updates := satAdd s1.coalesced_progress_updates 1 }
      else s1
    { s2 with pending_progress := some p }
  | _ => s

/-- The retry loop of `ScannerState::send_critical`.  Every `full` iteration
consumes one oracle entry, so `oracle.length + 1` fuel is always enough; the
fuel-0 arm is dead code. -/
def send_critical_loop : Nat → ScannerSt → ScanEvent → ScannerSt
  | 0, s, _ => s
  | fuel + 1, s, e =>
    match trySend s e with
    | (.ok, s1) => s1
    | (.full, s1) => send_critical_loop fuel (try_flush_pending_progress s1) e
    | (.disconnected, s1) => { s1 with channel_closed := true }

/-- `ScannerState::send_critical`: flush any pending coalesced progress, then
retry until the event is accepted or the channel disconnects. -/
def send_critical (s : ScannerSt) (e : ScanEvent) : ScannerSt :=
  if s.channel_closed then s
  else
    let s1 := try_flush_pending_progress s
    send_critical_loop (s1.oracle.length + 1) s1 e

/-- `ScannerState::send_noncritical`. -/
def send_noncritical (s : ScannerSt) (e : ScanEvent) : ScannerSt :=
  if s.channel_closed then s
  else
    let s1 := try_flush_pending_progress s
    match trySend s1 e with
    | (.ok, s2) => s2
    | (.full, s2) => handle_noncritical_backpressure s2 e
    | (.disconnected, s2) => { s2 with channel_closed := true }

/-- `ScannerState::send_node_update`. -/
def send_node_update (s : ScannerSt) (summary : NodeSummary) : ScannerSt :=
  send_noncritical s (.nodeUpdated summary)

/-- `ScannerState::emit_backpressure_warning_if_needed`. -/
def emit_backpressure_warning_if_needed (s : ScannerSt) : ScannerSt :=
  if s.backpressure_warning_emitted || s.channel_closed then s
  else if s.dropped_node_updates = 0 ∧ s.deferred_progress_updates = 0 then s
  else
    let s1 := { s with
      backpressure_warning_emitted := true,
      progress := { s.progress with warnings := satAdd s.progress.warnings 1 } }
    send_critical s1 (.warning s1.options.root
      (.backpressure s1.dropped_node_updates s1.deferred_progress_updates
        s1.coalesced_progress_updates))

/-- `ScannerState::bump_warning`. -/
def bump_warning (s : ScannerSt) (path : List String) (message : WarnMsg) : ScannerSt :=
  let s1 := { s with progress := { s.progress with warnings := satAdd s.progress.warnings 1 } }
  send_critical s1 (.warning path message)

/-- `worker.rs::PROGRESS_EMIT_EVERY`. -/
def PROGRESS_EMIT_EVERY : Nat := 512

/-- `ScannerState::bump_entry` (Nat subtraction is `saturating_sub`). -/
def bump_entry (s : ScannerSt) (apparent allocated : Nat) : ScannerSt :=
  let p := s.progress
  let p1 : ScanProgress := {
    visited_entries := satAdd p.visited_entries 1,
    warnings := p.warnings,
    apparent_bytes_seen := satAdd p.apparent_bytes_seen apparent,
    allocated_bytes_seen := satAdd p.allocated_bytes_seen allocated }
  let s1 := { s with progress := p1 }
  if PROGRESS_EMIT_EVERY ≤ s1.progress.visited_entries - s1.emitted_progress_entries then
    let s2 := { s1 with emitted_progress_entries := s1.progress.visited_entries }
    send_noncritical s2 (.progress s2.progress)
  else s1

/-- `ScannerState::emit_progress_now`. -/
def emit_progress_now (s : ScannerSt) : ScannerSt :=
  let s1 := { s with emitted_progress_entries := s.progress.visited_entries }
  send_noncritical s1 (.progress s1.progress)

/-- `ScannerState::should_cancel`: `channel_closed || cancel.load()`, with
the monotone cancellation flag modelled by the countdown (see docstring). -/
def should_cancel (s : ScannerSt) : Bool × ScannerSt :=
  if s.channel_closed then (true, s)
  else
    match s.cancelFuel with
    | none => (false, s)
    | some 0 => (true, s)
    | some (n + 1) => (false, { s with cancelFuel := some n })

/-! ## `worker.rs`: the traversal -/

/-- `worker.rs::ScanControl` (`continue` is a Lean keyword, hence `cont`). -/
inductive ScanControl where
  | cont (summary : Option NodeSummary)
  | cancelled
  deriving DecidableEq, Repr

/-- `worker.rs::kind_from_non_dir`. -/
def kind_from_non_dir (resolved : FsTree) (is_symlink : Bool) : FsEntryKind :=
  if is_symlink then .symlink
  else if resolved.isFile then .file
  else .other

/-- `worker.rs::is_hidden` (Unix: first byte is `b'.'`, i.e. the first
character is `'.'`). -/
def is_hidden (name : String) : Bool := decide (name.data.head? = some '.')

/-- `worker.rs::summarize_non_dir`. -/
def summarize_non_dir (path : List String) (kind : FsEntryKind) (meta : Meta)
    (emit_node_update : Bool) (s : ScannerSt) : NodeSummary × ScannerSt :=
  let apparent := meta.len
  let allocated := allocated_size meta
  let s1 := bump_entry s apparent allocated
  let summary : NodeSummary := {
    path := path, kind := kind, apparent_bytes := apparent,
    allocated_bytes := allocated, children_count := 0, is_complete := true }
  let s2 := if emit_node_update then send_node_update s1 summary else s1
  (summary, s2)

/-- The emission gate computed for each child in `scan_dir`'s entry loop:
`emit_updates && show_hidden && within_display_depth` (lines 468-471). -/
def child_emit_updates (opts : ScanOptions) (emit_updates : Bool) (name : String)
    (child_depth : Nat) : Bool :=
  let show_hidden := opts.show_hidden || ! is_hidden name
  let within_display_depth := ! (match opts.max_depth with
    | some max_depth => decide (child_depth > max_depth)
    | none => false)
  emit_updates && show_hidden && within_display_depth

/-- The one-file-system fence of `scan_dir`'s entry loop (lines 511-518):
skip a resolved directory whose filesystem id differs from the root's. -/
def skip_other_filesystem (s : ScannerSt) (resolved : FsTree) : Bool :=
  s.options.one_file_system && resolved.isDir &&
    (match s.root_fs, filesystem_id resolved.meta with
     | some root_id, some this_id => decide (root_id ≠ this_id)
     | _, _ => false)

/-- Result of one pass over a directory's entries: either cancellation was
observed, or the accumulated child count and apparent/allocated totals. -/
inductive LoopOut where
  | cancelled (s : ScannerSt)
  | done (children_count apparent_total allocated_total : Nat) (s : ScannerSt)

/-- The symlink-directory cycle gate at the top of `scan_dir` (lines 387-400):
canonicalize, and skip (with a warning) on canonicalize failure or when this
canonical directory was already visited through a symlink in this scan. -/
def symlink_dir_gate (path : List String) (is_symlink_dir : Bool) (canon : Option Nat)
    (s : ScannerSt) : Sum (ScanControl × ScannerSt) ScannerSt :=
  if is_symlink_dir then
    match canon with
    | some canonical =>
      if canonical ∈ s.visited_symlink_dirs then
        .inl (.cont none, bump_warning s path .symlinkCycle)
      else
        .inr { s with visited_symlink_dirs := canonical :: s.visited_symlink_dirs }
    | none => .inl (.cont none, bump_warning s path .cannotCanonicalizeSymlinkDir)
  else .inr s

/-- The first `for entry_result in read_dir` pass of `scan_dir` (lines
452-557): per-entry warnings, summaries for non-directory children (with their
contribution to the parent's totals) and provisional `NodeUpdated` emissions
for directory children.  Directory children are deferred — the source pushes
them onto `pending_dirs`; here the second pass (`scan_pending_dirs`) re-walks
the same entry list and recurses into exactly the entries this pass deferred,
in the same order. -/
def scan_dir_entries (path : List String) (depth : Nat) (emit_updates : Bool)
    (entries : List RawEntry) (children_count apparent_total allocated_total : Nat)
    (s : ScannerSt) : LoopOut :=
  match entries with
  | [] => .done children_count apparent_total allocated_total s
  | e :: rest =>
    match should_cancel s with
    | (true, s1) => .cancelled s1
    | (false, s1) =>
      match e with
      | .err =>
        let s2 := bump_warning s1 path .cannotReadEntry
        scan_dir_entries path depth emit_updates rest
          children_count apparent_total allocated_total s2
      | .entry child_name stat =>
        let child_path := path ++ [child_name]
        let child_emit := child_emit_updates s1.options emit_updates child_name (depth + 1)
        match stat with
        | none =>
          let s2 := bump_warning s1 child_path .cannotStatPath
          scan_dir_entries path depth emit_updates rest
            children_count apparent_total allocated_total s2
        | some child_tree =>
          let child_is_symlink := child_tree.isSymlink
          if child_is_symlink && ! s1.options.follow_symlinks then
            let out := summarize_non_dir child_path .symlink child_tree.meta
              (child_emit && s1.options.show_files) s1
            scan_dir_entries path depth emit_updates rest
              (satAdd children_count 1) (satAdd apparent_total out.1.apparent_bytes)
              (satAdd allocated_total out.1.allocated_bytes) out.2
          else
            match resolved_of child_tree with
            | none =>
              let s2 := bump_warning s1 child_path .cannotFollowSymlinkTarget
              scan_dir_entries path depth emit_updates rest
                children_count apparent_total allocated_total s2
            | some resolved =>
              if skip_other_filesystem s1 resolved then
                scan_dir_entries path depth emit_updates rest
                  children_count apparent_total allocated_total s1
              else if resolved.isDir then
                let provisional : NodeSummary := {
                  path := child_path, kind := .dir,
                  apparent_bytes := resolved.meta.len,
                  allocated_bytes := allocated_size resolved.meta,
                  children_count := 0, is_complete := false }
                let s2 := if child_is_symlink || ! child_emit then s1
                  else send_node_update s1 provisional
                scan_dir_entries path depth emit_updates rest
                  children_count apparent_total allocated_total s2
              else
                let kind := kind_from_non_dir resolved child_is_symlink
                let out := summarize_non_dir child_path kind resolved.meta
                  (child_emit && s1.options.show_files) s1
                scan_dir_entries path depth emit_updates rest
                  (satAdd children_count 1) (satAdd apparent_total out.1.apparent_bytes)
                  (satAdd allocated_total out.1.allocated_bytes) out.2

mutual
/-- `worker.rs::scan_dir` (lines 374-598).  `meta`, `canon` and `entries` are
the frozen filesystem content at `path` (the resolved directory metadata the
source receives, plus what its own `canonicalize`/`read_dir` calls return).
`fuel` bounds recursion depth; `none` = fuel ran out. -/
def scan_dir (fuel : Nat) (path : List String) (depth : Nat) (is_symlink_dir : Bool)
    (meta : Meta) (canon : Option Nat) (entries : Option (List RawEntry))
    (emit_initial emit_updates : Bool) (s : ScannerSt) :
    Option (ScanControl × ScannerSt) :=
  match fuel with
  | 0 => none
  | fuel + 1 =>
    match should_cancel s with
    | (true, s1) => some (.cancelled, s1)
    | (false, s1) =>
      match symlink_dir_gate path is_symlink_dir canon s1 with
      | .inl out => some out
      | .inr s2 =>
        let dir_apparent := meta.len
        let dir_allocated := allocated_size meta
        let dir_kind : FsEntryKind := if is_symlink_dir then .symlink else .dir
        let initial_summary : NodeSummary := {
          path := path, kind := dir_kind,
          apparent_bytes := dir_apparent, allocated_bytes := dir_allocated,
          children_count := 0, is_complete := false }
        let s3 := if emit_initial && emit_updates then
            send_node_update s2 initial_summary
          else s2
        match entries with
        | none =>
          let s4 := bump_warning s3 path .cannotReadDirectory
          let summary : NodeSummary := {
            path := path, kind := dir_kind,
            apparent_bytes := dir_apparent, allocated_bytes := dir_allocated,
            children_count := 0, is_complete := true }
          let s5 := bump_entry s4 summary.apparent_bytes summary.allocated_bytes
          let s6 := if emit_updates then send_node_update s5 summary else s5
          some (.cont (some summary), s6)
        | some entry_list =>
          match scan_dir_entries path depth emit_updates entry_list
              0 dir_apparent dir_allocated s3 with
          | .cancelled s4 => some (.cancelled, s4)
          | .done cc1 at1 al1 s4 =>
            match scan_pending_dirs fuel path depth emit_updates entry_list
                cc1 at1 al1 s4 with
            | none => none
            | some (.cancelled s5) => some (.cancelled, s5)
            | some (.done cc2 at2 al2 s5) =>
              let summary : NodeSummary := {
                path := path, kind := dir_kind,
                apparent_bytes := at2, allocated_bytes := al2,
                children_count := cc2, is_complete := true }
              let s6 := bump_entry s5 dir_apparent dir_allocated
              let s7 := if emit_updates then send_node_update s6 summary else s6
              some (.cont (some summary), s7)

/-- The `for pending in pending_dirs` pass of `scan_dir` (lines 559-577),
expressed as a second walk over the same entry list: recurse into exactly the
entries the first pass classified as resolved directories (same classification,
recomputed from the same frozen data), in the same order, folding each settled
child's totals into the parent's accumulators. -/
def scan_pending_dirs (fuel : Nat) (path : List String) (depth : Nat)
    (emit_updates : Bool) (entries : List RawEntry)
    (children_count apparent_total allocated_total : Nat)
    (s : ScannerSt) : Option LoopOut :=
  match fuel with
  | 0 => none
  | fuel + 1 =>
    match entries with
    | [] => some (.done children_count apparent_total allocated_total s)
    | .err :: rest =>
      scan_pending_dirs fuel path depth emit_updates rest
        children_count apparent_total allocated_total s
    | .entry child_name stat :: rest =>
      let child_path := path ++ [child_name]
      let child_emit := child_emit_updates s.options emit_updates child_name (depth + 1)
      match stat with
      | none =>
        scan_pending_dirs fuel path depth emit_updates rest
          children_count apparent_total allocated_total s
      | some child_tree =>
        let child_is_symlink := child_tree.isSymlink
        if child_is_symlink && ! s.options.follow_symlinks then
          scan_pending_dirs fuel path depth emit_updates rest
            children_count apparent_total allocated_total s
        else
          match resolved_of child_tree with
          | none =>
            scan_pending_dirs fuel path depth emit_updates rest
              children_count apparent_total allocated_total s
          | some resolved =>
            if skip_other_filesystem s resolved then
              scan_pending_dirs fuel path depth emit_updates rest
                children_count apparent_total allocated_total s
            else if resolved.isDir then
              let emitted_initial := ! child_is_symlink && child_emit
              match scan_dir fuel child_path (depth + 1) child_is_symlink
                  resolved.meta resolved.canon resolved.entries
                  (! emitted_initial) child_emit s with
              | none => none
              | some (.cancelled, s1) => some (.cancelled s1)
              | some (.cont (some child), s1) =>
                scan_pending_dirs fuel path depth emit_updates rest
                  (satAdd children_count 1) (satAdd apparent_total child.apparent_bytes)
                  (satAdd allocated_total child.allocated_bytes) s1
              | some (.cont none, s1) =>
                scan_pending_dirs fuel path depth emit_updates rest
                  children_count apparent_total allocated_total s1
            else
              scan_pending_dirs fuel path depth emit_updates rest
                children_count apparent_total allocated_total s
end

/-- `worker.rs::scan_entry` (lines 301-364).  `stat` is the outcome of
`fs::symlink_metadata(path)` (`none` = failure). -/
def scan_entry (fuel : Nat) (path : List String) (depth : Nat) (stat : Option FsTree)
    (s : ScannerSt) : Option (ScanControl × ScannerSt) :=
  match should_cancel s with
  | (true, s1) => some (.cancelled, s1)
  | (false, s1) =>
    match stat with
    | none => some (.cont none, bump_warning s1 path .cannotStatPath)
    | some tree =>
      let is_symlink := tree.isSymlink
      if is_symlink && ! s1.options.follow_symlinks then
        let out := summarize_non_dir path .symlink tree.meta s1.options.show_files s1
        some (.cont (some out.1), out.2)
      else
        match resolved_of tree with
        | none => some (.cont none, bump_warning s1 path .cannotFollowSymlinkTarget)
        | some resolved =>
          if s1.options.one_file_system && decide (depth > 0) && resolved.isDir &&
              (match s1.root_fs, filesystem_id resolved.meta with
               | some root_id, some this_id => decide (root_id ≠ this_id)
               | _, _ => false) then
            some (.cont none, s1)
          else if resolved.isFile then
            let kind := kind_from_non_dir resolved is_symlink
            let out := summarize_non_dir path kind resolved.meta s1.options.show_files s1
            some (.cont (some out.1), out.2)
          else if resolved.isDir then
            scan_dir fuel path depth is_symlink resolved.meta resolved.canon
              resolved.entries true true s1
          else
            let kind := kind_from_non_dir resolved is_symlink
            let out := summarize_non_dir path kind resolved.meta s1.options.show_files s1
            some (.cont (some out.1), out.2)

/-- `worker.rs::send_critical_event` (the free retry loop used before the
scanner state exists).  Fuel `oracle.length + 1` is always enough; the fuel-0
arm is dead code. -/
def send_critical_event (fuel : Nat) (oracle : List SendResult) (sent : List ScanEvent)
    (e : ScanEvent) : Bool × List SendResult × List ScanEvent :=
  match fuel with
  | 0 => (true, oracle, sent)
  | fuel + 1 =>
    match oracle with
    | [] => (true, [], sent ++ [e])
    | .ok :: rest => (true, rest, sent ++ [e])
    | .full :: rest => send_critical_event fuel rest sent e
    | .disconnected :: rest => (false, rest, sent)

/-- The `ScannerState` literal built in `run_scan` (lines 271-285). -/
def initial_scanner_state (options : ScanOptions) (root_fs : Option Nat)
    (oracle : List SendResult) (sent : List ScanEvent) (cancelFuel : Option Nat)
    (channel_closed : Bool) : ScannerSt :=
  { options := options, oracle := oracle, sent := sent, cancelFuel := cancelFuel,
    progress := {}, root_fs := root_fs, emitted_progress_entries := 0,
    visited_symlink_dirs := [], pending_progress := none, dropped_node_updates := 0,
    deferred_progress_updates := 0, coalesced_progress_updates := 0,
    backpressure_warning_emitted := false, channel_closed := channel_closed }

/-- `worker.rs::run_scan` (lines 241-299).  `root_stat` is the outcome of
`fs::symlink_metadata(&options.root)`; the returned state's `sent` field is
the event stream the consumer receives. -/
def run_scan (fuel : Nat) (options : ScanOptions) (root_stat : Option FsTree)
    (oracle : List SendResult) (cancelFuel : Option Nat) : Option ScannerSt :=
  match send_critical_event (oracle.length + 1) oracle [] (.reset options.root) with
  | (false, oracle1, sent1) =>
    some (initial_scanner_state options none oracle1 sent1 cancelFuel true)
  | (true, oracle1, sent1) =>
    match root_stat with
    | none =>
      match send_critical_event (oracle1.length + 1) oracle1 sent1 (.error options.root) with
      | (ok2, oracle2, sent2) =>
        some (initial_scanner_state options none oracle2 sent2 cancelFuel (! ok2))
    | some root_tree =>
      let root_fs := if options.one_file_system then filesystem_id root_tree.meta else none
      let s0 := initial_scanner_state options root_fs oracle1 sent1 cancelFuel false
      match scan_entry fuel options.root 0 (some root_tree) s0 with
      | none => none
      | some (.cont _, s1) =>
        let s2 := emit_backpressure_warning_if_needed s1
        let s3 := emit_progress_now s2
        some (send_critical s3 (.complete s3.progress))
      | some (.cancelled, s1) =>
        let s2 := emit_backpressure_warning_if_needed s1
        some (send_critical s2 .cancelled)

/-! ## C10: `allocated_size` on Unix -/

/-- C10. On Unix, for every path and metadata, `allocated_size` returns the
block count times 512 (with saturating multiplication) when the block count is
nonzero, and falls back to the apparent length `metadata.len()` when the block
count is zero — so a fully sparse file (nonzero length, zero blocks) reports
allocated bytes equal to its apparent bytes rather than zero. -/
theorem allocated_size_spec (m : Meta) :
    (m.blocks ≠ 0 → allocated_size m = satMul m.blocks 512) ∧
    (m.blocks = 0 → allocated_size m = m.len) := by
  constructor <;> intro h <;> simp [allocated_size, h, Nat.pos_of_ne_zero]

theorem allocated_size_spec_witness :
    allocated_size ⟨7, 0, 5⟩ = 7 ∧ allocated_size ⟨7, 3, 5⟩ = satMul 3 512 :=
  ⟨(allocated_size_spec ⟨7, 0, 5⟩).2 rfl, (allocated_size_spec ⟨7, 3, 5⟩).1 (by decide)⟩

/-! ## C9: `delete_target` -/

/-- C9. `delete_target` canonicalizes both the target and the scan root and
returns an error without attempting any removal syscall whenever either
canonicalization fails, the canonical target equals the canonical root, the
canonical target does not lie strictly beneath the root, or the re-resolution
performed immediately before removal differs from the first; otherwise it
attempts file-delete, then empty-directory-delete, then recursive-delete, in
that order, succeeding iff one of the three succeeds (stopping at the first
that works). -/
theorem delete_target_spec (env : DeleteEnv) :
    (env.canonRoot = none → delete_target env = (.error .cannotResolveScanRoot, [])) ∧
    (∀ root_c, env.canonRoot = some root_c →
      (env.canonTarget1 = none → delete_target env = (.error .cannotResolvePath, [])) ∧
      (∀ t1, env.canonTarget1 = some t1 →
        (t1 = root_c ∨ root_c.isPrefixOf t1 = false) →
        ∃ e, delete_target env = (.error e, [])) ∧
      (∀ t1, env.canonTarget1 = some t1 → env.canonTarget2 = none →
        ∃ e, delete_target env = (.error e, [])) ∧
      (∀ t1 t2, env.canonTarget1 = some t1 → env.canonTarget2 = some t2 → t2 ≠ t1 →
        ∃ e, delete_target env = (.error e, [])) ∧
      (∀ t, env.canonTarget1 = some t → env.canonTarget2 = some t →
        t ≠ root_c → root_c.isPrefixOf t = true →
        delete_target env = remove_target env ∧
        ((remove_target env).1 = .ok () ↔
          (env.removeFileOk = true ∨ env.removeDirOk = true ∨ env.removeDirAllOk = true)) ∧
        (env.removeFileOk = true → (remove_target env).2 = [.removeFile]) ∧
        (env.removeFileOk = false → env.removeDirOk = true →
          (remove_target env).2 = [.removeFile, .removeDir]) ∧
        (env.removeFileOk = false → env.removeDirOk = false →
          (remove_target env).2 = [.removeFile, .removeDir, .removeDirAll]))) := by
  refine ⟨fun h => by simp [delete_target, h], fun root_c hroot => ⟨?_, ?_, ?_, ?_, ?_⟩⟩
  · intro h1
    simp [delete_target, hroot, canonical_target_within_root, h1]
  · intro t1 h1 hbad
    rcases hbad with hbad | hbad
    · exact ⟨.refusingToDeleteStartupRoot, by
        simp [delete_target, hroot, canonical_target_within_root, h1, hbad]⟩
    · by_cases heq : t1 = root_c
      · exact ⟨.refusingToDeleteStartupRoot, by
          simp [delete_target, hroot, canonical_target_within_root, h1, heq]⟩
      · exact ⟨.refusingToDeleteOutsideStartupRoot, by
          simp [delete_target, hroot, canonical_target_within_root, h1, heq, hbad]⟩
  · intro t1 h1 h2
    by_cases heq : t1 = root_c
    · exact ⟨.refusingToDeleteStartupRoot, by
        simp [delete_target, hroot, canonical_target_within_root, h1, heq]⟩
    · by_cases hpre : root_c.isPrefixOf t1
      · exact ⟨.cannotResolvePath, by
          simp [delete_target, hroot, canonical_target_within_root, h1, h2, heq, hpre]⟩
      · exact ⟨.refusingToDeleteOutsideStartupRoot, by
          simp [delete_target, hroot, canonical_target_within_root, h1, heq, hpre]⟩
  · intro t1 t2 h1 h2 hne
    by_cases heq1 : t1 = root_c
    · exact ⟨.refusingToDeleteStartupRoot, by
        simp [delete_target, hroot, canonical_target_within_root, h1, heq1]⟩
    · by_cases hpre1 : root_c.isPrefixOf t1
      · by_cases heq2 : t2 = root_c
        · exact ⟨.refusingToDeleteStartupRoot, by
            simp [delete_target, hroot, canonical_target_within_root, h1, h2, heq1, hpre1, heq2]⟩
        · by_cases hpre2 : root_c.isPrefixOf t2
          · exact ⟨.targetChangedDuringSafetyCheck, by
              simp [delete_target, hroot, canonical_target_within_root, h1, h2,
                heq1, hpre1, heq2, hpre2, hne]⟩
          · exact ⟨.refusingToDeleteOutsideStartupRoot, by
              simp [delete_target, hroot, canonical_target_within_root, h1, h2,
                heq1, hpre1, heq2, hpre2]⟩
      · exact ⟨.refusingToDeleteOutsideStartupRoot, by
          simp [delete_target, hroot, canonical_target_within_root, h1, heq1, hpre1]⟩
  · intro t h1 h2 hne hpre
    refine ⟨by simp [delete_target, hroot, canonical_target_within_root, h1, h2, hne, hpre], ?_, ?_, ?_, ?_⟩
    · unfold remove_target
      by_cases hf : env.removeFileOk <;> by_cases hd : env.removeDirOk <;>
        by_cases ha : env.removeDirAllOk <;> simp [hf, hd, ha]
    · intro hf; simp [remove_target, hf]
    · intro hf hd; simp [remove_target, hf, hd]
    · intro hf hd
      by_cases ha : env.removeDirAllOk <;> simp [remove_target, hf, hd, ha]

theorem delete_target_spec_witness :
    delete_target ⟨some ["r"], some ["r", "x"], some ["r", "x"], true, false, false⟩ =
      remove_target ⟨some ["r"], some ["r", "x"], some ["r", "x"], true, false, false⟩ ∧
    (remove_target ⟨some ["r"], some ["r", "x"], some ["r", "x"], true, false, false⟩).2 =
      [.removeFile] := by
  have h := ((delete_target_spec
    ⟨some ["r"], some ["r", "x"], some ["r", "x"], true, false, false⟩).2 ["r"] rfl).2.2.2.2
    ["r", "x"] rfl rfl (by decide) (by decide)
  exact ⟨h.1, h.2.2.1 rfl⟩

/-! ## C8: `prune_subtree` -/

theorem lookupKey_filter {β : Type} (l : List (List String × β)) (p : List String)
    (f : List String × β → Bool) (hf : ∀ v, f (p, v) = true) :
    lookupKey (l.filter f) p = lookupKey l p := by
  induction l with
  | nil => rfl
  | cons kv rest ih =>
    by_cases hk : kv.1 = p
    · have hkeep : f kv = true := by
        have := hf kv.2
        rwa [← hk, Prod.mk.eta] at this
      simp [List.filter_cons, hkeep, lookupKey, hk]
    · by_cases hkeep : f kv = true
      · simp [List.filter_cons, hkeep, lookupKey, hk, ih]
      · simp only [Bool.not_eq_true] at hkeep
        simp [List.filter_cons, hkeep, lookupKey, hk, ih]

theorem lookupKey_map {β γ : Type} (l : List (List String × β)) (p : List String)
    (g : β → γ) :
    lookupKey (l.map (fun kv => (kv.1, g kv.2))) p = (lookupKey l p).map g := by
  induction l with
  | nil => rfl
  | cons kv rest ih =>
    by_cases hk : kv.1 = p <;> simp [lookupKey, hk, ih]

/-- C8 (amended).  After `prune_subtree st R`: no key of `nodes` equals `R` or
is nested under `R`; when `R` itself is a key of `nodes`, `R` has no entry in
`children`; no remaining children list contains a path equal to or nested under
`R`; `nodes` entries outside the subtree of `R` are unchanged, and `children`
entries outside the subtree keep their key with exactly the subtree paths
stripped from their lists. -/
theorem prune_subtree_spec (st : AppStore) (root : List String) :
    (∀ p ∈ (prune_subtree st root).nodes.map Prod.fst, in_subtree p root = false) ∧
    (root ∈ st.nodes.map Prod.fst →
      ∀ kv ∈ (prune_subtree st root).children, kv.1 ≠ root) ∧
    (∀ kv ∈ (prune_subtree st root).children, ∀ p ∈ kv.2, in_subtree p root = false) ∧
    (∀ p, in_subtree p root = false →
      lookupKey (prune_subtree st root).nodes p = lookupKey st.nodes p) ∧
    (∀ p, in_subtree p root = false →
      lookupKey (prune_subtree st root).children p =
        (lookupKey st.children p).map
          (fun l => l.filter (fun q => ¬ in_subtree q root))) := by
  have hto : ∀ q, q ∈ (st.nodes.map Prod.fst).filter (fun path => in_subtree path root) →
      in_subtree q root = true := by
    intro q hq
    exact (List.mem_filter.mp hq).2
  refine ⟨?_, ?_, ?_, ?_, ?_⟩
  · intro p hp
    simp only [prune_subtree, List.mem_map] at hp
    obtain ⟨kv, hkv, hk⟩ := hp
    have hmem := List.mem_filter.mp hkv
    by_contra hins
    simp only [Bool.not_eq_false] at hins
    have : kv.1 ∈ (st.nodes.map Prod.fst).filter (fun path => in_subtree path root) := by
      refine List.mem_filter.mpr ⟨List.mem_map.mpr ⟨kv, hmem.1, rfl⟩, ?_⟩
      rw [hk]; exact hins
    have := hmem.2
    simp only [decide_eq_true_eq] at this
    exact this (by rwa [hk] at *)
  · intro hrootmem kv hkv hk
    simp only [prune_subtree, List.mem_map] at hkv
    obtain ⟨kv0, hkv0, hkveq⟩ := hkv
    have hmem := List.mem_filter.mp hkv0
    have hd := hmem.2
    simp only [decide_eq_true_eq] at hd
    apply hd
    refine List.mem_filter.mpr ⟨?_, ?_⟩
    · have : kv0.1 = root := by
        have : kv.1 = kv0.1 := by rw [← hkveq]
        rw [← this, hk]
      rw [this]; exact hrootmem
    · have : kv0.1 = root := by
        have h1 : kv.1 = kv0.1 := by rw [← hkveq]
        rw [← h1, hk]
      simp [this, in_subtree]
  · intro kv hkv p hp
    simp only [prune_subtree, List.mem_map] at hkv
    obtain ⟨kv0, _, hkveq⟩ := hkv
    have : kv.2 = kv0.2.filter (fun path => ¬ in_subtree path root) := by
      rw [← hkveq]
    rw [this] at hp
    have := (List.mem_filter.mp hp).2
    simp only [decide_eq_true_eq, Bool.not_eq_true] at this
    exact this
  · intro p hout
    simp only [prune_subtree]
    apply lookupKey_filter
    intro v
    simp only [decide_eq_true_eq]
    intro hmem
    have := hto p hmem
    rw [hout] at this
    exact Bool.false_ne_true this
  · intro p hout
    simp only [prune_subtree]
    rw [lookupKey_map]
    congr 1
    apply lookupKey_filter
    intro v
    simp only [decide_eq_true_eq]
    intro hmem
    have := hto p hmem
    rw [hout] at this
    exact Bool.false_ne_true this

/-- Concrete store refuting C8 as stated: the previous scan was rooted at
`a/b`, so `nodes` holds `a/b` while `children` holds the bookkeeping entry for
its parent `a` (created by `upsert_node`; `a` itself was never a `NodeUpdated`
path).  Pruning at `R = a` removes only `nodes` keys from `children`, so the
entry for `a` survives (with its list stripped). -/
def pruneCounterStore : AppStore := {
  nodes := [(["a", "b"],
    { path := ["a", "b"], kind := .dir, apparent_bytes := 0,
      allocated_bytes := 0, children_count := 0, is_complete := true })],
  children := [(["a"], [["a", "b"]])] }

/-- C8 counterexample: after `prune_subtree pruneCounterStore ["a"]` the key
`["a"]` — which equals the prune root — still has an entry in `children`,
contradicting the claim's "R has no entry in `children`". -/
theorem prune_subtree_children_key_counterexample :
    ¬ (∀ kv ∈ (prune_subtree pruneCounterStore ["a"]).children, kv.1 ≠ ["a"]) := by
  intro h
  exact h (["a"], []) (by decide) rfl

theorem prune_subtree_spec_witness :
    lookupKey (prune_subtree pruneCounterStore ["z"]).nodes ["a", "b"] =
      lookupKey pruneCounterStore.nodes ["a", "b"] :=
  (prune_subtree_spec pruneCounterStore ["z"]).2.2.2.1 ["a", "b"] (by decide)

/-! ## Scanner invariants: event classes and progress ordering -/

/-- Events that are neither `Reset` nor one of the three terminals. -/
def nonTerminalEvt : ScanEvent → Prop
  | .nodeUpdated _ => True
  | .progress _ => True
  | .warning _ _ => True
  | _ => False

/-- Events the traversal itself can push: node updates, progress snapshots and
per-entry warnings — never `Reset`, never a terminal, and never the synthesized
backpressure warning (that one is emitted only by
`emit_backpressure_warning_if_needed`, outside the traversal). -/
def scanPhaseEvt : ScanEvent → Prop
  | .nodeUpdated _ => True
  | .progress _ => True
  | .warning _ m => ∀ a b c, m ≠ .backpressure a b c
  | _ => False

theorem scanPhaseEvt.nonTerminal {e : ScanEvent} (h : scanPhaseEvt e) : nonTerminalEvt e := by
  cases e <;> simp_all [scanPhaseEvt, nonTerminalEvt]

/-- Componentwise order on `ScanProgress`. -/
def ProgLE (p q : ScanProgress) : Prop :=
  p.visited_entries ≤ q.visited_entries ∧ p.warnings ≤ q.warnings ∧
  p.apparent_bytes_seen ≤ q.apparent_bytes_seen ∧
  p.allocated_bytes_seen ≤ q.allocated_bytes_seen

theorem ProgLE.rfl (p : ScanProgress) : ProgLE p p :=
  ⟨le_refl _, le_refl _, le_refl _, le_refl _⟩

theorem ProgLE.trans {p q r : ScanProgress} (h1 : ProgLE p q) (h2 : ProgLE q r) :
    ProgLE p r :=
  ⟨h1.1.trans h2.1, h1.2.1.trans h2.2.1, h1.2.2.1.trans h2.2.2.1, h1.2.2.2.trans h2.2.2.2⟩

/-- All four counters within `u64` range (maintained by construction since all
updates go through `satAdd`, starting from zero). -/
def ProgWF (p : ScanProgress) : Prop :=
  p.visited_entries ≤ U64MAX ∧ p.warnings ≤ U64MAX ∧
  p.apparent_bytes_seen ≤ U64MAX ∧ p.allocated_bytes_seen ≤ U64MAX

/-- Events that are not progress snapshots (everything `send_critical` is ever
called with). -/
def notProgress : ScanEvent → Prop
  | .progress _ => False
  | _ => True

/-- The effect contract shared by every scanner-state operation the traversal
performs: configuration fields are untouched, the backpressure-warning flag is
untouched, the oracle only shrinks from the front, the channel closes only on a
`disconnected` oracle entry, the stream grows at the end by events satisfying
`P`, and the progress counters stay within `u64` range and grow monotonically
(every counter update in the source is a `saturating_add`). -/
structure OpEffect (P : ScanEvent → Prop) (s s' : ScannerSt) : Prop where
  options_eq : s'.options = s.options
  root_fs_eq : s'.root_fs = s.root_fs
  bp_flag_eq : s'.backpressure_warning_emitted = s.backpressure_warning_emitted
  oracle_suffix : s'.oracle <:+ s.oracle
  closed_mono : s.channel_closed = true → s'.channel_closed = true
  closed_src : s'.channel_closed = true →
    s.channel_closed = true ∨ SendResult.disconnected ∈ s.oracle
  sent_ext : ∃ Δ, s'.sent = s.sent ++ Δ ∧ ∀ e ∈ Δ, P e
  prog_mono : ProgWF s.progress → ProgLE s.progress s'.progress
  prog_wf : ProgWF s.progress → ProgWF s'.progress

theorem OpEffect.id {P : ScanEvent → Prop} (s : ScannerSt) : OpEffect P s s where
  options_eq := rfl
  root_fs_eq := rfl
  bp_flag_eq := rfl
  oracle_suffix := List.suffix_refl _
  closed_mono := fun h => h
  closed_src := fun h => Or.inl h
  sent_ext := ⟨[], by simp, by simp⟩
  prog_mono := fun _ => ProgLE.rfl _
  prog_wf := fun h => h

theorem OpEffect.comp {P : ScanEvent → Prop} {s t u : ScannerSt}
    (h1 : OpEffect P s t) (h2 : OpEffect P t u) : OpEffect P s u where
  options_eq := h2.options_eq.trans h1.options_eq
  root_fs_eq := h2.root_fs_eq.trans h1.root_fs_eq
  bp_flag_eq := h2.bp_flag_eq.trans h1.bp_flag_eq
  oracle_suffix := h2.oracle_suffix.trans h1.oracle_suffix
  closed_mono := fun h => h2.closed_mono (h1.closed_mono h)
  closed_src := fun h => by
    rcases h2.closed_src h with h | h
    · exact h1.closed_src h
    · exact Or.inr (h1.oracle_suffix.subset h)
  sent_ext := by
    obtain ⟨d1, he1, hp1⟩ := h1.sent_ext
    obtain ⟨d2, he2, hp2⟩ := h2.sent_ext
    refine ⟨d1 ++ d2, by rw [he2, he1, List.append_assoc], ?_⟩
    intro e he
    rcases List.mem_append.mp he with h | h
    · exact hp1 e h
    · exact hp2 e h
  prog_mono := fun hwf => (h1.prog_mono hwf).trans (h2.prog_mono (h1.prog_wf hwf))
  prog_wf := fun h => h2.prog_wf (h1.prog_wf h)

theorem OpEffect.weaken {P Q : ScanEvent → Prop} {s s' : ScannerSt}
    (hPQ : ∀ e, P e → Q e) (h : OpEffect P s s') : OpEffect Q s s' where
  options_eq := h.options_eq
  root_fs_eq := h.root_fs_eq
  bp_flag_eq := h.bp_flag_eq
  oracle_suffix := h.oracle_suffix
  closed_mono := h.closed_mono
  closed_src := h.closed_src
  sent_ext := by
    obtain ⟨d, he, hp⟩ := h.sent_ext
    exact ⟨d, he, fun e hm => hPQ e (hp e hm)⟩
  prog_mono := h.prog_mono
  prog_wf := h.prog_wf

/-- A pure record change that leaves the contract-relevant fields alone. -/
theorem OpEffect.of_projections {P : ScanEvent → Prop} {s s' : ScannerSt}
    (hopt : s'.options = s.options) (hrfs : s'.root_fs = s.root_fs)
    (hbp : s'.backpressure_warning_emitted = s.backpressure_warning_emitted)
    (hor : s'.oracle <:+ s.oracle)
    (hcl : s'.channel_closed = s.channel_closed)
    (hsent : s'.sent = s.sent)
    (hprog : s'.progress = s.progress) : OpEffect P s s' where
  options_eq := hopt
  root_fs_eq := hrfs
  bp_flag_eq := hbp
  oracle_suffix := hor
  closed_mono := fun h => hcl.trans h
  closed_src := fun h => Or.inl (hcl.symm.trans h)
  sent_ext := ⟨[], by rw [hsent, List.append_nil], by simp⟩
  prog_mono := fun _ => by rw [hprog]; exact ProgLE.rfl _
  prog_wf := fun h => by rw [hprog]; exact h

/-- Appending one event at the end of the stream, all else fixed. -/
theorem OpEffect.of_append {P : ScanEvent → Prop} {s s' : ScannerSt} {e : ScanEvent}
    (hPe : P e)
    (hopt : s'.options = s.options) (hrfs : s'.root_fs = s.root_fs)
    (hbp : s'.backpressure_warning_emitted = s.backpressure_warning_emitted)
    (hor : s'.oracle <:+ s.oracle)
    (hcl : s'.channel_closed = s.channel_closed)
    (hsent : s'.sent = s.sent ++ [e])
    (hprog : s'.progress = s.progress) : OpEffect P s s' where
  options_eq := hopt
  root_fs_eq := hrfs
  bp_flag_eq := hbp
  oracle_suffix := hor
  closed_mono := fun h => hcl.trans h
  closed_src := fun h => Or.inl (hcl.symm.trans h)
  sent_ext := by
    refine ⟨[e], hsent, ?_⟩
    intro x hx
    rw [List.mem_singleton] at hx
    rw [hx]; exact hPe
  prog_mono := fun _ => by rw [hprog]; exact ProgLE.rfl _
  prog_wf := fun h => by rw [hprog]; exact h

theorem try_flush_opEffect {P : ScanEvent → Prop} (hP : ∀ p, P (.progress p))
    (s : ScannerSt) : OpEffect P s (try_flush_pending_progress s) := by
  unfold try_flush_pending_progress
  cases hpp : s.pending_progress with
  | none => exact OpEffect.id s
  | some p =>
    simp only [trySend]
    cases ho : s.oracle with
    | nil =>
      simp only
      exact OpEffect.of_append (hP p) rfl rfl rfl List.nil_suffix rfl rfl rfl
    | cons r rest =>
      cases r with
      | ok =>
        simp only
        exact OpEffect.of_append (hP p) rfl rfl rfl
          (by rw [ho]; exact List.suffix_cons _ _) rfl rfl rfl
      | full =>
        simp only
        exact OpEffect.of_projections rfl rfl rfl
          (by rw [ho]; exact List.suffix_cons _ _) rfl rfl rfl
      | disconnected =>
        simp only
        exact {
          options_eq := rfl, root_fs_eq := rfl, bp_flag_eq := rfl,
          oracle_suffix := by rw [ho]; exact List.suffix_cons _ _,
          closed_mono := fun _ => rfl,
          closed_src := fun _ => Or.inr (by rw [ho]; exact List.mem_cons_self _ _),
          sent_ext := ⟨[], by simp, by simp⟩,
          prog_mono := fun _ => ProgLE.rfl _,
          prog_wf := fun h => h }

theorem send_critical_loop_opEffect {P : ScanEvent → Prop} (hP : ∀ p, P (.progress p))
    {e : ScanEvent} (hPe : P e) :
    ∀ (fuel : Nat) (s : ScannerSt), OpEffect P s (send_critical_loop fuel s e) := by
  intro fuel
  induction fuel with
  | zero => intro s; exact OpEffect.id s
  | succ fuel ih =>
    intro s
    unfold send_critical_loop
    simp only [trySend]
    cases ho : s.oracle with
    | nil =>
      simp only
      exact OpEffect.of_append hPe rfl rfl rfl List.nil_suffix rfl rfl rfl
    | cons r rest =>
      cases r with
      | ok =>
        simp only
        exact OpEffect.of_append hPe rfl rfl rfl
          (by rw [ho]; exact List.suffix_cons _ _) rfl rfl rfl
      | full =>
        simp only
        have h1 : OpEffect P s { s with oracle := rest } :=
          OpEffect.of_projections rfl rfl rfl (by rw [ho]; exact List.suffix_cons _ _)
            rfl rfl rfl
        exact h1.comp ((try_flush_opEffect hP _).comp (ih _))
      | disconnected =>
        simp only
        exact {
          options_eq := rfl, root_fs_eq := rfl, bp_flag_eq := rfl,
          oracle_suffix := by rw [ho]; exact List.suffix_cons _ _,
          closed_mono := fun _ => rfl,
          closed_src := fun _ => Or.inr (by rw [ho]; exact List.mem_cons_self _ _),
          sent_ext := ⟨[], by simp, by simp⟩,
          prog_mono := fun _ => ProgLE.rfl _,
          prog_wf := fun h => h }

theorem send_critical_opEffect {P : ScanEvent → Prop} (hP : ∀ p, P (.progress p))
    {e : ScanEvent} (hPe : P e) (s : ScannerSt) :
    OpEffect P s (send_critical s e) := by
  unfold send_critical
  by_cases hc : s.channel_closed
  · simp only [hc, if_true]
    exact OpEffect.id s
  · simp only [hc, if_false, Bool.false_eq_true]
    exact (try_flush_opEffect hP s).comp (send_critical_loop_opEffect hP hPe _ _)

/-- Shrinking the oracle alone satisfies the contract. -/
theorem drop_oracle_opEffect {P : ScanEvent → Prop} (s : ScannerSt)
    (rest : List SendResult) (h : rest <:+ s.oracle) :
    OpEffect P s { s with oracle := rest } :=
  OpEffect.of_projections rfl rfl rfl h rfl rfl rfl

/-- Updating `emitted_progress_entries` alone satisfies the contract. -/
theorem set_emitted_opEffect {P : ScanEvent → Prop} (s : ScannerSt) (n : Nat) :
    OpEffect P s { s with emitted_progress_entries := n } :=
  OpEffect.of_projections rfl rfl rfl (List.suffix_refl _) rfl rfl rfl

theorem handle_noncritical_opEffect {P : ScanEvent → Prop} (s : ScannerSt)
    (e : ScanEvent) : OpEffect P s (handle_noncritical_backpressure s e) := by
  unfold handle_noncritical_backpressure
  cases e with
  | progress p =>
    simp only
    by_cases hps : ({ s with
        deferred_progress_updates := satAdd s.deferred_progress_updates 1 } :
        ScannerSt).pending_progress.isSome
    · simp only [hps, if_true]
      exact OpEffect.of_projections rfl rfl rfl (List.suffix_refl _) rfl rfl rfl
    · simp only [hps, if_false, Bool.false_eq_true]
      exact OpEffect.of_projections rfl rfl rfl (List.suffix_refl _) rfl rfl rfl
  | nodeUpdated u =>
    exact OpEffect.of_projections rfl rfl rfl (List.suffix_refl _) rfl rfl rfl
  | reset r => exact OpEffect.id s
  | warning q m => exact OpEffect.id s
  | complete p => exact OpEffect.id s
  | error r => exact OpEffect.id s
  | cancelled => exact OpEffect.id s

theorem send_noncritical_opEffect {P : ScanEvent → Prop} (hP : ∀ p, P (.progress p))
    {e : ScanEvent} (hPe : P e) (s : ScannerSt) :
    OpEffect P s (send_noncritical s e) := by
  unfold send_noncritical
  cases hc : s.channel_closed with
  | true => simp only [hc, if_true]; exact OpEffect.id s
  | false =>
    simp only [hc, if_false, Bool.false_eq_true]
    refine (try_flush_opEffect hP s).comp ?_
    simp only [trySend]
    cases ho : (try_flush_pending_progress s).oracle with
    | nil =>
      simp only
      exact OpEffect.of_append hPe rfl rfl rfl List.nil_suffix rfl rfl rfl
    | cons r rest =>
      cases r with
      | ok =>
        simp only
        exact OpEffect.of_append hPe rfl rfl rfl
          (by rw [ho]; exact List.suffix_cons _ _) rfl rfl rfl
      | full =>
        simp only
        exact (drop_oracle_opEffect _ rest
          (by rw [ho]; exact List.suffix_cons _ _)).comp
          (handle_noncritical_opEffect _ _)
      | disconnected =>
        simp only
        exact {
          options_eq := rfl, root_fs_eq := rfl, bp_flag_eq := rfl,
          oracle_suffix := by rw [ho]; exact List.suffix_cons _ _,
          closed_mono := fun _ => rfl,
          closed_src := fun _ => Or.inr (by rw [ho]; exact List.mem_cons_self _ _),
          sent_ext := ⟨[], by simp, by simp⟩,
          prog_mono := fun _ => ProgLE.rfl _,
          prog_wf := fun h => h }

theorem send_node_update_opEffect {P : ScanEvent → Prop} (hP : ∀ p, P (.progress p))
    (hPn : ∀ u, P (.nodeUpdated u)) (s : ScannerSt) (u : NodeSummary) :
    OpEffect P s (send_node_update s u) :=
  send_noncritical_opEffect hP (hPn u) s

theorem bump_warning_opEffect {P : ScanEvent → Prop} (hP : ∀ p, P (.progress p))
    {q : List String} {m : WarnMsg} (hPw : P (.warning q m)) (s : ScannerSt) :
    OpEffect P s (bump_warning s q m) := by
  unfold bump_warning
  refine OpEffect.comp (t := { s with progress :=
    { s.progress with warnings := satAdd s.progress.warnings 1 } }) ?_ ?_
  · exact {
      options_eq := rfl, root_fs_eq := rfl, bp_flag_eq := rfl,
      oracle_suffix := List.suffix_refl _,
      closed_mono := fun h => h, closed_src := fun h => Or.inl h,
      sent_ext := ⟨[], by simp, by simp⟩,
      prog_mono := fun hwf => ⟨le_refl _, satAdd_le_right _ _ hwf.2.1, le_refl _, le_refl _⟩,
      prog_wf := fun hwf => ⟨hwf.1, satAdd_le_max _ _, hwf.2.2.1, hwf.2.2.2⟩ }
  · exact send_critical_opEffect hP hPw _

theorem bump_entry_opEffect {P : ScanEvent → Prop} (hP : ∀ p, P (.progress p))
    (s : ScannerSt) (a b : Nat) : OpEffect P s (bump_entry s a b) := by
  unfold bump_entry
  simp only
  have hbump : OpEffect P s { s with progress := {
      visited_entries := satAdd s.progress.visited_entries 1,
      warnings := s.progress.warnings,
      apparent_bytes_seen := satAdd s.progress.apparent_bytes_seen a,
      allocated_bytes_seen := satAdd s.progress.allocated_bytes_seen b } } := {
    options_eq := rfl, root_fs_eq := rfl, bp_flag_eq := rfl,
    oracle_suffix := List.suffix_refl _,
    closed_mono := fun h => h, closed_src := fun h => Or.inl h,
    sent_ext := ⟨[], by simp, by simp⟩,
    prog_mono := fun hwf => ⟨satAdd_le_right _ _ hwf.1, le_refl _,
      satAdd_le_right _ _ hwf.2.2.1, satAdd_le_right _ _ hwf.2.2.2⟩,
    prog_wf := fun hwf => ⟨satAdd_le_max _ _, hwf.2.1, satAdd_le_max _ _, satAdd_le_max _ _⟩ }
  split
  · exact hbump.comp ((set_emitted_opEffect _ _).comp
      (send_noncritical_opEffect hP (hP _) _))
  · exact hbump

theorem emit_progress_now_opEffect {P : ScanEvent → Prop} (hP : ∀ p, P (.progress p))
    (s : ScannerSt) : OpEffect P s (emit_progress_now s) := by
  unfold emit_progress_now
  exact (set_emitted_opEffect _ _).comp (send_noncritical_opEffect hP (hP _) _)

theorem should_cancel_opEffect {P : ScanEvent → Prop} (s : ScannerSt) :
    OpEffect P s (should_cancel s).2 := by
  unfold should_cancel
  cases hc : s.channel_closed with
  | true => simp only [hc, if_true]; exact OpEffect.id s
  | false =>
    simp only [hc, if_false, Bool.false_eq_true]
    cases hcf : s.cancelFuel with
    | none => exact OpEffect.id s
    | some n =>
      cases n with
      | zero => exact OpEffect.id s
      | succ m =>
        exact OpEffect.of_projections rfl rfl rfl (List.suffix_refl _) hc.symm rfl rfl

theorem summarize_non_dir_opEffect {P : ScanEvent → Prop} (hP : ∀ p, P (.progress p))
    (hPn : ∀ u, P (.nodeUpdated u)) (path : List String) (kind : FsEntryKind)
    (meta : Meta) (emit : Bool) (s : ScannerSt) :
    OpEffect P s (summarize_non_dir path kind meta emit s).2 := by
  unfold summarize_non_dir
  simp only
  refine (bump_entry_opEffect hP s meta.len (allocated_size meta)).comp ?_
  cases emit with
  | true => simp only [if_true]; exact send_node_update_opEffect hP hPn _ _
  | false => simp only [if_false, Bool.false_eq_true]; exact OpEffect.id _

/-- The scanner state carried by a `LoopOut`. -/
def LoopOut.state : LoopOut → ScannerSt
  | .cancelled s => s
  | .done _ _ _ s => s

theorem scanPhase_progress (p : ScanProgress) : scanPhaseEvt (.progress p) := trivial

theorem scanPhase_node (u : NodeSummary) : scanPhaseEvt (.nodeUpdated u) := trivial

theorem scan_dir_entries_opEffect (path : List String) (depth : Nat) (eu : Bool) :
    ∀ (entries : List RawEntry) (cc a al : Nat) (s : ScannerSt),
    OpEffect scanPhaseEvt s (scan_dir_entries path depth eu entries cc a al s).state := by
  intro entries
  induction entries with
  | nil => intro cc a al s; exact OpEffect.id s
  | cons e rest ih =>
    intro cc a al s
    unfold scan_dir_entries
    rcases hsc : should_cancel s with ⟨b, s1⟩
    have h0 : OpEffect scanPhaseEvt s s1 := by
      have h := should_cancel_opEffect (P := scanPhaseEvt) s
      rwa [hsc] at h
    simp only [hsc]
    cases b with
    | true => exact h0
    | false =>
      cases e with
      | err =>
        simp only
        exact h0.comp ((bump_warning_opEffect scanPhase_progress
          (fun a b c h => WarnMsg.noConfusion h) s1).comp (ih _ _ _ _))
      | entry child_name stat =>
        simp only
        cases stat with
        | none =>
          simp only
          exact h0.comp ((bump_warning_opEffect scanPhase_progress
            (fun a b c h => WarnMsg.noConfusion h) s1).comp (ih _ _ _ _))
        | some child_tree =>
          simp only
          split
          · exact h0.comp ((summarize_non_dir_opEffect scanPhase_progress
              scanPhase_node _ _ _ _ s1).comp (ih _ _ _ _))
          · cases hres : resolved_of child_tree with
            | none =>
              simp only
              exact h0.comp ((bump_warning_opEffect scanPhase_progress
                (fun a b c h => WarnMsg.noConfusion h) s1).comp (ih _ _ _ _))
            | some resolved =>
              simp only
              split
              · exact h0.comp (ih _ _ _ _)
              · split
                · split
                  · exact h0.comp (ih _ _ _ _)
                  · exact h0.comp ((send_node_update_opEffect scanPhase_progress
                      scanPhase_node s1 _).comp (ih _ _ _ _))
                · exact h0.comp ((summarize_non_dir_opEffect scanPhase_progress
                    scanPhase_node _ _ _ _ s1).comp (ih _ _ _ _))

/-- Recognizer for the synthesized backpressure warning message. -/
def WarnMsg.isBackpressure : WarnMsg → Bool
  | .backpressure _ _ _ => true
  | _ => false

theorem not_bp_of_isBackpressure_eq_false {m : WarnMsg} (h : m.isBackpressure = false) :
    ∀ a b c, m ≠ .backpressure a b c := by
  intro a b c he
  subst he
  simp [WarnMsg.isBackpressure] at h

theorem bump_warning_scanPhase {q : List String} {m : WarnMsg}
    (hm : m.isBackpressure = false) (s : ScannerSt) :
    OpEffect scanPhaseEvt s (bump_warning s q m) :=
  bump_warning_opEffect scanPhase_progress (not_bp_of_isBackpressure_eq_false hm) s

theorem symlink_dir_gate_opEffect (path : List String) (isl : Bool) (canon : Option Nat)
    (s : ScannerSt) :
    (∀ out, symlink_dir_gate path isl canon s = .inl out →
      OpEffect scanPhaseEvt s out.2) ∧
    (∀ s2, symlink_dir_gate path isl canon s = .inr s2 →
      OpEffect scanPhaseEvt s s2) := by
  unfold symlink_dir_gate
  cases isl with
  | false =>
    simp only [if_false, Bool.false_eq_true]
    refine ⟨fun out h => ?_, fun s2 h => ?_⟩
    · cases h
    · cases h
      exact OpEffect.id s
  | true =>
    simp only [if_true]
    cases canon with
    | none =>
      refine ⟨fun out h => ?_, fun s2 h => ?_⟩
      · cases h
        exact bump_warning_scanPhase (m := .cannotCanonicalizeSymlinkDir) rfl s
      · cases h
    | some c =>
      by_cases hm : c ∈ s.visited_symlink_dirs
      · simp only [hm, if_true]
        refine ⟨fun out h => ?_, fun s2 h => ?_⟩
        · cases h
          exact bump_warning_scanPhase (m := .symlinkCycle) rfl s
        · cases h
      · simp only [hm, if_false]
        refine ⟨fun out h => ?_, fun s2 h => ?_⟩
        · cases h
        · cases h
          exact OpEffect.of_projections rfl rfl rfl (List.suffix_refl _) rfl rfl rfl

theorem scan_dir_opEffect (fuel : Nat) :
    (∀ path depth isl meta canon entries ei eu s ctrl s1,
      scan_dir fuel path depth isl meta canon entries ei eu s = some (ctrl, s1) →
      OpEffect scanPhaseEvt s s1) ∧
    (∀ path depth eu entries cc a al s out,
      scan_pending_dirs fuel path depth eu entries cc a al s = some out →
      OpEffect scanPhaseEvt s out.state) := by
  induction fuel with
  | zero =>
    constructor
    · intro path depth isl meta canon entries ei eu s ctrl s1 h
      simp [scan_dir] at h
    · intro path depth eu entries cc a al s out h
      simp [scan_pending_dirs] at h
  | succ fuel ih =>
    obtain ⟨ihD, ihP⟩ := ih
    constructor
    · intro path depth isl meta canon entries ei eu s ctrl s1 h
      rw [scan_dir] at h
      rcases hsc : should_cancel s with ⟨b, sA⟩
      have h0 : OpEffect scanPhaseEvt s sA := by
        have hx := should_cancel_opEffect (P := scanPhaseEvt) s
        rwa [hsc] at hx
      rw [hsc] at h
      cases b with
      | true => cases h; exact h0
      | false =>
        simp only at h
        rcases hg : symlink_dir_gate path isl canon sA with out | sB
        · obtain ⟨ctrlO, sO⟩ := out
          rw [hg] at h
          simp only at h
          cases h
          exact h0.comp ((symlink_dir_gate_opEffect path isl canon sA).1 _ hg)
        · rw [hg] at h
          simp only at h
          have hB : OpEffect scanPhaseEvt s sB :=
            h0.comp ((symlink_dir_gate_opEffect path isl canon sA).2 sB hg)
          set sI := (if ei && eu then
              send_node_update sB {
                path := path,
                kind := if isl then FsEntryKind.symlink else FsEntryKind.dir,
                apparent_bytes := meta.len, allocated_bytes := allocated_size meta,
                children_count := 0, is_complete := false }
            else sB) with hsI
          have h3 : OpEffect scanPhaseEvt sB sI := by
            rw [hsI]
            split
            · exact send_node_update_opEffect scanPhase_progress scanPhase_node _ _
            · exact OpEffect.id _
          cases entries with
          | none =>
            simp only at h
            cases h
            refine (hB.comp h3).comp ?_
            refine (bump_warning_scanPhase (q := path) (m := .cannotReadDirectory) rfl _).comp ?_
            refine (bump_entry_opEffect scanPhase_progress _ meta.len (allocated_size meta)).comp ?_
            split
            · exact send_node_update_opEffect scanPhase_progress scanPhase_node _ _
            · exact OpEffect.id _
          | some entry_list =>
            simp only at h
            have h4 := scan_dir_entries_opEffect path depth eu entry_list 0 meta.len
              (allocated_size meta) sI
            cases hp1 : scan_dir_entries path depth eu entry_list 0 meta.len
                (allocated_size meta) sI with
            | cancelled sC =>
              rw [hp1] at h h4
              simp only at h
              cases h
              exact (hB.comp h3).comp h4
            | done cc1 at1 al1 sC =>
              rw [hp1] at h h4
              simp only at h
              cases hp2 : scan_pending_dirs fuel path depth eu entry_list cc1 at1 al1 sC with
              | none => rw [hp2] at h; cases h
              | some lo =>
                rw [hp2] at h
                have h5 := ihP path depth eu entry_list cc1 at1 al1 sC lo hp2
                cases lo with
                | cancelled sD =>
                  simp only at h
                  cases h
                  exact ((hB.comp h3).comp h4).comp h5
                | done cc2 at2 al2 sD =>
                  simp only at h
                  cases h
                  refine (((hB.comp h3).comp h4).comp h5).comp ?_
                  refine (bump_entry_opEffect scanPhase_progress _ meta.len (allocated_size meta)).comp ?_
                  split
                  · exact send_node_update_opEffect scanPhase_progress scanPhase_node _ _
                  · exact OpEffect.id _
    · intro path depth eu entries cc a al s out h
      rw [scan_pending_dirs.eq_def] at h
      simp only at h
      cases entries with
      | nil =>
        simp only at h
        cases h
        exact OpEffect.id s
      | cons e rest =>
        cases e with
        | err =>
          simp only at h
          exact ihP path depth eu rest cc a al s out h
        | entry child_name stat =>
          simp only at h
          cases stat with
          | none =>
            simp only at h
            exact ihP path depth eu rest cc a al s out h
          | some child_tree =>
            simp only at h
            split at h
            · exact ihP path depth eu rest cc a al s out h
            · cases hres : resolved_of child_tree with
              | none =>
                rw [hres] at h
                simp only at h
                exact ihP path depth eu rest cc a al s out h
              | some resolved =>
                rw [hres] at h
                simp only at h
                split at h
                · exact ihP path depth eu rest cc a al s out h
                · split at h
                  · cases hd : scan_dir fuel (path ++ [child_name]) (depth + 1)
                        child_tree.isSymlink resolved.meta resolved.canon resolved.entries
                        (! (! child_tree.isSymlink &&
                          child_emit_updates s.options eu child_name (depth + 1)))
                        (child_emit_updates s.options eu child_name (depth + 1)) s with
                    | none => rw [hd] at h; cases h
                    | some cs =>
                      rw [hd] at h
                      obtain ⟨ctrl2, sE⟩ := cs
                      have h6 := ihD (path ++ [child_name]) (depth + 1)
                        child_tree.isSymlink resolved.meta resolved.canon resolved.entries
                        _ _ s ctrl2 sE hd
                      cases ctrl2 with
                      | cancelled =>
                        simp only at h
                        cases h
                        exact h6
                      | cont child =>
                        cases child with
                        | some childS =>
                          simp only at h
                          exact h6.comp (ihP path depth eu rest _ _ _ sE out h)
                        | none =>
                          simp only at h
                          exact h6.comp (ihP path depth eu rest cc a al sE out h)
                  · exact ihP path depth eu rest cc a al s out h

theorem scan_entry_opEffect (fuel : Nat) (path : List String) (depth : Nat)
    (stat : Option FsTree) (s : ScannerSt) (ctrl : ScanControl) (s1 : ScannerSt)
    (h : scan_entry fuel path depth stat s = some (ctrl, s1)) :
    OpEffect scanPhaseEvt s s1 := by
  unfold scan_entry at h
  rcases hsc : should_cancel s with ⟨b, sA⟩
  rw [hsc] at h
  have h0 : OpEffect scanPhaseEvt s sA := by
    have hx := should_cancel_opEffect (P := scanPhaseEvt) s
    rwa [hsc] at hx
  cases b with
  | true => cases h; exact h0
  | false =>
    simp only at h
    cases stat with
    | none =>
      cases h
      exact h0.comp (bump_warning_scanPhase (m := .cannotStatPath) rfl sA)
    | some tree =>
      simp only at h
      split at h
      · cases h
        exact h0.comp (summarize_non_dir_opEffect scanPhase_progress scanPhase_node
          _ _ _ _ sA)
      · cases hres : resolved_of tree with
        | none =>
          rw [hres] at h
          simp only at h
          cases h
          exact h0.comp (bump_warning_scanPhase (m := .cannotFollowSymlinkTarget) rfl sA)
        | some resolved =>
          rw [hres] at h
          simp only at h
          split at h
          · cases h; exact h0
          · split at h
            · cases h
              exact h0.comp (summarize_non_dir_opEffect scanPhase_progress
                scanPhase_node _ _ _ _ sA)
            · split at h
              · exact h0.comp ((scan_dir_opEffect fuel).1 _ _ _ _ _ _ _ _ _ _ _ h)
              · cases h
                exact h0.comp (summarize_non_dir_opEffect scanPhase_progress
                  scanPhase_node _ _ _ _ sA)

/-! ## Delivery lemmas for the `run_scan` protocol -/

/-- The three terminal events of the protocol. -/
def isTerminal : ScanEvent → Prop
  | .complete _ => True
  | .error _ => True
  | .cancelled => True
  | _ => False

/-- Recognizer for the synthesized backpressure warning event. -/
def isBPWarning : ScanEvent → Bool
  | .warning _ m => m.isBackpressure
  | _ => false

/-- Number of backpressure warnings in a stream. -/
def countBP (l : List ScanEvent) : Nat := (l.filter isBPWarning).length

theorem countBP_append (a b : List ScanEvent) :
    countBP (a ++ b) = countBP a + countBP b := by
  simp [countBP, List.filter_append]

/-- What `try_flush_pending_progress` does to the fields the protocol theorems
read. -/
theorem try_flush_spec (s : ScannerSt) :
    (∃ Δ, (try_flush_pending_progress s).sent = s.sent ++ Δ ∧
      ∀ x ∈ Δ, ∃ p, x = ScanEvent.progress p) ∧
    (try_flush_pending_progress s).oracle <:+ s.oracle ∧
    (try_flush_pending_progress s).progress = s.progress ∧
    (try_flush_pending_progress s).dropped_node_updates = s.dropped_node_updates ∧
    (try_flush_pending_progress s).deferred_progress_updates = s.deferred_progress_updates ∧
    (try_flush_pending_progress s).backpressure_warning_emitted =
      s.backpressure_warning_emitted ∧
    (SendResult.disconnected ∉ s.oracle →
      (try_flush_pending_progress s).channel_closed = s.channel_closed) := by
  unfold try_flush_pending_progress
  cases hpp : s.pending_progress with
  | none =>
    exact ⟨⟨[], by simp, by simp⟩, List.suffix_refl _, rfl, rfl, rfl, rfl, fun _ => rfl⟩
  | some p =>
    simp only [trySend]
    cases ho : s.oracle with
    | nil =>
      refine ⟨⟨[.progress p], rfl, ?_⟩, List.nil_suffix, rfl, rfl, rfl, rfl, fun _ => rfl⟩
      intro x hx
      rw [List.mem_singleton] at hx
      exact ⟨p, hx⟩
    | cons r rest =>
      cases r with
      | ok =>
        refine ⟨⟨[.progress p], rfl, ?_⟩, List.suffix_cons _ _,
          rfl, rfl, rfl, rfl, fun _ => rfl⟩
        intro x hx
        rw [List.mem_singleton] at hx
        exact ⟨p, hx⟩
      | full =>
        exact ⟨⟨[], by simp, by simp⟩, List.suffix_cons _ _,
          rfl, rfl, rfl, rfl, fun _ => rfl⟩
      | disconnected =>
        refine ⟨⟨[], by simp, by simp⟩, List.suffix_cons _ _,
          rfl, rfl, rfl, rfl, fun hnd => ?_⟩
        exact absurd (List.mem_cons_self _ _) hnd

theorem send_critical_loop_spec (e : ScanEvent) :
    ∀ (fuel : Nat) (s : ScannerSt), SendResult.disconnected ∉ s.oracle →
      s.oracle.length < fuel →
      ∃ Δ, (send_critical_loop fuel s e).sent = s.sent ++ Δ ++ [e] ∧
        (∀ x ∈ Δ, ∃ p, x = ScanEvent.progress p) ∧
        (send_critical_loop fuel s e).progress = s.progress ∧
        (send_critical_loop fuel s e).dropped_node_updates = s.dropped_node_updates ∧
        (send_critical_loop fuel s e).deferred_progress_updates =
          s.deferred_progress_updates ∧
        (send_critical_loop fuel s e).backpressure_warning_emitted =
          s.backpressure_warning_emitted ∧
        (send_critical_loop fuel s e).channel_closed = s.channel_closed := by
  intro fuel
  induction fuel with
  | zero => intro s _ hlen; omega
  | succ fuel ih =>
    intro s hnd hlen
    unfold send_critical_loop
    simp only [trySend]
    cases ho : s.oracle with
    | nil =>
      exact ⟨[], by simp, by simp, rfl, rfl, rfl, rfl, rfl⟩
    | cons r rest =>
      cases r with
      | ok => exact ⟨[], by simp, by simp, rfl, rfl, rfl, rfl, rfl⟩
      | full =>
        have hnd1 : SendResult.disconnected ∉ rest := by
          rw [ho] at hnd
          exact fun hm => hnd (List.mem_cons_of_mem _ hm)
        obtain ⟨⟨Δ0, hs0, hp0⟩, hsuf0, hpr0, hdr0, hdf0, hbp0, hcl0⟩ :=
          try_flush_spec { s with oracle := rest }
        have hnd2 : SendResult.disconnected ∉
            (try_flush_pending_progress { s with oracle := rest }).oracle := by
          intro hm
          exact hnd1 (hsuf0.subset hm)
        have hlen2 : (try_flush_pending_progress { s with oracle := rest }).oracle.length
            < fuel := by
          have hx := hsuf0.length_le
          simp only at hx
          rw [ho] at hlen
          simp at hlen
          omega
        obtain ⟨Δ1, hs1, hp1, hpr1, hdr1, hdf1, hbp1, hcl1⟩ := ih _ hnd2 hlen2
        refine ⟨Δ0 ++ Δ1, ?_, ?_, ?_, ?_, ?_, ?_, ?_⟩
        · rw [hs1, hs0]
          simp [List.append_assoc]
        · intro x hx
          rcases List.mem_append.mp hx with h | h
          · exact hp0 x h
          · exact hp1 x h
        · rw [hpr1, hpr0]
        · rw [hdr1, hdr0]
        · rw [hdf1, hdf0]
        · rw [hbp1, hbp0]
        · rw [hcl1, hcl0 hnd1]
      | disconnected =>
        exact absurd (by rw [ho]; exact List.mem_cons_self _ _) hnd

/-- `send_critical` on an open, never-disconnecting channel delivers `e` as the
last event, preceded only by flushed progress snapshots, and touches none of
the counters. -/
theorem send_critical_spec (e : ScanEvent) (s : ScannerSt)
    (hnd : SendResult.disconnected ∉ s.oracle) (hcl : s.channel_closed = false) :
    ∃ Δ, (send_critical s e).sent = s.sent ++ Δ ++ [e] ∧
      (∀ x ∈ Δ, ∃ p, x = ScanEvent.progress p) ∧
      (send_critical s e).progress = s.progress ∧
      (send_critical s e).dropped_node_updates = s.dropped_node_updates ∧
      (send_critical s e).deferred_progress_updates = s.deferred_progress_updates ∧
      (send_critical s e).backpressure_warning_emitted =
        s.backpressure_warning_emitted := by
  unfold send_critical
  rw [hcl]
  simp only [if_false, Bool.false_eq_true]
  obtain ⟨⟨Δ0, hs0, hp0⟩, hsuf, hpr0, hdr0, hdf0, hbp0, hcl0⟩ := try_flush_spec s
  have hnd1 : SendResult.disconnected ∉ (try_flush_pending_progress s).oracle :=
    fun hm => hnd (hsuf.subset hm)
  obtain ⟨Δ1, hs1, hp1, hpr1, hdr1, hdf1, hbp1, _⟩ :=
    send_critical_loop_spec e ((try_flush_pending_progress s).oracle.length + 1)
      (try_flush_pending_progress s) hnd1 (by omega)
  refine ⟨Δ0 ++ Δ1, ?_, ?_, ?_, ?_, ?_, ?_⟩
  · rw [hs1, hs0]
    simp [List.append_assoc]
  · intro x hx
    rcases List.mem_append.mp hx with h | h
    · exact hp0 x h
    · exact hp1 x h
  · rw [hpr1, hpr0]
  · rw [hdr1, hdr0]
  · rw [hdf1, hdf0]
  · rw [hbp1, hbp0]

theorem send_critical_event_spec (e : ScanEvent) :
    ∀ (fuel : Nat) (oracle : List SendResult) (sent : List ScanEvent),
      SendResult.disconnected ∉ oracle → oracle.length < fuel →
      ∃ oracle2, send_critical_event fuel oracle sent e = (true, oracle2, sent ++ [e]) ∧
        SendResult.disconnected ∉ oracle2 := by
  intro fuel
  induction fuel with
  | zero => intro oracle sent hnd hlen; omega
  | succ fuel ih =>
    intro oracle sent hnd hlen
    unfold send_critical_event
    cases oracle with
    | nil => exact ⟨[], rfl, by simp⟩
    | cons r rest =>
      cases r with
      | ok => exact ⟨rest, rfl, fun hm => hnd (List.mem_cons_of_mem _ hm)⟩
      | full =>
        simp only
        refine ih rest sent (fun hm => hnd (List.mem_cons_of_mem _ hm)) ?_
        simp only [List.length_cons] at hlen
        omega
      | disconnected => exact absurd (List.mem_cons_self _ _) hnd

theorem send_noncritical_progress_spec (t : ScannerSt) (q : ScanProgress) :
    ∃ Δ, (send_noncritical t (.progress q)).sent = t.sent ++ Δ ∧
      (∀ x ∈ Δ, ∃ p, x = ScanEvent.progress p) ∧
      (send_noncritical t (.progress q)).progress = t.progress ∧
      (send_noncritical t (.progress q)).dropped_node_updates =
        t.dropped_node_updates ∧
      ((send_noncritical t (.progress q)).deferred_progress_updates =
          t.deferred_progress_updates ∨
        (send_noncritical t (.progress q)).deferred_progress_updates =
          satAdd t.deferred_progress_updates 1) ∧
      (send_noncritical t (.progress q)).backpressure_warning_emitted =
        t.backpressure_warning_emitted := by
  unfold send_noncritical
  cases hc : t.channel_closed with
  | true =>
    exact ⟨[], by simp, by simp, rfl, rfl, Or.inl rfl, rfl⟩
  | false =>
    simp only [if_neg (Bool.false_ne_true)]
    obtain ⟨⟨Δ0, hs0, hp0⟩, hsuf0, hpr0, hdr0, hdf0, hbp0, hcl0⟩ := try_flush_spec t
    simp only [trySend]
    cases ho : (try_flush_pending_progress t).oracle with
    | nil =>
      refine ⟨Δ0 ++ [.progress q], by rw [hs0]; simp, ?_, hpr0, hdr0,
        Or.inl hdf0, hbp0⟩
      intro x hx
      rcases List.mem_append.mp hx with h | h
      · exact hp0 x h
      · rw [List.mem_singleton] at h
        exact ⟨q, h⟩
    | cons r rest =>
      cases r with
      | ok =>
        refine ⟨Δ0 ++ [.progress q], by rw [hs0]; simp, ?_, hpr0, hdr0,
          Or.inl hdf0, hbp0⟩
        intro x hx
        rcases List.mem_append.mp hx with h | h
        · exact hp0 x h
        · rw [List.mem_singleton] at h
          exact ⟨q, h⟩
      | full =>
        unfold handle_noncritical_backpressure
        simp only
        split
        · exact ⟨Δ0, by rw [hs0], hp0, hpr0, hdr0, Or.inr (by rw [hdf0]), hbp0⟩
        · exact ⟨Δ0, by rw [hs0], hp0, hpr0, hdr0, Or.inr (by rw [hdf0]), hbp0⟩
      | disconnected =>
        exact ⟨Δ0, by rw [hs0], hp0, hpr0, hdr0, Or.inl hdf0, hbp0⟩

theorem emit_progress_now_spec (s : ScannerSt) :
    ∃ Δ, (emit_progress_now s).sent = s.sent ++ Δ ∧
      (∀ x ∈ Δ, ∃ p, x = ScanEvent.progress p) ∧
      (emit_progress_now s).progress = s.progress ∧
      (emit_progress_now s).dropped_node_updates = s.dropped_node_updates ∧
      ((emit_progress_now s).deferred_progress_updates = s.deferred_progress_updates ∨
        (emit_progress_now s).deferred_progress_updates =
          satAdd s.deferred_progress_updates 1) ∧
      (emit_progress_now s).backpressure_warning_emitted =
        s.backpressure_warning_emitted := by
  unfold emit_progress_now
  exact send_noncritical_progress_spec
    { s with emitted_progress_entries := s.progress.visited_entries } _

/-- The state update `emit_backpressure_warning_if_needed` performs before
sending the warning (flag set, warnings counter bumped). -/
def bp_warn_state (s : ScannerSt) : ScannerSt :=
  { s with
    backpressure_warning_emitted := true,
    progress := { s.progress with warnings := satAdd s.progress.warnings 1 } }

theorem emit_backpressure_spec (s : ScannerSt)
    (hnd : SendResult.disconnected ∉ s.oracle) (hcl : s.channel_closed = false) :
    ∃ Δ, (emit_backpressure_warning_if_needed s).sent = s.sent ++ Δ ∧
      (∀ x ∈ Δ, nonTerminalEvt x) ∧
      countBP Δ = (if s.backpressure_warning_emitted = false ∧
          ¬ (s.dropped_node_updates = 0 ∧ s.deferred_progress_updates = 0)
        then 1 else 0) ∧
      (emit_backpressure_warning_if_needed s).dropped_node_updates =
        s.dropped_node_updates ∧
      (emit_backpressure_warning_if_needed s).deferred_progress_updates =
        s.deferred_progress_updates ∧
      (emit_backpressure_warning_if_needed s).oracle <:+ s.oracle ∧
      (emit_backpressure_warning_if_needed s).channel_closed = false := by
  unfold emit_backpressure_warning_if_needed
  cases hbp : s.backpressure_warning_emitted with
  | true =>
    rw [if_pos (by simp : ((true || s.channel_closed) = true))]
    refine ⟨[], by simp, by simp, ?_, rfl, rfl, List.suffix_refl _, hcl⟩
    rw [if_neg]
    · simp [countBP]
    · intro hcontra
      simp at hcontra
  | false =>
    rw [if_neg (by simp [hcl] : ¬ ((false || s.channel_closed) = true))]
    by_cases hz : s.dropped_node_updates = 0 ∧ s.deferred_progress_updates = 0
    · rw [if_pos hz]
      refine ⟨[], by simp, by simp, ?_, rfl, rfl, List.suffix_refl _, hcl⟩
      rw [if_neg]
      · simp [countBP]
      · intro hcontra
        exact hcontra.2 hz
    · rw [if_neg hz]
      show ∃ Δ,
        (send_critical (bp_warn_state s)
          (.warning s.options.root (.backpressure s.dropped_node_updates
            s.deferred_progress_updates s.coalesced_progress_updates))).sent =
          s.sent ++ Δ ∧
        (∀ x ∈ Δ, nonTerminalEvt x) ∧
        countBP Δ = (if (false = false) ∧
            ¬ (s.dropped_node_updates = 0 ∧ s.deferred_progress_updates = 0)
          then 1 else 0) ∧
        (send_critical (bp_warn_state s)
          (.warning s.options.root (.backpressure s.dropped_node_updates
            s.deferred_progress_updates s.coalesced_progress_updates))).dropped_node_updates =
          s.dropped_node_updates ∧
        (send_critical (bp_warn_state s)
          (.warning s.options.root (.backpressure s.dropped_node_updates
            s.deferred_progress_updates s.coalesced_progress_updates))).deferred_progress_updates =
          s.deferred_progress_updates ∧
        (send_critical (bp_warn_state s)
          (.warning s.options.root (.backpressure s.dropped_node_updates
            s.deferred_progress_updates s.coalesced_progress_updates))).oracle <:+ s.oracle ∧
        (send_critical (bp_warn_state s)
          (.warning s.options.root (.backpressure s.dropped_node_updates
            s.deferred_progress_updates s.coalesced_progress_updates))).channel_closed = false
      have htr := send_critical_opEffect (P := fun _ => True) (fun _ => trivial)
        (e := .warning s.options.root (.backpressure s.dropped_node_updates
          s.deferred_progress_updates s.coalesced_progress_updates))
        trivial (bp_warn_state s)
      obtain ⟨Δp, hsent, hprog, hpr, hdr, hdf, hbpflag⟩ := send_critical_spec
        (.warning s.options.root (.backpressure s.dropped_node_updates
          s.deferred_progress_updates s.coalesced_progress_updates))
        (bp_warn_state s) hnd hcl
      refine ⟨Δp ++ [.warning s.options.root (.backpressure s.dropped_node_updates
          s.deferred_progress_updates s.coalesced_progress_updates)], ?_, ?_, ?_, ?_, ?_, ?_, ?_⟩
      · rw [hsent]
        show (bp_warn_state s).sent ++ Δp ++ _ = _
        simp [bp_warn_state, List.append_assoc]
      · intro x hx
        rcases List.mem_append.mp hx with h | h
        · obtain ⟨p, hp⟩ := hprog x h
          rw [hp]
          trivial
        · rw [List.mem_singleton] at h
          rw [h]
          trivial
      · rw [if_pos ⟨rfl, hz⟩, countBP_append]
        have h0 : ∀ L : List ScanEvent, (∀ x ∈ L, ∃ p, x = ScanEvent.progress p) →
            countBP L = 0 := by
          intro L
          induction L with
          | nil => intro _; rfl
          | cons y ys ihy =>
            intro hall
            obtain ⟨p, hp⟩ := hall y (List.mem_cons_self _ _)
            rw [hp]
            simp only [countBP, List.filter_cons]
            have hbpf : isBPWarning (ScanEvent.progress p) = false := rfl
            rw [hbpf]
            exact ihy (fun x hx => hall x (List.mem_cons_of_mem _ hx))
        rw [h0 Δp hprog]
        rfl
      · exact hdr
      · exact hdf
      · exact htr.oracle_suffix
      · cases hc2 : (send_critical (bp_warn_state s)
            (.warning s.options.root (.backpressure s.dropped_node_updates
              s.deferred_progress_updates s.coalesced_progress_updates))).channel_closed with
        | false => rfl
        | true =>
          rcases htr.closed_src hc2 with hx | hx
          · exact absurd (show s.channel_closed = true from hx) (by rw [hcl]; simp)
          · exact absurd hx hnd

theorem nonTerminal_not_terminal {e : ScanEvent} (h : nonTerminalEvt e) :
    ¬ isTerminal e := by
  cases e <;> simp_all [nonTerminalEvt, isTerminal]

/-- C2.  For every scan session whose consumer keeps the receiving end of the
channel open until the stream ends (no `disconnected` outcome), the first
event delivered is `Reset{root}`, and exactly one of `Complete`, `Error`, or
`Cancelled` is delivered, as the last event of the stream — no event of any
kind follows it. -/
theorem run_scan_protocol (fuel : Nat) (options : ScanOptions)
    (root_stat : Option FsTree) (oracle : List SendResult) (cancelFuel : Option Nat)
    (s : ScannerSt) (hnd : SendResult.disconnected ∉ oracle)
    (hrun : run_scan fuel options root_stat oracle cancelFuel = some s) :
    ∃ pre term, s.sent = ScanEvent.reset options.root :: (pre ++ [term]) ∧
      isTerminal term ∧ ∀ e ∈ pre, ¬ isTerminal e := by
  unfold run_scan at hrun
  obtain ⟨oracle1, hsce, hnd1⟩ := send_critical_event_spec (.reset options.root)
    (oracle.length + 1) oracle [] hnd (by omega)
  rw [hsce] at hrun
  simp only at hrun
  cases root_stat with
  | none =>
    obtain ⟨oracle2, hsce2, hnd2⟩ := send_critical_event_spec (.error options.root)
      (oracle1.length + 1) oracle1 ([] ++ [.reset options.root]) hnd1 (by omega)
    rw [hsce2] at hrun
    simp only at hrun
    cases hrun
    exact ⟨[], .error options.root, by simp [initial_scanner_state], trivial, by simp⟩
  | some root_tree =>
    simp only at hrun
    cases hscan : scan_entry fuel options.root 0 (some root_tree)
        (initial_scanner_state options
          (if options.one_file_system then filesystem_id root_tree.meta else none)
          oracle1 ([] ++ [.reset options.root]) cancelFuel false) with
    | none => rw [hscan] at hrun; cases hrun
    | some cs =>
      rw [hscan] at hrun
      obtain ⟨ctrl, s1⟩ := cs
      have heff := scan_entry_opEffect fuel options.root 0 (some root_tree) _ ctrl s1 hscan
      obtain ⟨Δ, hsent1, hphase⟩ := heff.sent_ext
      have hcl1 : s1.channel_closed = false := by
        cases hc1 : s1.channel_closed with
        | false => rfl
        | true =>
          rcases heff.closed_src hc1 with hx | hx
          · exact absurd hx (by simp [initial_scanner_state])
          · exact absurd hx hnd1
      have hnd1' : SendResult.disconnected ∉ s1.oracle :=
        fun hm => hnd1 (heff.oracle_suffix.subset hm)
      obtain ⟨Δb, hsb, hnb, _, _, _, hsufb, hclb⟩ := emit_backpressure_spec s1 hnd1' hcl1
      have hndb : SendResult.disconnected ∉
          (emit_backpressure_warning_if_needed s1).oracle :=
        fun hm => hnd1' (hsufb.subset hm)
      cases ctrl with
      | cont out =>
        simp only at hrun
        obtain ⟨Δe, hse, hpe, _, _, _⟩ :=
          emit_progress_now_spec (emit_backpressure_warning_if_needed s1)
        have hepe := emit_progress_now_opEffect (P := fun _ => True) (fun _ => trivial)
          (emit_backpressure_warning_if_needed s1)
        have hcle : (emit_progress_now (emit_backpressure_warning_if_needed s1)).channel_closed
            = false := by
          cases hc2 : (emit_progress_now
              (emit_backpressure_warning_if_needed s1)).channel_closed with
          | false => rfl
          | true =>
            rcases hepe.closed_src hc2 with hx | hx
            · exact absurd (hclb ▸ hx) (by simp)
            · exact absurd hx hndb
        have hnde : SendResult.disconnected ∉
            (emit_progress_now (emit_backpressure_warning_if_needed s1)).oracle :=
          fun hm => hndb (hepe.oracle_suffix.subset hm)
        obtain ⟨Δc, hsc2, hpc, _, _, _⟩ := send_critical_spec
          (.complete (emit_progress_now
            (emit_backpressure_warning_if_needed s1)).progress)
          (emit_progress_now (emit_backpressure_warning_if_needed s1)) hnde hcle
        cases hrun
        refine ⟨Δ ++ Δb ++ Δe ++ Δc,
          .complete (emit_progress_now
            (emit_backpressure_warning_if_needed s1)).progress, ?_, trivial, ?_⟩
        · rw [hsc2, hse, hsb, hsent1]
          simp [initial_scanner_state, List.append_assoc]
        · intro e he
          rcases List.mem_append.mp he with he1 | hec
          · rcases List.mem_append.mp he1 with he2 | hee
            · rcases List.mem_append.mp he2 with hep | heb
              · exact nonTerminal_not_terminal (scanPhaseEvt.nonTerminal (hphase e hep))
              · exact nonTerminal_not_terminal (hnb e heb)
            · obtain ⟨p, hp⟩ := hpe e hee
              rw [hp]
              exact nonTerminal_not_terminal trivial
          · obtain ⟨p, hp⟩ := hpc e hec
            rw [hp]
            exact nonTerminal_not_terminal trivial
      | cancelled =>
        simp only at hrun
        obtain ⟨Δc, hsc2, hpc, _, _, _⟩ := send_critical_spec .cancelled
          (emit_backpressure_warning_if_needed s1) hndb hclb
        cases hrun
        refine ⟨Δ ++ Δb ++ Δc, .cancelled, ?_, trivial, ?_⟩
        · rw [hsc2, hsb, hsent1]
          simp [initial_scanner_state, List.append_assoc]
        · intro e he
          rcases List.mem_append.mp he with he1 | hec
          · rcases List.mem_append.mp he1 with hep | heb
            · exact nonTerminal_not_terminal (scanPhaseEvt.nonTerminal (hphase e hep))
            · exact nonTerminal_not_terminal (hnb e heb)
          · obtain ⟨p, hp⟩ := hpc e hec
            rw [hp]
            exact nonTerminal_not_terminal trivial

/-- Concrete fixtures for witnesses: a root directory with a subdirectory
(holding one deep file), an ordinary file and a hidden file. -/
def w_tree : FsTree :=
  .dir { len := 10, blocks := 0, dev := 1 } none (some [
    .entry "a" (some (.dir { len := 5, blocks := 0, dev := 1 } none (some [
      .entry "f1" (some (.file { len := 100, blocks := 0, dev := 1 }))]))),
    .entry "f2" (some (.file { len := 50, blocks := 0, dev := 1 })),
    .entry ".h" (some (.file { len := 7, blocks := 0, dev := 1 }))])

def w_opts : ScanOptions :=
  { root := ["r"], one_file_system := true, follow_symlinks := false,
    show_hidden := true, show_files := true, max_depth := none }

/-- A scanner state that only serves as the `Option.getD` default in witness
statements (the scans there are proved to return `some`). -/
def w_default : ScannerSt := initial_scanner_state w_opts none [] [] none false

/-- C2 witness. -/
theorem run_scan_protocol_witness :
    ∃ pre term,
      ((run_scan 10 w_opts (some w_tree) [] none).getD w_default).sent =
        ScanEvent.reset w_opts.root :: (pre ++ [term]) ∧
      isTerminal term ∧ ∀ e ∈ pre, ¬ isTerminal e :=
  run_scan_protocol 10 w_opts (some w_tree) [] none
    ((run_scan 10 w_opts (some w_tree) [] none).getD w_default)
    (by decide) (by rfl)

/-- Endpoint monotonicity of the counter-updating operations and of whole
traversal segments (`bump_entry`, `bump_warning`, `scan_dir`, `scan_entry`);
subsumed by the per-step session monotonicity `scanStep_prog_mono` /
`scanSession_prog_mono` proved further below. -/
theorem scan_progress_counters_monotone :
    (∀ (s : ScannerSt) (a b : Nat), ProgWF s.progress →
      ProgLE s.progress (bump_entry s a b).progress ∧
        ProgWF (bump_entry s a b).progress) ∧
    (∀ (s : ScannerSt) (path : List String) (m : WarnMsg), ProgWF s.progress →
      ProgLE s.progress (bump_warning s path m).progress ∧
        ProgWF (bump_warning s path m).progress) ∧
    (∀ fuel path depth isl meta canon entries ei eu s ctrl s1,
      scan_dir fuel path depth isl meta canon entries ei eu s = some (ctrl, s1) →
      ProgWF s.progress → ProgLE s.progress s1.progress ∧ ProgWF s1.progress) ∧
    (∀ fuel path depth stat s ctrl s1,
      scan_entry fuel path depth stat s = some (ctrl, s1) →
      ProgWF s.progress → ProgLE s.progress s1.progress ∧ ProgWF s1.progress) := by
  refine ⟨?_, ?_, ?_, ?_⟩
  · intro s a b hwf
    have h := bump_entry_opEffect (P := fun _ => True) (fun _ => trivial) s a b
    exact ⟨h.prog_mono hwf, h.prog_wf hwf⟩
  · intro s path m hwf
    have h := bump_warning_opEffect (P := fun _ => True) (q := path) (m := m)
      (fun _ => trivial) (trivial) s
    exact ⟨h.prog_mono hwf, h.prog_wf hwf⟩
  · intro fuel path depth isl meta canon entries ei eu s ctrl s1 hrun hwf
    have h := (scan_dir_opEffect fuel).1 path depth isl meta canon entries
      ei eu s ctrl s1 hrun
    exact ⟨h.prog_mono hwf, h.prog_wf hwf⟩
  · intro fuel path depth stat s ctrl s1 hrun hwf
    have h := scan_entry_opEffect fuel path depth stat s ctrl s1 hrun
    exact ⟨h.prog_mono hwf, h.prog_wf hwf⟩

/-- Concrete instance of `scan_progress_counters_monotone`. -/
theorem scan_progress_counters_monotone_witness :
    ProgLE w_default.progress (bump_entry w_default 3 4).progress ∧
    ProgWF (bump_entry w_default 3 4).progress :=
  (scan_progress_counters_monotone.1 w_default 3 4
    (by refine ⟨?_, ?_, ?_, ?_⟩ <;> simp [w_default, initial_scanner_state, U64MAX]))

/-! ## C3: backpressure handling -/

theorem scanPhase_not_bpWarning {e : ScanEvent} (h : scanPhaseEvt e) :
    isBPWarning e = false := by
  cases e
  case warning path m =>
    cases m
    case backpressure a b c => exact absurd rfl (h a b c)
    all_goals rfl
  all_goals first | rfl | exact h.elim

theorem countBP_eq_zero {l : List ScanEvent} (h : ∀ e ∈ l, isBPWarning e = false) :
    countBP l = 0 := by
  unfold countBP
  rw [List.length_eq_zero]
  induction l with
  | nil => rfl
  | cons a l ih =>
    rw [List.filter_cons, if_neg (by simp [h a (List.mem_cons_self a l)])]
    exact ih (fun e he => h e (List.mem_cons_of_mem a he))

theorem satAdd_one_ne_zero (a : Nat) : satAdd a 1 ≠ 0 := by
  simp only [satAdd, U64MAX]
  omega

/-- C3 (amended).  Backpressure handling: (1) when the channel is full a
NodeUpdated event is dropped and the drop is counted (`dropped_node_updates`
saturating-incremented); (2) a Progress event hitting a full channel is stored
into the single pending slot, overwriting any undelivered snapshot so that
only the newest one is retained, with the deferral and the coalescing both
counted; (3) in every completed scan the backpressure Warning summarizing the
counts is emitted at most once, before the terminal event; it is emitted
whenever a NodeUpdated drop occurred, and never when no drop or deferral
occurred.  (The original claim's "exactly once if any drop *or deferral*
occurred" is refuted by the counterexample: a deferral arising only at the
final forced progress emission happens after the warning check.) -/
theorem backpressure_handling_spec :
    (∀ (s : ScannerSt) (rest : List SendResult) (u : NodeSummary),
      s.channel_closed = false → s.pending_progress = none →
      s.oracle = SendResult.full :: rest →
      send_noncritical s (.nodeUpdated u) =
        { s with oracle := rest,
                 dropped_node_updates := satAdd s.dropped_node_updates 1 }) ∧
    (∀ (s : ScannerSt) (rest : List SendResult) (p q : ScanProgress),
      s.channel_closed = false → s.pending_progress = some q →
      s.oracle = SendResult.full :: SendResult.full :: rest →
      send_noncritical s (.progress p) =
        { s with oracle := rest,
                 pending_progress := some p,
                 deferred_progress_updates := satAdd s.deferred_progress_updates 1,
                 coalesced_progress_updates := satAdd s.coalesced_progress_updates 1 }) ∧
    (∀ fuel options root_stat oracle cancelFuel s,
      SendResult.disconnected ∉ oracle →
      run_scan fuel options root_stat oracle cancelFuel = some s →
      ∃ pre term, s.sent = ScanEvent.reset options.root :: (pre ++ [term]) ∧
        isTerminal term ∧
        countBP pre ≤ 1 ∧
        (s.dropped_node_updates ≠ 0 → countBP pre = 1) ∧
        (s.dropped_node_updates = 0 ∧ s.deferred_progress_updates = 0 →
          countBP pre = 0)) := by
  refine ⟨?_, ?_, ?_⟩
  · intro s rest u hc hp ho
    simp [send_noncritical, try_flush_pending_progress, trySend,
      handle_noncritical_backpressure, hc, hp, ho]
  · intro s rest p q hc hp ho
    simp [send_noncritical, try_flush_pending_progress, trySend,
      handle_noncritical_backpressure, hc, hp, ho]
  · intro fuel options root_stat oracle cancelFuel s hnd hrun
    unfold run_scan at hrun
    obtain ⟨oracle1, hsce, hnd1⟩ := send_critical_event_spec (.reset options.root)
      (oracle.length + 1) oracle [] hnd (by omega)
    rw [hsce] at hrun
    simp only at hrun
    cases root_stat with
    | none =>
      obtain ⟨oracle2, hsce2, hnd2⟩ := send_critical_event_spec (.error options.root)
        (oracle1.length + 1) oracle1 ([] ++ [.reset options.root]) hnd1 (by omega)
      rw [hsce2] at hrun
      simp only at hrun
      cases hrun
      refine ⟨[], .error options.root, by simp [initial_scanner_state], trivial,
        ?_, ?_, ?_⟩
      · simp [countBP]
      · intro hne
        exact absurd (by simp [initial_scanner_state]) hne
      · intro _
        simp [countBP]
    | some root_tree =>
      simp only at hrun
      cases hscan : scan_entry fuel options.root 0 (some root_tree)
          (initial_scanner_state options
            (if options.one_file_system then filesystem_id root_tree.meta else none)
            oracle1 ([] ++ [.reset options.root]) cancelFuel false) with
      | none => rw [hscan] at hrun; cases hrun
      | some cs =>
        rw [hscan] at hrun
        obtain ⟨ctrl, s1⟩ := cs
        have heff := scan_entry_opEffect fuel options.root 0 (some root_tree) _ ctrl s1 hscan
        obtain ⟨Δ, hsent1, hphase⟩ := heff.sent_ext
        have hcl1 : s1.channel_closed = false := by
          cases hc1 : s1.channel_closed with
          | false => rfl
          | true =>
            rcases heff.closed_src hc1 with hx | hx
            · exact absurd hx (by simp [initial_scanner_state])
            · exact absurd hx hnd1
        have hnd1' : SendResult.disconnected ∉ s1.oracle :=
          fun hm => hnd1 (heff.oracle_suffix.subset hm)
        have hflag1 : s1.backpressure_warning_emitted = false := by
          rw [heff.bp_flag_eq]
          simp [initial_scanner_state]
        obtain ⟨Δb, hsb, hnb, hcbp, hdrb, hdfb, hsufb, hclb⟩ :=
          emit_backpressure_spec s1 hnd1' hcl1
        have hndb : SendResult.disconnected ∉
            (emit_backpressure_warning_if_needed s1).oracle :=
          fun hm => hnd1' (hsufb.subset hm)
        have hd0 : countBP Δ = 0 :=
          countBP_eq_zero (fun e he => scanPhase_not_bpWarning (hphase e he))
        rw [hflag1] at hcbp
        cases ctrl with
        | cont out =>
          simp only at hrun
          obtain ⟨Δe, hse, hpe, hpre, hdre, hdfe, hbpe⟩ :=
            emit_progress_now_spec (emit_backpressure_warning_if_needed s1)
          have hepe := emit_progress_now_opEffect (P := fun _ => True) (fun _ => trivial)
            (emit_backpressure_warning_if_needed s1)
          have hcle : (emit_progress_now (emit_backpressure_warning_if_needed s1)).channel_closed
              = false := by
            cases hc2 : (emit_progress_now
                (emit_backpressure_warning_if_needed s1)).channel_closed with
            | false => rfl
            | true =>
              rcases hepe.closed_src hc2 with hx | hx
              · exact absurd (hclb ▸ hx) (by simp)
              · exact absurd hx hndb
          have hnde : SendResult.disconnected ∉
              (emit_progress_now (emit_backpressure_warning_if_needed s1)).oracle :=
            fun hm => hndb (hepe.oracle_suffix.subset hm)
          obtain ⟨Δc, hsc2, hpc, hprc, hdrc, hdfc, hbpc⟩ := send_critical_spec
            (.complete (emit_progress_now
              (emit_backpressure_warning_if_needed s1)).progress)
            (emit_progress_now (emit_backpressure_warning_if_needed s1)) hnde hcle
          cases hrun
          have he0 : countBP Δe = 0 := countBP_eq_zero (fun e he => by
            obtain ⟨p, hp⟩ := hpe e he
            rw [hp]; rfl)
          have hc0 : countBP Δc = 0 := countBP_eq_zero (fun e he => by
            obtain ⟨p, hp⟩ := hpc e he
            rw [hp]; rfl)
          have hpreBP : countBP (Δ ++ Δb ++ Δe ++ Δc) = countBP Δb := by
            simp [countBP_append, hd0, he0, hc0]
          have hdrop : (send_critical (emit_progress_now
              (emit_backpressure_warning_if_needed s1))
              (.complete (emit_progress_now
                (emit_backpressure_warning_if_needed s1)).progress)).dropped_node_updates
              = s1.dropped_node_updates := by
            rw [hdrc, hdre, hdrb]
          refine ⟨Δ ++ Δb ++ Δe ++ Δc,
            .complete (emit_progress_now
              (emit_backpressure_warning_if_needed s1)).progress, ?_, trivial, ?_, ?_, ?_⟩
          · rw [hsc2, hse, hsb, hsent1]
            simp [initial_scanner_state, List.append_assoc]
          · rw [hpreBP, hcbp]
            split <;> omega
          · intro hne
            rw [hdrop] at hne
            rw [hpreBP, hcbp, if_pos ⟨rfl, fun hz => hne hz.1⟩]
          · rintro ⟨hz1, hz2⟩
            rw [hdrop] at hz1
            rw [hdfc] at hz2
            have hz2' : s1.deferred_progress_updates = 0 := by
              rcases hdfe with hcase | hcase
              · rw [hcase, hdfb] at hz2
                exact hz2
              · rw [hcase] at hz2
                exact absurd hz2 (satAdd_one_ne_zero _)
            rw [hpreBP, hcbp, if_neg]
            rintro ⟨-, hn⟩
            exact hn ⟨hz1, hz2'⟩
        | cancelled =>
          simp only at hrun
          obtain ⟨Δc, hsc2, hpc, hprc, hdrc, hdfc, hbpc⟩ := send_critical_spec .cancelled
            (emit_backpressure_warning_if_needed s1) hndb hclb
          cases hrun
          have hc0 : countBP Δc = 0 := countBP_eq_zero (fun e he => by
            obtain ⟨p, hp⟩ := hpc e he
            rw [hp]; rfl)
          have hpreBP : countBP (Δ ++ Δb ++ Δc) = countBP Δb := by
            simp [countBP_append, hd0, hc0]
          have hdrop : (send_critical (emit_backpressure_warning_if_needed s1)
              .cancelled).dropped_node_updates = s1.dropped_node_updates := by
            rw [hdrc, hdrb]
          refine ⟨Δ ++ Δb ++ Δc, .cancelled, ?_, trivial, ?_, ?_, ?_⟩
          · rw [hsc2, hsb, hsent1]
            simp [initial_scanner_state, List.append_assoc]
          · rw [hpreBP, hcbp]
            split <;> omega
          · intro hne
            rw [hdrop] at hne
            rw [hpreBP, hcbp, if_pos ⟨rfl, fun hz => hne hz.1⟩]
          · rintro ⟨hz1, hz2⟩
            rw [hdrop] at hz1
            rw [hdfc, hdfb] at hz2
            rw [hpreBP, hcbp, if_neg]
            rintro ⟨-, hn⟩
            exact hn ⟨hz1, hz2⟩

/-- The C3 counterexample scan: an empty root directory; reset, the
provisional and the final root NodeUpdated are all accepted, the forced final
progress emission hits a full channel (one deferral, after the warning
check), and the remaining sends are accepted. -/
def c3_oracle : List SendResult :=
  [.ok, .ok, .ok, .full, .ok, .ok]

def c3_root : FsTree := .dir { len := 10, blocks := 0, dev := 1 } none (some [])

/-- C3 counterexample: the original claim's "a backpressure Warning is emitted
exactly once per scan if any drop or deferral occurred" is false — in this
scan a Progress deferral occurs (at the final forced progress emission, after
`emit_backpressure_warning_if_needed` already ran), yet no backpressure
warning appears in the delivered stream. -/
theorem backpressure_oneshot_counterexample :
    ¬ (∀ s, run_scan 4 w_opts (some c3_root) c3_oracle none = some s →
        s.dropped_node_updates ≠ 0 ∨ s.deferred_progress_updates ≠ 0 →
        countBP s.sent = 1) := by
  intro h
  have h1 := h ((run_scan 4 w_opts (some c3_root) c3_oracle none).getD w_default)
    rfl (Or.inr (by decide))
  exact absurd h1 (by decide)

/-- C3 witness. -/
theorem backpressure_handling_spec_witness :
    send_noncritical (initial_scanner_state w_opts none [.full, .ok] [] none false)
        (.nodeUpdated ⟨["r"], .file, 1, 1, 0, true⟩) =
      { initial_scanner_state w_opts none [.full, .ok] [] none false with
        oracle := [.ok],
        dropped_node_updates := satAdd
          (initial_scanner_state w_opts none [.full, .ok] [] none
            false).dropped_node_updates 1 } :=
  backpressure_handling_spec.1
    (initial_scanner_state w_opts none [.full, .ok] [] none false)
    [.ok] ⟨["r"], .file, 1, 1, 0, true⟩ rfl rfl rfl

/-! ## C1/C4: a channel-free reference traversal

The scan's visiting, counting and aggregating decisions read only the core
options (`follow_symlinks`, `one_file_system`), the root filesystem id, the
symlink-visited set, the cancellation flag and the progress counters — never
the channel or the display options (`show_hidden`, `show_files`, `max_depth`),
which gate emission only.  `RefSt` carries exactly those components and the
`ref_*` functions mirror the traversal on them. -/

structure RefSt where
  progress : ScanProgress
  visited : List Nat
  cancelFuel : Option Nat
  deriving DecidableEq, Repr

/-- The channel-independent core of a scanner state. -/
def refOf (s : ScannerSt) : RefSt :=
  { progress := s.progress, visited := s.visited_symlink_dirs,
    cancelFuel := s.cancelFuel }

def ref_should_cancel (r : RefSt) : Bool × RefSt :=
  match r.cancelFuel with
  | none => (false, r)
  | some 0 => (true, r)
  | some (n + 1) => (false, { r with cancelFuel := some n })

def ref_bump_warning (r : RefSt) : RefSt :=
  { r with progress := { r.progress with warnings := satAdd r.progress.warnings 1 } }

def ref_bump_entry (r : RefSt) (apparent allocated : Nat) : RefSt :=
  { r with progress := {
      visited_entries := satAdd r.progress.visited_entries 1,
      warnings := r.progress.warnings,
      apparent_bytes_seen := satAdd r.progress.apparent_bytes_seen apparent,
      allocated_bytes_seen := satAdd r.progress.allocated_bytes_seen allocated } }

def ref_summarize_non_dir (path : List String) (kind : FsEntryKind) (meta : Meta)
    (r : RefSt) : NodeSummary × RefSt :=
  ({ path := path, kind := kind, apparent_bytes := meta.len,
     allocated_bytes := allocated_size meta, children_count := 0,
     is_complete := true },
   ref_bump_entry r meta.len (allocated_size meta))

def ref_skip_other_filesystem (ofs : Bool) (rfs : Option Nat) (resolved : FsTree) :
    Bool :=
  ofs && resolved.isDir &&
    (match rfs, filesystem_id resolved.meta with
     | some root_id, some this_id => decide (root_id ≠ this_id)
     | _, _ => false)

def ref_symlink_dir_gate (is_symlink_dir : Bool) (canon : Option Nat) (r : RefSt) :
    Sum (ScanControl × RefSt) RefSt :=
  if is_symlink_dir then
    match canon with
    | some canonical =>
      if canonical ∈ r.visited then
        .inl (.cont none, ref_bump_warning r)
      else
        .inr { r with visited := canonical :: r.visited }
    | none => .inl (.cont none, ref_bump_warning r)
  else .inr r

inductive RefLoopOut where
  | cancelled (r : RefSt)
  | done (children_count apparent_total allocated_total : Nat) (r : RefSt)
  deriving DecidableEq, Repr

/-- Project the channel-independent core of a loop outcome. -/
def LoopOut.ref : LoopOut → RefLoopOut
  | .cancelled s => .cancelled (refOf s)
  | .done cc ap al s => .done cc ap al (refOf s)

def ref_scan_dir_entries (fsl ofs : Bool) (rfs : Option Nat) (path : List String)
    (entries : List RawEntry) (children_count apparent_total allocated_total : Nat)
    (r : RefSt) : RefLoopOut :=
  match entries with
  | [] => .done children_count apparent_total allocated_total r
  | e :: rest =>
    match ref_should_cancel r with
    | (true, r1) => .cancelled r1
    | (false, r1) =>
      match e with
      | .err =>
        ref_scan_dir_entries fsl ofs rfs path rest
          children_count apparent_total allocated_total (ref_bump_warning r1)
      | .entry child_name stat =>
        let child_path := path ++ [child_name]
        match stat with
        | none =>
          ref_scan_dir_entries fsl ofs rfs path rest
            children_count apparent_total allocated_total (ref_bump_warning r1)
        | some child_tree =>
          let child_is_symlink := child_tree.isSymlink
          if child_is_symlink && ! fsl then
            let out := ref_summarize_non_dir child_path .symlink child_tree.meta r1
            ref_scan_dir_entries fsl ofs rfs path rest
              (satAdd children_count 1) (satAdd apparent_total out.1.apparent_bytes)
              (satAdd allocated_total out.1.allocated_bytes) out.2
          else
            match resolved_of child_tree with
            | none =>
              ref_scan_dir_entries fsl ofs rfs path rest
                children_count apparent_total allocated_total (ref_bump_warning r1)
            | some resolved =>
              if ref_skip_other_filesystem ofs rfs resolved then
                ref_scan_dir_entries fsl ofs rfs path rest
                  children_count apparent_total allocated_total r1
              else if resolved.isDir then
                ref_scan_dir_entries fsl ofs rfs path rest
                  children_count apparent_total allocated_total r1
              else
                let kind := kind_from_non_dir resolved child_is_symlink
                let out := ref_summarize_non_dir child_path kind resolved.meta r1
                ref_scan_dir_entries fsl ofs rfs path rest
                  (satAdd children_count 1) (satAdd apparent_total out.1.apparent_bytes)
                  (satAdd allocated_total out.1.allocated_bytes) out.2

mutual
def ref_scan_dir (fuel : Nat) (fsl ofs : Bool) (rfs : Option Nat)
    (path : List String) (is_symlink_dir : Bool) (meta : Meta) (canon : Option Nat)
    (entries : Option (List RawEntry)) (r : RefSt) :
    Option (ScanControl × RefSt) :=
  match fuel with
  | 0 => none
  | fuel + 1 =>
    match ref_should_cancel r with
    | (true, r1) => some (.cancelled, r1)
    | (false, r1) =>
      match ref_symlink_dir_gate is_symlink_dir canon r1 with
      | .inl out => some out
      | .inr r2 =>
        let dir_apparent := meta.len
        let dir_allocated := allocated_size meta
        let dir_kind : FsEntryKind := if is_symlink_dir then .symlink else .dir
        match entries with
        | none =>
          let r3 := ref_bump_warning r2
          let summary : NodeSummary := {
            path := path, kind := dir_kind,
            apparent_bytes := dir_apparent, allocated_bytes := dir_allocated,
            children_count := 0, is_complete := true }
          let r4 := ref_bump_entry r3 summary.apparent_bytes summary.allocated_bytes
          some (.cont (some summary), r4)
        | some entry_list =>
          match ref_scan_dir_entries fsl ofs rfs path entry_list
              0 dir_apparent dir_allocated r2 with
          | .cancelled r3 => some (.cancelled, r3)
          | .done cc1 at1 al1 r3 =>
            match ref_scan_pending_dirs fuel fsl ofs rfs path entry_list
                cc1 at1 al1 r3 with
            | none => none
            | some (.cancelled r4) => some (.cancelled, r4)
            | some (.done cc2 at2 al2 r4) =>
              let summary : NodeSummary := {
                path := path, kind := dir_kind,
                apparent_bytes := at2, allocated_bytes := al2,
                children_count := cc2, is_complete := true }
              let r5 := ref_bump_entry r4 dir_apparent dir_allocated
              some (.cont (some summary), r5)

def ref_scan_pending_dirs (fuel : Nat) (fsl ofs : Bool) (rfs : Option Nat)
    (path : List String) (entries : List RawEntry)
    (children_count apparent_total allocated_total : Nat)
    (r : RefSt) : Option RefLoopOut :=
  match fuel with
  | 0 => none
  | fuel + 1 =>
    match entries with
    | [] => some (.done children_count apparent_total allocated_total r)
    | .err :: rest =>
      ref_scan_pending_dirs fuel fsl ofs rfs path rest
        children_count apparent_total allocated_total r
    | .entry child_name stat :: rest =>
      let child_path := path ++ [child_name]
      match stat with
      | none =>
        ref_scan_pending_dirs fuel fsl ofs rfs path rest
          children_count apparent_total allocated_total r
      | some child_tree =>
        let child_is_symlink := child_tree.isSymlink
        if child_is_symlink && ! fsl then
          ref_scan_pending_dirs fuel fsl ofs rfs path rest
            children_count apparent_total allocated_total r
        else
          match resolved_of child_tree with
          | none =>
            ref_scan_pending_dirs fuel fsl ofs rfs path rest
              children_count apparent_total allocated_total r
          | some resolved =>
            if ref_skip_other_filesystem ofs rfs resolved then
              ref_scan_pending_dirs fuel fsl ofs rfs path rest
                children_count apparent_total allocated_total r
            else if resolved.isDir then
              match ref_scan_dir fuel fsl ofs rfs child_path child_is_symlink
                  resolved.meta resolved.canon resolved.entries r with
              | none => none
              | some (.cancelled, r1) => some (.cancelled r1)
              | some (.cont (some child), r1) =>
                ref_scan_pending_dirs fuel fsl ofs rfs path rest
                  (satAdd children_count 1) (satAdd apparent_total child.apparent_bytes)
                  (satAdd allocated_total child.allocated_bytes) r1
              | some (.cont none, r1) =>
                ref_scan_pending_dirs fuel fsl ofs rfs path rest
                  children_count apparent_total allocated_total r1
            else
              ref_scan_pending_dirs fuel fsl ofs rfs path rest
                children_count apparent_total allocated_total r
end

def ref_scan_entry (fuel : Nat) (fsl ofs : Bool) (rfs : Option Nat)
    (path : List String) (depth : Nat) (stat : Option FsTree) (r : RefSt) :
    Option (ScanControl × RefSt) :=
  match ref_should_cancel r with
  | (true, r1) => some (.cancelled, r1)
  | (false, r1) =>
    match stat with
    | none => some (.cont none, ref_bump_warning r1)
    | some tree =>
      let is_symlink := tree.isSymlink
      if is_symlink && ! fsl then
        let out := ref_summarize_non_dir path .symlink tree.meta r1
        some (.cont (some out.1), out.2)
      else
        match resolved_of tree with
        | none => some (.cont none, ref_bump_warning r1)
        | some resolved =>
          if ofs && decide (depth > 0) && resolved.isDir &&
              (match rfs, filesystem_id resolved.meta with
               | some root_id, some this_id => decide (root_id ≠ this_id)
               | _, _ => false) then
            some (.cont none, r1)
          else if resolved.isFile then
            let kind := kind_from_non_dir resolved is_symlink
            let out := ref_summarize_non_dir path kind resolved.meta r1
            some (.cont (some out.1), out.2)
          else if resolved.isDir then
            ref_scan_dir fuel fsl ofs rfs path is_symlink resolved.meta resolved.canon
              resolved.entries r1
          else
            let kind := kind_from_non_dir resolved is_symlink
            let out := ref_summarize_non_dir path kind resolved.meta r1
            some (.cont (some out.1), out.2)

/-- Channel-alive invariant threaded through the correspondence proofs. -/
def Live (s : ScannerSt) : Prop :=
  s.channel_closed = false ∧ SendResult.disconnected ∉ s.oracle

theorem Live.of_opEffect {P : ScanEvent → Prop} {s s' : ScannerSt}
    (h : OpEffect P s s') (hl : Live s) : Live s' := by
  refine ⟨?_, fun hm => hl.2 (h.oracle_suffix.subset hm)⟩
  cases hc : s'.channel_closed with
  | false => rfl
  | true =>
    rcases h.closed_src hc with hx | hx
    · rw [hl.1] at hx
      exact absurd hx (by simp)
    · exact absurd hx hl.2

theorem refOf_trySend (s : ScannerSt) (e : ScanEvent) :
    refOf (trySend s e).2 = refOf s := by
  unfold trySend
  cases ho : s.oracle with
  | nil => rfl
  | cons h t => cases h <;> rfl

theorem refOf_try_flush (s : ScannerSt) :
    refOf (try_flush_pending_progress s) = refOf s := by
  unfold try_flush_pending_progress
  cases hpp : s.pending_progress with
  | none => rfl
  | some p =>
    simp only [trySend]
    cases ho : s.oracle with
    | nil => rfl
    | cons h t => cases h <;> rfl

theorem refOf_send_critical_loop (e : ScanEvent) :
    ∀ (fuel : Nat) (s : ScannerSt), refOf (send_critical_loop fuel s e) = refOf s := by
  intro fuel
  induction fuel with
  | zero => intro s; rfl
  | succ fuel ih =>
    intro s
    unfold send_critical_loop
    simp only [trySend]
    cases ho : s.oracle with
    | nil => rfl
    | cons h t =>
      cases h with
      | ok => rfl
      | disconnected => rfl
      | full =>
        simp only
        rw [ih, refOf_try_flush]
        have : refOf { s with oracle := t } = refOf s := rfl
        exact this

theorem refOf_send_critical (s : ScannerSt) (e : ScanEvent) :
    refOf (send_critical s e) = refOf s := by
  unfold send_critical
  cases hc : s.channel_closed with
  | true => simp
  | false =>
    simp only [Bool.false_eq_true, if_false]
    rw [refOf_send_critical_loop, refOf_try_flush]

theorem refOf_handle_noncritical (s : ScannerSt) (e : ScanEvent) :
    refOf (handle_noncritical_backpressure s e) = refOf s := by
  unfold handle_noncritical_backpressure
  cases e <;> simp only [refOf] <;> first | rfl | (split <;> rfl)

theorem refOf_send_noncritical (s : ScannerSt) (e : ScanEvent) :
    refOf (send_noncritical s e) = refOf s := by
  unfold send_noncritical
  cases hc : s.channel_closed with
  | true => simp
  | false =>
    simp only [Bool.false_eq_true, if_false]
    rcases hts : trySend (try_flush_pending_progress s) e with ⟨res, s2⟩
    have h2 : refOf s2 = refOf s := by
      have := refOf_trySend (try_flush_pending_progress s) e
      rw [hts] at this
      rw [this, refOf_try_flush]
    cases res with
    | ok => simpa [hts] using h2
    | full =>
      simp only [hts]
      rw [refOf_handle_noncritical]
      exact h2
    | disconnected =>
      simp only [hts]
      exact h2

theorem refOf_send_node_update (s : ScannerSt) (u : NodeSummary) :
    refOf (send_node_update s u) = refOf s :=
  refOf_send_noncritical s _

theorem refOf_bump_warning (s : ScannerSt) (path : List String) (m : WarnMsg) :
    refOf (bump_warning s path m) = ref_bump_warning (refOf s) := by
  unfold bump_warning ref_bump_warning
  rw [refOf_send_critical]
  rfl

theorem refOf_bump_entry (s : ScannerSt) (a b : Nat) :
    refOf (bump_entry s a b) = ref_bump_entry (refOf s) a b := by
  unfold bump_entry ref_bump_entry
  simp only
  split
  · rw [refOf_send_noncritical]
    rfl
  · rfl

theorem refOf_summarize_non_dir (path : List String) (kind : FsEntryKind)
    (meta : Meta) (emit : Bool) (s : ScannerSt) :
    (summarize_non_dir path kind meta emit s).1 =
      (ref_summarize_non_dir path kind meta (refOf s)).1 ∧
    refOf (summarize_non_dir path kind meta emit s).2 =
      (ref_summarize_non_dir path kind meta (refOf s)).2 := by
  unfold summarize_non_dir ref_summarize_non_dir
  refine ⟨rfl, ?_⟩
  simp only
  split
  · rw [refOf_send_node_update, refOf_bump_entry]
  · rw [refOf_bump_entry]

theorem refOf_should_cancel (s : ScannerSt) (hcl : s.channel_closed = false) :
    (should_cancel s).1 = (ref_should_cancel (refOf s)).1 ∧
    refOf (should_cancel s).2 = (ref_should_cancel (refOf s)).2 := by
  cases hcf : s.cancelFuel with
  | none => simp [should_cancel, ref_should_cancel, refOf, hcl, hcf]
  | some n =>
    cases n with
    | zero => simp [should_cancel, ref_should_cancel, refOf, hcl, hcf]
    | succ k => simp [should_cancel, ref_should_cancel, refOf, hcl, hcf]

def gate_ref_map : Sum (ScanControl × ScannerSt) ScannerSt → Sum (ScanControl × RefSt) RefSt
  | .inl (c, s) => .inl (c, refOf s)
  | .inr s => .inr (refOf s)

theorem refOf_symlink_dir_gate (path : List String) (isl : Bool) (canon : Option Nat)
    (s : ScannerSt) :
    ref_symlink_dir_gate isl canon (refOf s) =
      gate_ref_map (symlink_dir_gate path isl canon s) := by
  cases isl with
  | false => rfl
  | true =>
    cases canon with
    | none =>
      simp [symlink_dir_gate, ref_symlink_dir_gate, gate_ref_map, refOf_bump_warning]
    | some c =>
      by_cases hm : c ∈ s.visited_symlink_dirs
      · simp [symlink_dir_gate, ref_symlink_dir_gate, gate_ref_map, refOf_bump_warning,
          hm, show c ∈ (refOf s).visited from hm]
      · simp only [symlink_dir_gate, ref_symlink_dir_gate, gate_ref_map,
          if_neg hm, if_neg (show ¬ c ∈ (refOf s).visited from hm)]
        rfl

theorem bump_warning_opEffect_true (s : ScannerSt) (path : List String) (m : WarnMsg) :
    OpEffect (fun _ => True) s (bump_warning s path m) :=
  bump_warning_opEffect (P := fun _ => True) (q := path) (m := m)
    (fun _ => trivial) trivial s

theorem summarize_opEffect_true (path : List String) (kind : FsEntryKind) (meta : Meta)
    (emit : Bool) (s : ScannerSt) :
    OpEffect (fun _ => True) s (summarize_non_dir path kind meta emit s).2 :=
  summarize_non_dir_opEffect (fun _ => trivial) (fun _ => trivial) path kind meta emit s

theorem send_node_update_opEffect_true (s : ScannerSt) (u : NodeSummary) :
    OpEffect (fun _ => True) s (send_node_update s u) :=
  send_node_update_opEffect (fun _ => trivial) (fun _ => trivial) s u

theorem skip_other_filesystem_ref (s : ScannerSt) (resolved : FsTree) :
    ref_skip_other_filesystem s.options.one_file_system s.root_fs resolved =
      skip_other_filesystem s resolved := rfl

theorem scan_dir_entries_ref (path : List String) (depth : Nat) (eu : Bool) :
    ∀ (entries : List RawEntry) (cc ap al : Nat) (s : ScannerSt)
      (fsl ofs : Bool) (rfs : Option Nat),
      fsl = s.options.follow_symlinks → ofs = s.options.one_file_system →
      rfs = s.root_fs → Live s →
      ref_scan_dir_entries fsl ofs rfs path entries cc ap al (refOf s) =
        (scan_dir_entries path depth eu entries cc ap al s).ref ∧
      Live (scan_dir_entries path depth eu entries cc ap al s).state := by
  intro entries
  induction entries with
  | nil =>
    intro cc ap al s fsl ofs rfs hfsl hofs hrfs hl
    exact ⟨rfl, hl⟩
  | cons e rest ih =>
    intro cc ap al s fsl ofs rfs hfsl hofs hrfs hl
    subst hfsl; subst hofs; subst hrfs
    unfold scan_dir_entries ref_scan_dir_entries
    rcases hsc : should_cancel s with ⟨b, s1⟩
    have h0 : OpEffect (fun _ => True) s s1 := by
      have h := should_cancel_opEffect (P := fun _ => True) s
      rwa [hsc] at h
    have hl1 : Live s1 := Live.of_opEffect h0 hl
    have hcorr := refOf_should_cancel s hl.1
    rw [hsc] at hcorr
    rcases hrc : ref_should_cancel (refOf s) with ⟨b2, r1⟩
    rw [hrc] at hcorr
    dsimp only at hcorr
    obtain ⟨hb, hr1⟩ := hcorr
    subst hb
    subst hr1
    simp only [hsc, hrc]
    cases b with
    | true => exact ⟨rfl, hl1⟩
    | false =>
      rw [← h0.options_eq, ← h0.root_fs_eq]
      dsimp only
      cases e with
      | err =>
        have hw := bump_warning_opEffect_true s1 path .cannotReadEntry
        rw [← refOf_bump_warning]
        exact ih _ _ _ _ _ _ _ (by rw [hw.options_eq]) (by rw [hw.options_eq])
          (by rw [hw.root_fs_eq]) (Live.of_opEffect hw hl1)
      | entry child_name stat =>
        dsimp only
        cases stat with
        | none =>
          have hw := bump_warning_opEffect_true s1 (path ++ [child_name]) .cannotStatPath
          rw [← refOf_bump_warning]
          exact ih _ _ _ _ _ _ _ (by rw [hw.options_eq]) (by rw [hw.options_eq])
            (by rw [hw.root_fs_eq]) (Live.of_opEffect hw hl1)
        | some child_tree =>
          dsimp only
          cases hsym : child_tree.isSymlink && ! s1.options.follow_symlinks with
          | true =>
            simp only [hsym, if_pos]
            have hco := refOf_summarize_non_dir (path ++ [child_name]) .symlink
              child_tree.meta (child_emit_updates s1.options eu child_name (depth + 1)
                && s1.options.show_files) s1
            have hsum := summarize_opEffect_true (path ++ [child_name]) .symlink
              child_tree.meta (child_emit_updates s1.options eu child_name (depth + 1)
                && s1.options.show_files) s1
            rw [← hco.1, ← hco.2]
            exact ih _ _ _ _ _ _ _ (by rw [hsum.options_eq]) (by rw [hsum.options_eq])
              (by rw [hsum.root_fs_eq]) (Live.of_opEffect hsum hl1)
          | false =>
            simp only [hsym, Bool.false_eq_true, if_false]
            cases hres : resolved_of child_tree with
            | none =>
              have hw := bump_warning_opEffect_true s1 (path ++ [child_name])
                .cannotFollowSymlinkTarget
              rw [← refOf_bump_warning]
              exact ih _ _ _ _ _ _ _ (by rw [hw.options_eq]) (by rw [hw.options_eq])
                (by rw [hw.root_fs_eq]) (Live.of_opEffect hw hl1)
            | some resolved =>
              dsimp only
              rw [skip_other_filesystem_ref s1 resolved]
              cases hskip : skip_other_filesystem s1 resolved with
              | true =>
                simp only [hskip, if_pos]
                exact ih _ _ _ _ _ _ _ rfl rfl rfl hl1
              | false =>
                simp only [hskip, Bool.false_eq_true, if_false]
                cases hdir : resolved.isDir with
                | true =>
                  simp only [hdir, if_pos]
                  generalize hgen : (if (child_tree.isSymlink ||
                      ! child_emit_updates s1.options eu child_name (depth + 1)) = true
                    then s1 else send_node_update s1
                      { path := path ++ [child_name], kind := .dir,
                        apparent_bytes := resolved.meta.len,
                        allocated_bytes := allocated_size resolved.meta,
                        children_count := 0, is_complete := false }) = s2
                  have hprops : refOf s2 = refOf s1 ∧ s2.options = s1.options ∧
                      s2.root_fs = s1.root_fs ∧ Live s2 := by
                    rw [← hgen]
                    split
                    · exact ⟨rfl, rfl, rfl, hl1⟩
                    · have hsn := send_node_update_opEffect_true s1
                        { path := path ++ [child_name], kind := .dir,
                          apparent_bytes := resolved.meta.len,
                          allocated_bytes := allocated_size resolved.meta,
                          children_count := 0, is_complete := false }
                      exact ⟨refOf_send_node_update _ _, hsn.options_eq, hsn.root_fs_eq,
                        Live.of_opEffect hsn hl1⟩
                  rw [← hprops.1]
                  exact ih _ _ _ _ _ _ _ (by rw [hprops.2.1]) (by rw [hprops.2.1])
                    (by rw [hprops.2.2.1]) hprops.2.2.2
                | false =>
                  simp only [hdir, Bool.false_eq_true, if_false]
                  have hco := refOf_summarize_non_dir (path ++ [child_name])
                    (kind_from_non_dir resolved child_tree.isSymlink) resolved.meta
                    (child_emit_updates s1.options eu child_name (depth + 1)
                      && s1.options.show_files) s1
                  have hsum := summarize_opEffect_true (path ++ [child_name])
                    (kind_from_non_dir resolved child_tree.isSymlink) resolved.meta
                    (child_emit_updates s1.options eu child_name (depth + 1)
                      && s1.options.show_files) s1
                  rw [← hco.1, ← hco.2]
                  exact ih _ _ _ _ _ _ _ (by rw [hsum.options_eq]) (by rw [hsum.options_eq])
                    (by rw [hsum.root_fs_eq]) (Live.of_opEffect hsum hl1)

theorem ref_should_cancel_eq {s sA : ScannerSt} {b : Bool}
    (hcl : s.channel_closed = false) (hsc : should_cancel s = (b, sA)) :
    ref_should_cancel (refOf s) = (b, refOf sA) := by
  have hco := refOf_should_cancel s hcl
  rw [hsc] at hco
  rcases hx : ref_should_cancel (refOf s) with ⟨b2, r2⟩
  rw [hx] at hco
  dsimp only at hco
  rw [← hco.1, ← hco.2]

theorem ref_gate_inl {path : List String} {isl : Bool} {canon : Option Nat}
    {s : ScannerSt} {c : ScanControl} {s' : ScannerSt}
    (hg : symlink_dir_gate path isl canon s = .inl (c, s')) :
    ref_symlink_dir_gate isl canon (refOf s) = .inl (c, refOf s') := by
  have h := refOf_symlink_dir_gate path isl canon s
  rw [hg] at h
  exact h

theorem ref_gate_inr {path : List String} {isl : Bool} {canon : Option Nat}
    {s s' : ScannerSt}
    (hg : symlink_dir_gate path isl canon s = .inr s') :
    ref_symlink_dir_gate isl canon (refOf s) = .inr (refOf s') := by
  have h := refOf_symlink_dir_gate path isl canon s
  rw [hg] at h
  exact h

theorem scan_dir_ref (fuel : Nat) :
    (∀ path depth isl meta canon entries ei eu s out,
      scan_dir fuel path depth isl meta canon entries ei eu s = some out →
      ∀ (fsl ofs : Bool) (rfs : Option Nat),
        fsl = s.options.follow_symlinks → ofs = s.options.one_file_system →
        rfs = s.root_fs → Live s →
        ref_scan_dir fuel fsl ofs rfs path isl meta canon entries (refOf s) =
          some (out.1, refOf out.2) ∧ Live out.2) ∧
    (∀ path depth eu entries cc ap al s out,
      scan_pending_dirs fuel path depth eu entries cc ap al s = some out →
      ∀ (fsl ofs : Bool) (rfs : Option Nat),
        fsl = s.options.follow_symlinks → ofs = s.options.one_file_system →
        rfs = s.root_fs → Live s →
        ref_scan_pending_dirs fuel fsl ofs rfs path entries cc ap al (refOf s) =
          some out.ref ∧ Live out.state) := by
  induction fuel with
  | zero =>
    constructor
    · intro path depth isl meta canon entries ei eu s out h
      simp [scan_dir] at h
    · intro path depth eu entries cc ap al s out h
      simp [scan_pending_dirs] at h
  | succ fuel ih =>
    obtain ⟨ihD, ihP⟩ := ih
    constructor
    · intro path depth isl meta canon entries ei eu s out h fsl ofs rfs hfsl hofs hrfs hl
      subst hfsl; subst hofs; subst hrfs
      rw [scan_dir] at h
      rw [ref_scan_dir]
      rcases hsc : should_cancel s with ⟨b, sA⟩
      have h0 : OpEffect scanPhaseEvt s sA := by
        have hx := should_cancel_opEffect (P := scanPhaseEvt) s
        rwa [hsc] at hx
      have hlA : Live sA := Live.of_opEffect h0 hl
      rw [hsc] at h
      rw [ref_should_cancel_eq hl.1 hsc]
      cases b with
      | true =>
        cases h
        exact ⟨rfl, hlA⟩
      | false =>
        simp only at h ⊢
        rcases hg : symlink_dir_gate path isl canon sA with gout | sB
        · obtain ⟨ctrlO, sO⟩ := gout
          rw [hg] at h
          rw [ref_gate_inl hg]
          simp only at h ⊢
          cases h
          exact ⟨rfl, Live.of_opEffect
            (h0.comp ((symlink_dir_gate_opEffect path isl canon sA).1 _ hg)) hl⟩
        · rw [hg] at h
          rw [ref_gate_inr hg]
          simp only at h ⊢
          have hB : OpEffect scanPhaseEvt s sB :=
            h0.comp ((symlink_dir_gate_opEffect path isl canon sA).2 sB hg)
          have hlB : Live sB := Live.of_opEffect hB hl
          set sI := (if ei && eu then
              send_node_update sB {
                path := path,
                kind := if isl then FsEntryKind.symlink else FsEntryKind.dir,
                apparent_bytes := meta.len, allocated_bytes := allocated_size meta,
                children_count := 0, is_complete := false }
            else sB) with hsI
          have h3 : OpEffect scanPhaseEvt sB sI := by
            rw [hsI]
            split
            · exact send_node_update_opEffect scanPhase_progress scanPhase_node _ _
            · exact OpEffect.id _
          have hrI : refOf sI = refOf sB := by
            rw [hsI]
            split
            · rw [refOf_send_node_update]
            · rfl
          have hlI : Live sI := Live.of_opEffect h3 hlB
          have hoptI : sI.options = s.options := h3.options_eq.trans hB.options_eq
          have hrfsI : sI.root_fs = s.root_fs := h3.root_fs_eq.trans hB.root_fs_eq
          cases entries with
          | none =>
            simp only at h ⊢
            cases h
            dsimp only
            constructor
            · refine congrArg some (congrArg _ ?_)
              have : refOf (if eu then
                  send_node_update (bump_entry
                    (bump_warning sI path .cannotReadDirectory) meta.len
                    (allocated_size meta))
                    { path := path,
                      kind := if isl then FsEntryKind.symlink else FsEntryKind.dir,
                      apparent_bytes := meta.len,
                      allocated_bytes := allocated_size meta,
                      children_count := 0, is_complete := true }
                  else bump_entry (bump_warning sI path .cannotReadDirectory) meta.len
                    (allocated_size meta)) =
                  ref_bump_entry (ref_bump_warning (refOf sB)) meta.len
                    (allocated_size meta) := by
                split
                · rw [refOf_send_node_update, refOf_bump_entry, refOf_bump_warning, hrI]
                · rw [refOf_bump_entry, refOf_bump_warning, hrI]
              rw [this]
            · have h4a := bump_warning_scanPhase (q := path)
                (m := .cannotReadDirectory) rfl sI
              have h4b := bump_entry_opEffect (P := scanPhaseEvt) scanPhase_progress
                (bump_warning sI path .cannotReadDirectory) meta.len (allocated_size meta)
              have hlE : Live (bump_entry (bump_warning sI path .cannotReadDirectory)
                  meta.len (allocated_size meta)) :=
                Live.of_opEffect h4b (Live.of_opEffect h4a hlI)
              split
              · exact Live.of_opEffect
                  (send_node_update_opEffect scanPhase_progress scanPhase_node _ _) hlE
              · exact hlE
          | some entry_list =>
            simp only at h ⊢
            have hloopE := scan_dir_entries_ref path depth eu entry_list 0 meta.len
              (allocated_size meta) sI (s.options.follow_symlinks)
              (s.options.one_file_system) s.root_fs
              (by rw [hoptI]) (by rw [hoptI]) (by rw [hrfsI]) hlI
            rw [hrI] at hloopE
            have h4 := scan_dir_entries_opEffect path depth eu entry_list 0 meta.len
              (allocated_size meta) sI
            cases hp1 : scan_dir_entries path depth eu entry_list 0 meta.len
                (allocated_size meta) sI with
            | cancelled sC =>
              rw [hp1] at h h4 hloopE
              simp only [LoopOut.ref, LoopOut.state] at hloopE
              rw [hloopE.1]
              simp only at h ⊢
              cases h
              exact ⟨rfl, hloopE.2⟩
            | done cc1 at1 al1 sC =>
              rw [hp1] at h h4 hloopE
              simp only [LoopOut.ref, LoopOut.state] at hloopE
              rw [hloopE.1]
              simp only at h ⊢
              have hC : OpEffect scanPhaseEvt s sC := ((hB.comp h3)).comp h4
              cases hp2 : scan_pending_dirs fuel path depth eu entry_list cc1 at1 al1
                  sC with
              | none => rw [hp2] at h; cases h
              | some lo =>
                rw [hp2] at h
                have hpend := ihP path depth eu entry_list cc1 at1 al1 sC lo hp2
                  (s.options.follow_symlinks) (s.options.one_file_system) s.root_fs
                  (by rw [hC.options_eq]) (by rw [hC.options_eq]) (by rw [hC.root_fs_eq])
                  hloopE.2
                have h5 := ihD
                rw [hpend.1]
                have h6 := (scan_dir_opEffect fuel).2 path depth eu entry_list cc1 at1
                  al1 sC lo hp2
                cases lo with
                | cancelled sD =>
                  simp only [LoopOut.ref, LoopOut.state] at hpend ⊢
                  simp only at h
                  cases h
                  exact ⟨rfl, hpend.2⟩
                | done cc2 at2 al2 sD =>
                  simp only [LoopOut.ref, LoopOut.state] at hpend ⊢
                  simp only at h
                  cases h
                  dsimp only
                  constructor
                  · refine congrArg some (congrArg _ ?_)
                    have : refOf (if eu then
                        send_node_update (bump_entry sD meta.len (allocated_size meta))
                          { path := path,
                            kind := if isl then FsEntryKind.symlink else FsEntryKind.dir,
                            apparent_bytes := at2, allocated_bytes := al2,
                            children_count := cc2, is_complete := true }
                        else bump_entry sD meta.len (allocated_size meta)) =
                        ref_bump_entry (refOf sD) meta.len (allocated_size meta) := by
                      split
                      · rw [refOf_send_node_update, refOf_bump_entry]
                      · rw [refOf_bump_entry]
                    rw [this]
                  · have h7 := bump_entry_opEffect (P := scanPhaseEvt) scanPhase_progress
                      sD meta.len (allocated_size meta)
                    have hlE : Live (bump_entry sD meta.len (allocated_size meta)) :=
                      Live.of_opEffect h7 hpend.2
                    split
                    · exact Live.of_opEffect
                        (send_node_update_opEffect scanPhase_progress scanPhase_node _ _)
                        hlE
                    · exact hlE
    · intro path depth eu entries cc ap al s out h fsl ofs rfs hfsl hofs hrfs hl
      subst hfsl; subst hofs; subst hrfs
      rw [scan_pending_dirs.eq_def] at h
      rw [ref_scan_pending_dirs.eq_def]
      simp only at h ⊢
      cases entries with
      | nil =>
        simp only at h ⊢
        cases h
        exact ⟨rfl, hl⟩
      | cons e rest =>
        cases e with
        | err =>
          simp only at h ⊢
          exact ihP path depth eu rest cc ap al s out h _ _ _ rfl rfl rfl hl
        | entry child_name stat =>
          simp only at h ⊢
          cases stat with
          | none =>
            simp only at h ⊢
            exact ihP path depth eu rest cc ap al s out h _ _ _ rfl rfl rfl hl
          | some child_tree =>
            simp only at h ⊢
            cases hsym : child_tree.isSymlink && ! s.options.follow_symlinks with
            | true =>
              simp only [hsym, if_pos] at h ⊢
              exact ihP path depth eu rest cc ap al s out h _ _ _ rfl rfl rfl hl
            | false =>
              simp only [hsym, Bool.false_eq_true, if_false] at h ⊢
              cases hres : resolved_of child_tree with
              | none =>
                rw [hres] at h
                simp only [hres]
                simp only at h ⊢
                exact ihP path depth eu rest cc ap al s out h _ _ _ rfl rfl rfl hl
              | some resolved =>
                rw [hres] at h
                simp only [hres]
                simp only at h ⊢
                rw [skip_other_filesystem_ref s resolved]
                cases hskip : skip_other_filesystem s resolved with
                | true =>
                  simp only [hskip, if_pos] at h ⊢
                  exact ihP path depth eu rest cc ap al s out h _ _ _ rfl rfl rfl hl
                | false =>
                  simp only [hskip, Bool.false_eq_true, if_false] at h ⊢
                  cases hdir : resolved.isDir with
                  | true =>
                    simp only [hdir, if_pos] at h ⊢
                    cases hd : scan_dir fuel (path ++ [child_name]) (depth + 1)
                        child_tree.isSymlink resolved.meta resolved.canon
                        resolved.entries
                        (! (! child_tree.isSymlink &&
                          child_emit_updates s.options eu child_name (depth + 1)))
                        (child_emit_updates s.options eu child_name (depth + 1)) s with
                    | none => rw [hd] at h; cases h
                    | some cs =>
                      rw [hd] at h
                      obtain ⟨ctrl2, sE⟩ := cs
                      have h6 := ihD (path ++ [child_name]) (depth + 1)
                        child_tree.isSymlink resolved.meta resolved.canon
                        resolved.entries _ _ s (ctrl2, sE) hd _ _ _ rfl rfl rfl hl
                      have h6e := (scan_dir_opEffect fuel).1 (path ++ [child_name])
                        (depth + 1) child_tree.isSymlink resolved.meta resolved.canon
                        resolved.entries _ _ s ctrl2 sE hd
                      rw [h6.1]
                      cases ctrl2 with
                      | cancelled =>
                        simp only at h ⊢
                        cases h
                        exact ⟨rfl, h6.2⟩
                      | cont child =>
                        cases child with
                        | some childS =>
                          simp only at h ⊢
                          exact ihP path depth eu rest _ _ _ sE out h _ _ _
                            (by rw [h6e.options_eq]) (by rw [h6e.options_eq])
                            (by rw [h6e.root_fs_eq]) h6.2
                        | none =>
                          simp only at h ⊢
                          exact ihP path depth eu rest cc ap al sE out h _ _ _
                            (by rw [h6e.options_eq]) (by rw [h6e.options_eq])
                            (by rw [h6e.root_fs_eq]) h6.2
                  | false =>
                    simp only [hdir, Bool.false_eq_true, if_false] at h ⊢
                    exact ihP path depth eu rest cc ap al s out h _ _ _ rfl rfl rfl hl

theorem scan_entry_ref (fuel : Nat) (path : List String) (depth : Nat)
    (stat : Option FsTree) (s : ScannerSt) (out : ScanControl × ScannerSt)
    (h : scan_entry fuel path depth stat s = some out)
    (fsl ofs : Bool) (rfs : Option Nat)
    (hfsl : fsl = s.options.follow_symlinks) (hofs : ofs = s.options.one_file_system)
    (hrfs : rfs = s.root_fs) (hl : Live s) :
    ref_scan_entry fuel fsl ofs rfs path depth stat (refOf s) =
      some (out.1, refOf out.2) ∧ Live out.2 := by
  subst hfsl; subst hofs; subst hrfs
  unfold scan_entry at h
  unfold ref_scan_entry
  rcases hsc : should_cancel s with ⟨b, sA⟩
  have h0 : OpEffect scanPhaseEvt s sA := by
    have hx := should_cancel_opEffect (P := scanPhaseEvt) s
    rwa [hsc] at hx
  have hlA : Live sA := Live.of_opEffect h0 hl
  rw [hsc] at h
  rw [ref_should_cancel_eq hl.1 hsc]
  cases b with
  | true =>
    cases h
    exact ⟨rfl, hlA⟩
  | false =>
    simp only at h ⊢
    rw [← h0.options_eq, ← h0.root_fs_eq]
    cases stat with
    | none =>
      cases h
      dsimp only
      rw [← refOf_bump_warning]
      exact ⟨rfl, Live.of_opEffect (bump_warning_scanPhase (q := path)
        (m := .cannotStatPath) rfl sA) hlA⟩
    | some tree =>
      dsimp only at h ⊢
      cases hsym : tree.isSymlink && ! sA.options.follow_symlinks with
      | true =>
        simp only [hsym, if_pos] at h ⊢
        cases h
        have hco := refOf_summarize_non_dir path .symlink tree.meta
          sA.options.show_files sA
        have hsum := summarize_opEffect_true path .symlink tree.meta
          sA.options.show_files sA
        rw [← hco.1, ← hco.2]
        exact ⟨rfl, Live.of_opEffect hsum hlA⟩
      | false =>
        simp only [hsym, Bool.false_eq_true, if_false] at h ⊢
        cases hres : resolved_of tree with
        | none =>
          rw [hres] at h
          simp only [hres]
          simp only at h ⊢
          cases h
          rw [← refOf_bump_warning]
          exact ⟨rfl, Live.of_opEffect (bump_warning_scanPhase (q := path)
            (m := .cannotFollowSymlinkTarget) rfl sA) hlA⟩
        | some resolved =>
          rw [hres] at h
          simp only [hres]
          simp only at h ⊢
          cases hfence : sA.options.one_file_system && decide (depth > 0) &&
              resolved.isDir &&
              (match sA.root_fs, filesystem_id resolved.meta with
               | some root_id, some this_id => decide (root_id ≠ this_id)
               | _, _ => false) with
          | true =>
            simp only [hfence, if_pos] at h ⊢
            cases h
            exact ⟨rfl, hlA⟩
          | false =>
            simp only [hfence, Bool.false_eq_true, if_false] at h ⊢
            cases hfile : resolved.isFile with
            | true =>
              simp only [hfile, if_pos] at h ⊢
              cases h
              have hco := refOf_summarize_non_dir path
                (kind_from_non_dir resolved tree.isSymlink) resolved.meta
                sA.options.show_files sA
              have hsum := summarize_opEffect_true path
                (kind_from_non_dir resolved tree.isSymlink) resolved.meta
                sA.options.show_files sA
              rw [← hco.1, ← hco.2]
              exact ⟨rfl, Live.of_opEffect hsum hlA⟩
            | false =>
              simp only [hfile, Bool.false_eq_true, if_false] at h ⊢
              cases hdir : resolved.isDir with
              | true =>
                simp only [hdir, if_pos] at h ⊢
                exact (scan_dir_ref fuel).1 path depth tree.isSymlink resolved.meta
                  resolved.canon resolved.entries true true sA out h _ _ _
                  rfl rfl rfl hlA
              | false =>
                simp only [hdir, Bool.false_eq_true, if_false] at h ⊢
                cases h
                have hco := refOf_summarize_non_dir path
                  (kind_from_non_dir resolved tree.isSymlink) resolved.meta
                  sA.options.show_files sA
                have hsum := summarize_opEffect_true path
                  (kind_from_non_dir resolved tree.isSymlink) resolved.meta
                  sA.options.show_files sA
                rw [← hco.1, ← hco.2]
                exact ⟨rfl, Live.of_opEffect hsum hlA⟩

theorem progress_of_refOf {s t : ScannerSt} (h : refOf s = refOf t) :
    s.progress = t.progress :=
  congrArg RefSt.progress h

theorem send_critical_progress (s : ScannerSt) (e : ScanEvent) :
    (send_critical s e).progress = s.progress :=
  congrArg RefSt.progress (refOf_send_critical s e)

theorem emit_progress_now_progress (s : ScannerSt) :
    (emit_progress_now s).progress = s.progress := by
  unfold emit_progress_now
  exact congrArg RefSt.progress (refOf_send_noncritical _ _)

theorem emit_backpressure_progress3 (s : ScannerSt) :
    (emit_backpressure_warning_if_needed s).progress.visited_entries =
      s.progress.visited_entries ∧
    (emit_backpressure_warning_if_needed s).progress.apparent_bytes_seen =
      s.progress.apparent_bytes_seen ∧
    (emit_backpressure_warning_if_needed s).progress.allocated_bytes_seen =
      s.progress.allocated_bytes_seen := by
  unfold emit_backpressure_warning_if_needed
  split
  · exact ⟨rfl, rfl, rfl⟩
  · split
    · exact ⟨rfl, rfl, rfl⟩
    · refine ⟨?_, ?_, ?_⟩ <;> rw [send_critical_progress]

/-- C4 (amended).  Display-filter independence: `show_hidden`, `show_files` and
`max_depth` gate only which `NodeUpdated` events are emitted, never which
entries are visited, counted, or aggregated.  (1) Two traversals of the same
tree whose options agree on `follow_symlinks`/`one_file_system` (channel
outcomes and display options arbitrary) return the same `ScanControl` — in
particular the same root final `NodeSummary` with identical `apparent_bytes`
and `allocated_bytes` — and bit-identical traversal progress counters.
(2) At the end of two whole scans over the same root the delivered
`visited_entries`, `apparent_bytes_seen` and `allocated_bytes_seen` totals are
identical.  (The original claim's "identical cumulative progress totals" fails
for the fourth counter, `warnings`: the one-shot backpressure warning bumps it,
and whether it fires depends on how the differing emission volume meets a full
channel — see the counterexample.) -/
theorem display_filter_independence :
    (∀ (fuel : Nat) (path : List String) (depth : Nat) (stat : Option FsTree)
       (optsA optsB : ScanOptions) (rfs : Option Nat)
       (oracleA oracleB : List SendResult) (sentA sentB : List ScanEvent)
       (cf : Option Nat) (outA outB : ScanControl × ScannerSt),
      optsA.follow_symlinks = optsB.follow_symlinks →
      optsA.one_file_system = optsB.one_file_system →
      SendResult.disconnected ∉ oracleA → SendResult.disconnected ∉ oracleB →
      scan_entry fuel path depth stat
        (initial_scanner_state optsA rfs oracleA sentA cf false) = some outA →
      scan_entry fuel path depth stat
        (initial_scanner_state optsB rfs oracleB sentB cf false) = some outB →
      outA.1 = outB.1 ∧ outA.2.progress = outB.2.progress) ∧
    (∀ (fuel : Nat) (optsA optsB : ScanOptions) (root_stat : Option FsTree)
       (oracleA oracleB : List SendResult) (cf : Option Nat) (sA sB : ScannerSt),
      optsA.root = optsB.root →
      optsA.follow_symlinks = optsB.follow_symlinks →
      optsA.one_file_system = optsB.one_file_system →
      SendResult.disconnected ∉ oracleA → SendResult.disconnected ∉ oracleB →
      run_scan fuel optsA root_stat oracleA cf = some sA →
      run_scan fuel optsB root_stat oracleB cf = some sB →
      sA.progress.visited_entries = sB.progress.visited_entries ∧
      sA.progress.apparent_bytes_seen = sB.progress.apparent_bytes_seen ∧
      sA.progress.allocated_bytes_seen = sB.progress.allocated_bytes_seen) := by
  have core : ∀ (fuel : Nat) (path : List String) (depth : Nat) (stat : Option FsTree)
      (optsA optsB : ScanOptions) (rfs : Option Nat)
      (oracleA oracleB : List SendResult) (sentA sentB : List ScanEvent)
      (cf : Option Nat) (outA outB : ScanControl × ScannerSt),
      optsA.follow_symlinks = optsB.follow_symlinks →
      optsA.one_file_system = optsB.one_file_system →
      SendResult.disconnected ∉ oracleA → SendResult.disconnected ∉ oracleB →
      scan_entry fuel path depth stat
        (initial_scanner_state optsA rfs oracleA sentA cf false) = some outA →
      scan_entry fuel path depth stat
        (initial_scanner_state optsB rfs oracleB sentB cf false) = some outB →
      outA.1 = outB.1 ∧ refOf outA.2 = refOf outB.2 := by
    intro fuel path depth stat optsA optsB rfs oracleA oracleB sentA sentB cf
      outA outB hfs hos hndA hndB hA hB
    have hRA := scan_entry_ref fuel path depth stat _ outA hA
      optsA.follow_symlinks optsA.one_file_system rfs rfl rfl rfl ⟨rfl, hndA⟩
    have hRB := scan_entry_ref fuel path depth stat _ outB hB
      optsA.follow_symlinks optsA.one_file_system rfs (by rw [hfs]; rfl)
      (by rw [hos]; rfl) rfl ⟨rfl, hndB⟩
    have heq : (some (outA.1, refOf outA.2) : Option (ScanControl × RefSt)) =
        some (outB.1, refOf outB.2) := hRA.1.symm.trans hRB.1
    have h' := Option.some.inj heq
    exact Prod.ext_iff.mp h'
  constructor
  · intro fuel path depth stat optsA optsB rfs oracleA oracleB sentA sentB cf
      outA outB hfs hos hndA hndB hA hB
    obtain ⟨h1, h2⟩ := core fuel path depth stat optsA optsB rfs oracleA oracleB
      sentA sentB cf outA outB hfs hos hndA hndB hA hB
    exact ⟨h1, progress_of_refOf h2⟩
  · intro fuel optsA optsB root_stat oracleA oracleB cf sA sB hroot hfs hos hndA hndB
      hrunA hrunB
    unfold run_scan at hrunA hrunB
    obtain ⟨oracleA1, hsceA, hndA1⟩ := send_critical_event_spec (.reset optsA.root)
      (oracleA.length + 1) oracleA [] hndA (by omega)
    obtain ⟨oracleB1, hsceB, hndB1⟩ := send_critical_event_spec (.reset optsB.root)
      (oracleB.length + 1) oracleB [] hndB (by omega)
    rw [hsceA] at hrunA
    rw [hsceB] at hrunB
    simp only at hrunA hrunB
    cases root_stat with
    | none =>
      obtain ⟨oracleA2, hsceA2, _⟩ := send_critical_event_spec (.error optsA.root)
        (oracleA1.length + 1) oracleA1 ([] ++ [.reset optsA.root]) hndA1 (by omega)
      obtain ⟨oracleB2, hsceB2, _⟩ := send_critical_event_spec (.error optsB.root)
        (oracleB1.length + 1) oracleB1 ([] ++ [.reset optsB.root]) hndB1 (by omega)
      rw [hsceA2] at hrunA
      rw [hsceB2] at hrunB
      simp only at hrunA hrunB
      cases hrunA
      cases hrunB
      exact ⟨rfl, rfl, rfl⟩
    | some root_tree =>
      simp only at hrunA hrunB
      cases hscanA : scan_entry fuel optsA.root 0 (some root_tree)
          (initial_scanner_state optsA
            (if optsA.one_file_system then filesystem_id root_tree.meta else none)
            oracleA1 ([] ++ [.reset optsA.root]) cf false) with
      | none => rw [hscanA] at hrunA; cases hrunA
      | some csA =>
        rw [hscanA] at hrunA
        obtain ⟨ctrlA, s1A⟩ := csA
        cases hscanB : scan_entry fuel optsB.root 0 (some root_tree)
            (initial_scanner_state optsB
              (if optsB.one_file_system then filesystem_id root_tree.meta else none)
              oracleB1 ([] ++ [.reset optsB.root]) cf false) with
        | none => rw [hscanB] at hrunB; cases hrunB
        | some csB =>
          rw [hscanB] at hrunB
          obtain ⟨ctrlB, s1B⟩ := csB
          have hrfseq : (if optsB.one_file_system then filesystem_id root_tree.meta
              else none) = (if optsA.one_file_system then filesystem_id root_tree.meta
              else none) := by rw [hos]
          rw [hrfseq, ← hroot] at hscanB
          obtain ⟨hctrl, href⟩ := core fuel optsA.root 0 (some root_tree) optsA optsB
            (if optsA.one_file_system then filesystem_id root_tree.meta else none)
            oracleA1 oracleB1 ([] ++ [.reset optsA.root]) ([] ++ [.reset optsA.root])
            cf (ctrlA, s1A) (ctrlB, s1B) hfs hos hndA1 hndB1 hscanA hscanB
          have hprog1 : s1A.progress = s1B.progress := progress_of_refOf href
          dsimp only at hctrl
          cases ctrlA with
          | cont oA =>
            cases ctrlB with
            | cancelled => cases hctrl
            | cont oB =>
              simp only at hrunA hrunB
              cases hrunA
              cases hrunB
              have hA3 := emit_backpressure_progress3 s1A
              have hB3 := emit_backpressure_progress3 s1B
              rw [send_critical_progress, emit_progress_now_progress,
                send_critical_progress, emit_progress_now_progress]
              exact ⟨hA3.1.trans (hprog1 ▸ hB3.1.symm),
                hA3.2.1.trans (hprog1 ▸ hB3.2.1.symm),
                hA3.2.2.trans (hprog1 ▸ hB3.2.2.symm)⟩
          | cancelled =>
            cases ctrlB with
            | cont oB => cases hctrl
            | cancelled =>
              simp only at hrunA hrunB
              cases hrunA
              cases hrunB
              have hA3 := emit_backpressure_progress3 s1A
              have hB3 := emit_backpressure_progress3 s1B
              rw [send_critical_progress, send_critical_progress]
              exact ⟨hA3.1.trans (hprog1 ▸ hB3.1.symm),
                hA3.2.1.trans (hprog1 ▸ hB3.2.1.symm),
                hA3.2.2.trans (hprog1 ▸ hB3.2.2.symm)⟩

/-- C4 counterexample fixtures: a root directory holding one plain file, and a
variant option set differing only in `show_files`. -/
def c4_tree : FsTree :=
  .dir { len := 10, blocks := 0, dev := 1 } none (some [
    .entry "f" (some (.file { len := 50, blocks := 0, dev := 1 }))])

def c4_optsB : ScanOptions := { w_opts with show_files := false }

/-- C4 counterexample: two scans over the same tree with the same channel
outcomes, differing only in `show_files`, deliver different final progress —
with outcomes `[ok, ok, ok, full, ok, ok]` the emitting run drops its final
root NodeUpdated on the full slot and fires the backpressure warning
(`warnings = 1`), while the non-emitting run meets the full slot only at the
final progress emission and never warns (`warnings = 0`), so "identical
cumulative progress totals" is false. -/
theorem display_filter_progress_counterexample :
    ¬ (∀ sA sB, run_scan 4 w_opts (some c4_tree) c3_oracle none = some sA →
        run_scan 4 c4_optsB (some c4_tree) c3_oracle none = some sB →
        sA.progress = sB.progress) := by
  intro h
  have h1 := h ((run_scan 4 w_opts (some c4_tree) c3_oracle none).getD w_default)
    ((run_scan 4 c4_optsB (some c4_tree) c3_oracle none).getD w_default) rfl rfl
  exact absurd (congrArg ScanProgress.warnings h1) (by decide)

def c4_optsC : ScanOptions := { w_opts with show_hidden := false, max_depth := some 0 }

/-- C4 witness. -/
theorem display_filter_independence_witness :
    ((scan_entry 10 ["r"] 0 (some w_tree)
        (initial_scanner_state w_opts none [] [] none false)).getD
        (.cancelled, w_default)).1 =
      ((scan_entry 10 ["r"] 0 (some w_tree)
        (initial_scanner_state c4_optsC none [] [] none false)).getD
        (.cancelled, w_default)).1 ∧
    ((scan_entry 10 ["r"] 0 (some w_tree)
        (initial_scanner_state w_opts none [] [] none false)).getD
        (.cancelled, w_default)).2.progress =
      ((scan_entry 10 ["r"] 0 (some w_tree)
        (initial_scanner_state c4_optsC none [] [] none false)).getD
        (.cancelled, w_default)).2.progress :=
  display_filter_independence.1 10 ["r"] 0 (some w_tree) w_opts c4_optsC none
    [] [] [] [] none _ _ rfl rfl (by decide) (by decide) (by rfl) (by rfl)

/-! ## C1: the aggregation law

`spec_dir_children` is the *specification-side* reading of the claim: the list
of the counted immediate children of a directory, each carried as its
`(apparent, allocated)` size contribution — non-directory children contribute
their own metadata sizes, directory children contribute their recursively
settled totals — and `spec_totals_of` forms "own metadata size plus the sum of
the children's sizes" with the scanner's saturating arithmetic, together with
the count of counted children. -/

def nonDirContribs (fsl ofs : Bool) (rfs : Option Nat) : List RawEntry → List (Nat × Nat)
  | [] => []
  | .err :: rest => nonDirContribs fsl ofs rfs rest
  | .entry _ stat :: rest =>
    match stat with
    | none => nonDirContribs fsl ofs rfs rest
    | some child_tree =>
      if child_tree.isSymlink && ! fsl then
        (child_tree.meta.len, allocated_size child_tree.meta) ::
          nonDirContribs fsl ofs rfs rest
      else
        match resolved_of child_tree with
        | none => nonDirContribs fsl ofs rfs rest
        | some resolved =>
          if ref_skip_other_filesystem ofs rfs resolved then
            nonDirContribs fsl ofs rfs rest
          else if resolved.isDir then
            nonDirContribs fsl ofs rfs rest
          else
            (resolved.meta.len, allocated_size resolved.meta) ::
              nonDirContribs fsl ofs rfs rest

/-- "Own metadata plus the sum of the counted children's sizes", with the
count of counted children: `(children_count, apparent, allocated)`. -/
def spec_totals_of (meta : Meta) (contribs : List (Nat × Nat)) : Nat × Nat × Nat :=
  (List.foldl (fun n _ => satAdd n 1) 0 contribs,
   List.foldl satAdd meta.len (contribs.map Prod.fst),
   List.foldl satAdd (allocated_size meta) (contribs.map Prod.snd))

/-- The symlink-directory gate, specification side: `none` = the directory is
skipped, `some v` = proceed with the updated visited set. -/
def spec_gate (isl : Bool) (canon : Option Nat) (visited : List Nat) :
    Option (List Nat) :=
  if isl then
    match canon with
    | some c => if c ∈ visited then none else some (c :: visited)
    | none => none
  else some visited

mutual
/-- The contribution list of a directory's counted immediate children.
Outer `none` = fuel ran out; `some none` = the directory itself was skipped
by the symlink gate; `some (some (contribs, visited'))` = its counted children
and the symlink-visited set after its subtree. -/
def spec_dir_children (fuel : Nat) (fsl ofs : Bool) (rfs : Option Nat)
    (isl : Bool) (canon : Option Nat) (entries : Option (List RawEntry))
    (visited : List Nat) : Option (Option (List (Nat × Nat) × List Nat)) :=
  match fuel with
  | 0 => none
  | fuel + 1 =>
    match spec_gate isl canon visited with
    | none => some none
    | some visited1 =>
      match entries with
      | none => some (some ([], visited1))
      | some l =>
        match spec_pending_children fuel fsl ofs rfs l visited1 with
        | none => none
        | some (dirContribs, visited2) =>
          some (some (nonDirContribs fsl ofs rfs l ++ dirContribs, visited2))

/-- The contributions of the directory children among `entries`, recursively
settled, threading the symlink-visited set in traversal order. -/
def spec_pending_children (fuel : Nat) (fsl ofs : Bool) (rfs : Option Nat)
    (entries : List RawEntry) (visited : List Nat) :
    Option (List (Nat × Nat) × List Nat) :=
  match fuel with
  | 0 => none
  | fuel + 1 =>
    match entries with
    | [] => some ([], visited)
    | .err :: rest => spec_pending_children fuel fsl ofs rfs rest visited
    | .entry _ stat :: rest =>
      match stat with
      | none => spec_pending_children fuel fsl ofs rfs rest visited
      | some child_tree =>
        if child_tree.isSymlink && ! fsl then
          spec_pending_children fuel fsl ofs rfs rest visited
        else
          match resolved_of child_tree with
          | none => spec_pending_children fuel fsl ofs rfs rest visited
          | some resolved =>
            if ref_skip_other_filesystem ofs rfs resolved then
              spec_pending_children fuel fsl ofs rfs rest visited
            else if resolved.isDir then
              match spec_dir_children fuel fsl ofs rfs child_tree.isSymlink
                  resolved.canon resolved.entries visited with
              | none => none
              | some none => spec_pending_children fuel fsl ofs rfs rest visited
              | some (some (childContribs, visited1)) =>
                match spec_pending_children fuel fsl ofs rfs rest visited1 with
                | none => none
                | some (moreContribs, visited2) =>
                  some (((spec_totals_of resolved.meta childContribs).2.1,
                         (spec_totals_of resolved.meta childContribs).2.2)
                    :: moreContribs, visited2)
            else
              spec_pending_children fuel fsl ofs rfs rest visited
end

theorem ref_should_cancel_visited (r : RefSt) :
    (ref_should_cancel r).2.visited = r.visited := by
  rcases r with ⟨p, v, cf⟩
  cases cf with
  | none => rfl
  | some n => cases n <;> rfl

theorem ref_gate_spec (isl : Bool) (canon : Option Nat) (r : RefSt) :
    (∀ c r', ref_symlink_dir_gate isl canon r = .inl (c, r') →
      c = .cont none ∧ r'.visited = r.visited ∧
      spec_gate isl canon r.visited = none) ∧
    (∀ r2, ref_symlink_dir_gate isl canon r = .inr r2 →
      spec_gate isl canon r.visited = some r2.visited) := by
  unfold ref_symlink_dir_gate spec_gate
  cases isl with
  | false =>
    simp only [Bool.false_eq_true, if_false]
    exact ⟨fun c r' h => (by cases h), fun r2 h => (by cases h; rfl)⟩
  | true =>
    simp only [if_pos]
    cases canon with
    | none =>
      dsimp only
      refine ⟨fun c r' h => ?_, fun r2 h => by cases h⟩
      cases h
      exact ⟨rfl, rfl, rfl⟩
    | some c =>
      dsimp only
      by_cases hm : c ∈ r.visited
      · rw [if_pos hm, if_pos hm]
        refine ⟨fun c' r' h => ?_, fun r2 h => by cases h⟩
        cases h
        exact ⟨rfl, rfl, rfl⟩
      · rw [if_neg hm, if_neg hm]
        refine ⟨fun c' r' h => (by cases h), fun r2 h => ?_⟩
        cases h
        rfl

theorem ref_entries_totals (fsl ofs : Bool) (rfs : Option Nat) (path : List String) :
    ∀ (entries : List RawEntry) (cc ap al : Nat) (r : RefSt)
      (cc' ap' al' : Nat) (r' : RefSt),
      ref_scan_dir_entries fsl ofs rfs path entries cc ap al r =
        .done cc' ap' al' r' →
      r'.visited = r.visited ∧
      cc' = List.foldl (fun n _ => satAdd n 1) cc (nonDirContribs fsl ofs rfs entries) ∧
      ap' = List.foldl satAdd ap ((nonDirContribs fsl ofs rfs entries).map Prod.fst) ∧
      al' = List.foldl satAdd al ((nonDirContribs fsl ofs rfs entries).map Prod.snd) := by
  intro entries
  induction entries with
  | nil =>
    intro cc ap al r cc' ap' al' r' h
    cases h
    exact ⟨rfl, rfl, rfl, rfl⟩
  | cons e rest ih =>
    intro cc ap al r cc' ap' al' r' h
    unfold ref_scan_dir_entries at h
    rcases hsc : ref_should_cancel r with ⟨b, r1⟩
    have hv1 : r1.visited = r.visited := by
      have hx := ref_should_cancel_visited r
      rwa [hsc] at hx
    rw [hsc] at h
    cases b with
    | true => cases h
    | false =>
      simp only at h
      cases e with
      | err =>
        simp only [nonDirContribs]
        obtain ⟨h1, h2, h3, h4⟩ := ih _ _ _ _ _ _ _ _ h
        exact ⟨h1.trans hv1, h2, h3, h4⟩
      | entry child_name stat =>
        simp only at h
        cases stat with
        | none =>
          simp only [nonDirContribs]
          obtain ⟨h1, h2, h3, h4⟩ := ih _ _ _ _ _ _ _ _ h
          exact ⟨h1.trans hv1, h2, h3, h4⟩
        | some child_tree =>
          simp only [nonDirContribs]
          simp only at h
          cases hsym : child_tree.isSymlink && ! fsl with
          | true =>
            simp only [hsym, if_pos] at h ⊢
            simp only [ref_summarize_non_dir] at h
            simp only [List.foldl_cons, List.map_cons]
            obtain ⟨h1, h2, h3, h4⟩ := ih _ _ _ _ _ _ _ _ h
            exact ⟨h1.trans hv1, h2, h3, h4⟩
          | false =>
            simp only [hsym, Bool.false_eq_true, if_false] at h ⊢
            cases hres : resolved_of child_tree with
            | none =>
              rw [hres] at h
              simp only [hres]
              simp only at h ⊢
              obtain ⟨h1, h2, h3, h4⟩ := ih _ _ _ _ _ _ _ _ h
              exact ⟨h1.trans hv1, h2, h3, h4⟩
            | some resolved =>
              rw [hres] at h
              simp only [hres]
              simp only at h ⊢
              cases hskip : ref_skip_other_filesystem ofs rfs resolved with
              | true =>
                simp only [hskip, if_pos] at h ⊢
                obtain ⟨h1, h2, h3, h4⟩ := ih _ _ _ _ _ _ _ _ h
                exact ⟨h1.trans hv1, h2, h3, h4⟩
              | false =>
                simp only [hskip, Bool.false_eq_true, if_false] at h ⊢
                cases hdir : resolved.isDir with
                | true =>
                  simp only [hdir, if_pos] at h ⊢
                  obtain ⟨h1, h2, h3, h4⟩ := ih _ _ _ _ _ _ _ _ h
                  exact ⟨h1.trans hv1, h2, h3, h4⟩
                | false =>
                  simp only [hdir, Bool.false_eq_true, if_false] at h ⊢
                  simp only [ref_summarize_non_dir] at h
                  simp only [List.foldl_cons, List.map_cons]
                  obtain ⟨h1, h2, h3, h4⟩ := ih _ _ _ _ _ _ _ _ h
                  exact ⟨h1.trans hv1, h2, h3, h4⟩

theorem ref_spec_totals (fuel : Nat) :
    (∀ (fsl ofs : Bool) (rfs : Option Nat) (path : List String) (isl : Bool)
       (meta : Meta) (canon : Option Nat) (entries : Option (List RawEntry))
       (r : RefSt) (osum : Option NodeSummary) (r' : RefSt),
      ref_scan_dir fuel fsl ofs rfs path isl meta canon entries r =
        some (.cont osum, r') →
      (osum = none →
        spec_dir_children fuel fsl ofs rfs isl canon entries r.visited = some none ∧
        r'.visited = r.visited) ∧
      (∀ summary, osum = some summary →
        ∃ contribs,
          spec_dir_children fuel fsl ofs rfs isl canon entries r.visited =
            some (some (contribs, r'.visited)) ∧
          summary = {
            path := path, kind := if isl then .symlink else .dir,
            apparent_bytes := (spec_totals_of meta contribs).2.1,
            allocated_bytes := (spec_totals_of meta contribs).2.2,
            children_count := (spec_totals_of meta contribs).1,
            is_complete := true })) ∧
    (∀ (fsl ofs : Bool) (rfs : Option Nat) (path : List String)
       (entries : List RawEntry) (cc ap al : Nat) (r : RefSt)
       (cc' ap' al' : Nat) (r' : RefSt),
      ref_scan_pending_dirs fuel fsl ofs rfs path entries cc ap al r =
        some (.done cc' ap' al' r') →
      ∃ dirContribs,
        spec_pending_children fuel fsl ofs rfs entries r.visited =
          some (dirContribs, r'.visited) ∧
        cc' = List.foldl (fun n _ => satAdd n 1) cc dirContribs ∧
        ap' = List.foldl satAdd ap (dirContribs.map Prod.fst) ∧
        al' = List.foldl satAdd al (dirContribs.map Prod.snd)) := by
  induction fuel with
  | zero =>
    constructor
    · intro fsl ofs rfs path isl meta canon entries r osum r' h
      simp [ref_scan_dir] at h
    · intro fsl ofs rfs path entries cc ap al r cc' ap' al' r' h
      simp [ref_scan_pending_dirs] at h
  | succ fuel ih =>
    obtain ⟨ihD, ihP⟩ := ih
    constructor
    · intro fsl ofs rfs path isl meta canon entries r osum r' h
      rw [ref_scan_dir] at h
      rw [spec_dir_children]
      rcases hsc : ref_should_cancel r with ⟨b, r1⟩
      have hv1 : r1.visited = r.visited := by
        have hx := ref_should_cancel_visited r
        rwa [hsc] at hx
      rw [hsc] at h
      cases b with
      | true => simp at h
      | false =>
        simp only at h
        rcases hg : ref_symlink_dir_gate isl canon r1 with gout | r2
        · obtain ⟨gc, gr⟩ := gout
          rw [hg] at h
          simp only at h
          obtain ⟨hgc, hgv, hgs⟩ := (ref_gate_spec isl canon r1).1 gc gr hg
          rw [hgc] at h
          cases h
          rw [hv1] at hgs
          rw [hgs]
          constructor
          · intro _
            exact ⟨rfl, hgv.trans hv1⟩
          · intro summary hs
            cases hs
        · rw [hg] at h
          simp only at h
          have hgs := (ref_gate_spec isl canon r1).2 r2 hg
          rw [hv1] at hgs
          rw [hgs]
          cases entries with
          | none =>
            simp only at h ⊢
            cases h
            constructor
            · intro hn
              cases hn
            · intro summary hs
              cases hs
              exact ⟨[], rfl, rfl⟩
          | some l =>
            simp only at h ⊢
            rcases hp1 : ref_scan_dir_entries fsl ofs rfs path l 0 meta.len
                (allocated_size meta) r2 with r3 | ⟨cc1, at1, al1, r3⟩
            · rw [hp1] at h
              simp at h
            · rw [hp1] at h
              simp only at h
              obtain ⟨hv3, hcc1, hat1, hal1⟩ := ref_entries_totals fsl ofs rfs path l
                0 meta.len (allocated_size meta) r2 cc1 at1 al1 r3 hp1
              cases hp2 : ref_scan_pending_dirs fuel fsl ofs rfs path l cc1 at1 al1
                  r3 with
              | none => rw [hp2] at h; cases h
              | some lo =>
                rw [hp2] at h
                cases lo with
                | cancelled r4 => simp at h
                | done cc2 at2 al2 r4 =>
                  simp only at h
                  cases h
                  obtain ⟨dirC, hspend, hcc2, hat2, hal2⟩ := ihP fsl ofs rfs path l
                    cc1 at1 al1 r3 cc2 at2 al2 r4 hp2
                  rw [hv3] at hspend
                  rw [hspend]
                  constructor
                  · intro hn
                    cases hn
                  · intro summary hs
                    cases hs
                    refine ⟨nonDirContribs fsl ofs rfs l ++ dirC, rfl, ?_⟩
                    simp only [spec_totals_of, List.map_append, List.foldl_append]
                    rw [← hcc1, ← hat1, ← hal1, ← hcc2, ← hat2, ← hal2]
    · intro fsl ofs rfs path entries cc ap al r cc' ap' al' r' h
      rw [ref_scan_pending_dirs.eq_def] at h
      rw [spec_pending_children.eq_def]
      simp only at h ⊢
      cases entries with
      | nil =>
        simp only at h ⊢
        cases h
        exact ⟨[], rfl, rfl, rfl, rfl⟩
      | cons e rest =>
        cases e with
        | err =>
          simp only at h ⊢
          exact ihP fsl ofs rfs path rest cc ap al r cc' ap' al' r' h
        | entry child_name stat =>
          simp only at h ⊢
          cases stat with
          | none =>
            simp only at h ⊢
            exact ihP fsl ofs rfs path rest cc ap al r cc' ap' al' r' h
          | some child_tree =>
            simp only at h ⊢
            cases hsym : child_tree.isSymlink && ! fsl with
            | true =>
              simp only [hsym, if_pos] at h ⊢
              exact ihP fsl ofs rfs path rest cc ap al r cc' ap' al' r' h
            | false =>
              simp only [hsym, Bool.false_eq_true, if_false] at h ⊢
              cases hres : resolved_of child_tree with
              | none =>
                rw [hres] at h
                simp only [hres]
                simp only at h ⊢
                exact ihP fsl ofs rfs path rest cc ap al r cc' ap' al' r' h
              | some resolved =>
                rw [hres] at h
                simp only [hres]
                simp only at h ⊢
                cases hskip : ref_skip_other_filesystem ofs rfs resolved with
                | true =>
                  simp only [hskip, if_pos] at h ⊢
                  exact ihP fsl ofs rfs path rest cc ap al r cc' ap' al' r' h
                | false =>
                  simp only [hskip, Bool.false_eq_true, if_false] at h ⊢
                  cases hdir : resolved.isDir with
                  | false =>
                    simp only [hdir, Bool.false_eq_true, if_false] at h ⊢
                    exact ihP fsl ofs rfs path rest cc ap al r cc' ap' al' r' h
                  | true =>
                    simp only [hdir, if_pos] at h ⊢
                    cases hd : ref_scan_dir fuel fsl ofs rfs (path ++ [child_name])
                        child_tree.isSymlink resolved.meta resolved.canon
                        resolved.entries r with
                    | none => rw [hd] at h; cases h
                    | some cs =>
                      rw [hd] at h
                      obtain ⟨ctrl2, r1⟩ := cs
                      cases ctrl2 with
                      | cancelled =>
                        simp only at h
                        simp at h
                      | cont child =>
                        cases child with
                        | some childS =>
                          simp only at h
                          obtain ⟨contribs, hspecC, hsum⟩ :=
                            (ihD fsl ofs rfs (path ++ [child_name])
                              child_tree.isSymlink resolved.meta resolved.canon
                              resolved.entries r (some childS) r1 hd).2 childS rfl
                          rw [hspecC]
                          dsimp only
                          obtain ⟨more, hsp, hccr, hapr, halr⟩ :=
                            ihP fsl ofs rfs path rest _ _ _ r1 cc' ap' al' r' h
                          rw [hsp]
                          dsimp only
                          refine ⟨((spec_totals_of resolved.meta contribs).2.1,
                            (spec_totals_of resolved.meta contribs).2.2) :: more,
                            rfl, ?_, ?_, ?_⟩
                          · exact hccr
                          · rw [hsum] at hapr
                            exact hapr
                          · rw [hsum] at halr
                            exact halr
                        | none =>
                          simp only at h
                          obtain ⟨hspecC, hvis⟩ :=
                            (ihD fsl ofs rfs (path ++ [child_name])
                              child_tree.isSymlink resolved.meta resolved.canon
                              resolved.entries r none r1 hd).1 rfl
                          rw [hspecC]
                          dsimp only
                          obtain ⟨more, hsp, hccr, hapr, halr⟩ :=
                            ihP fsl ofs rfs path rest cc ap al r1 cc' ap' al' r' h
                          rw [hvis] at hsp
                          rw [hsp]
                          exact ⟨more, rfl, hccr, hapr, halr⟩

theorem foldl_satAdd_one (l : List (Nat × Nat)) :
    ∀ n, n ≤ U64MAX →
      List.foldl (fun n _ => satAdd n 1) n l = min (n + l.length) U64MAX := by
  induction l with
  | nil =>
    intro n hn
    simp [Nat.min_eq_left hn]
  | cons x l ih =>
    intro n hn
    rw [List.foldl_cons, ih (satAdd n 1) (satAdd_le_max _ _)]
    simp only [satAdd, List.length_cons]
    omega

/-- C1.  For every directory the scan settles (`scan_dir` returns
`ScanControl.cont (some summary)` — the same `summary` value it emits as the
final `NodeUpdated` when emission is enabled), the final summary has
`is_complete = true` and reports `apparent_bytes`/`allocated_bytes` equal to
the directory's own metadata size plus the (saturating) sum of the sizes of
all of its counted children — non-directories at their own metadata, counted
subdirectories at their recursively settled totals, as computed by the
spec-side `spec_dir_children`/`spec_totals_of` — and `children_count` equal to
the number of counted immediate children (saturated at `u64::MAX`).  The root
is the directory case of `scan_entry`, so its final totals in particular equal
its own metadata plus all descendants'. -/
theorem dir_aggregation_spec (fuel : Nat) (path : List String) (depth : Nat)
    (isl : Bool) (meta : Meta) (canon : Option Nat)
    (entries : Option (List RawEntry)) (ei eu : Bool) (s : ScannerSt)
    (out : ScanControl × ScannerSt) (summary : NodeSummary)
    (h : scan_dir fuel path depth isl meta canon entries ei eu s = some out)
    (hctrl : out.1 = .cont (some summary)) (hl : Live s) :
    ∃ contribs visited',
      spec_dir_children fuel s.options.follow_symlinks s.options.one_file_system
          s.root_fs isl canon entries s.visited_symlink_dirs =
        some (some (contribs, visited')) ∧
      summary = {
        path := path, kind := if isl then .symlink else .dir,
        apparent_bytes := (spec_totals_of meta contribs).2.1,
        allocated_bytes := (spec_totals_of meta contribs).2.2,
        children_count := (spec_totals_of meta contribs).1,
        is_complete := true } ∧
      summary.children_count = min contribs.length U64MAX := by
  obtain ⟨hre, hlive⟩ := (scan_dir_ref fuel).1 path depth isl meta canon entries
    ei eu s out h _ _ _ rfl rfl rfl hl
  rw [hctrl] at hre
  obtain ⟨contribs, hspec, hsum⟩ := ((ref_spec_totals fuel).1
    s.options.follow_symlinks s.options.one_file_system s.root_fs path isl meta
    canon entries (refOf s) (some summary) (refOf out.2) hre).2 summary rfl
  refine ⟨contribs, (refOf out.2).visited, hspec, hsum, ?_⟩
  rw [hsum]
  simp only [spec_totals_of]
  rw [foldl_satAdd_one contribs 0 (Nat.zero_le _)]
  rw [Nat.zero_add]

/-- C1 witness. -/
theorem dir_aggregation_spec_witness :
    ∃ contribs visited',
      spec_dir_children 10 w_default.options.follow_symlinks
          w_default.options.one_file_system w_default.root_fs false
          w_tree.canon w_tree.entries w_default.visited_symlink_dirs =
        some (some (contribs, visited')) ∧
      ({ path := ["r"], kind := .dir, apparent_bytes := 172,
         allocated_bytes := 172, children_count := 3,
         is_complete := true } : NodeSummary) = {
        path := ["r"], kind := if false then .symlink else .dir,
        apparent_bytes := (spec_totals_of w_tree.meta contribs).2.1,
        allocated_bytes := (spec_totals_of w_tree.meta contribs).2.2,
        children_count := (spec_totals_of w_tree.meta contribs).1,
        is_complete := true } ∧
      ({ path := ["r"], kind := .dir, apparent_bytes := 172,
         allocated_bytes := 172, children_count := 3,
         is_complete := true } : NodeSummary).children_count =
        min contribs.length U64MAX :=
  dir_aggregation_spec 10 ["r"] 0 false w_tree.meta w_tree.canon w_tree.entries
    true true w_default
    ((scan_dir 10 ["r"] 0 false w_tree.meta w_tree.canon w_tree.entries true true
      w_default).getD (.cancelled, w_default))
    { path := ["r"], kind := .dir, apparent_bytes := 172, allocated_bytes := 172,
      children_count := 3, is_complete := true }
    (by rfl) (by rfl) ⟨rfl, by decide⟩

/-! ## C5/C6: shape and order of the `NodeUpdated` stream

The claims are about the subsequence of `NodeUpdated` events in one scan's
delivered stream.  `nodeEvents` projects it out; `NInv` is the invariant the
traversal maintains: once a complete summary for a path is delivered, nothing
at that path or below it follows (`NOrd`, giving C6 and C5's no-regression /
single-final), at most one provisional per path, non-directory kinds are only
ever complete, and provisionals carry `children_count = 0`.  The filesystem
hypothesis `FsTree.wf` states that entry names within each directory listing
are distinct (which the OS guarantees), recursively. -/

def RawEntry.nameOf : RawEntry → Option String
  | .err => none
  | .entry n _ => some n

mutual
def FsTree.wf : FsTree → Bool
  | .file _ => true
  | .other _ => true
  | .symlink _ none => true
  | .symlink _ (some t) => t.wf
  | .dir _ _ none => true
  | .dir _ _ (some l) => RawList.wf l

def RawList.wf : List RawEntry → Bool
  | [] => true
  | .err :: rest => RawList.wf rest
  | .entry n stat :: rest =>
    rest.all (fun e => decide (e.nameOf ≠ some n)) &&
    (match stat with | none => true | some t => t.wf) &&
    RawList.wf rest
end

theorem resolved_of_wf (t : FsTree) (hw : t.wf = true) (r : FsTree)
    (h : resolved_of t = some r) : r.wf = true := by
  cases t with
  | symlink m tgt =>
    cases tgt with
    | none => cases h
    | some t' =>
      cases h
      exact hw
  | file m => cases h; exact hw
  | other m => cases h; exact hw
  | dir m c es => cases h; exact hw

theorem entries_wf (t : FsTree) (hw : t.wf = true) :
    ∀ l, t.entries = some l → RawList.wf l = true := by
  cases t with
  | dir m c es =>
    intro l h
    cases es with
    | none => cases h
    | some l' => cases h; exact hw
  | file m => intro l h; cases h
  | other m => intro l h; cases h
  | symlink m tgt => intro l h; cases h

/-- The `NodeUpdated` payloads of a stream, in delivery order. -/
def nodeEvents (l : List ScanEvent) : List NodeSummary :=
  l.filterMap (fun e => match e with | .nodeUpdated u => some u | _ => none)

/-- Once a complete summary for a path is delivered, no summary at that path
or below it may follow. -/
def NOrd (u v : NodeSummary) : Prop :=
  u.is_complete = true → ¬ u.path <+: v.path

/-- The summaries delivered for exactly path `q`. -/
def atP (q : List String) (ns : List NodeSummary) : List NodeSummary :=
  ns.filter (fun u => decide (u.path = q))

/-- The provisional (incomplete) summaries delivered for path `q`. -/
def incompAt (q : List String) (ns : List NodeSummary) : List NodeSummary :=
  ns.filter (fun u => decide (u.path = q) && ! u.is_complete)

def NInv (ns : List NodeSummary) : Prop :=
  ns.Pairwise NOrd ∧
  (∀ q, (incompAt q ns).length ≤ 1) ∧
  (∀ u ∈ ns, (u.kind = .file ∨ u.kind = .other) → u.is_complete = true) ∧
  (∀ u ∈ ns, u.is_complete = false → u.children_count = 0)

/-- No summary strictly below `p` has been delivered. -/
def freshStrict (p : List String) (ns : List NodeSummary) : Prop :=
  ∀ u ∈ ns, ¬ (p <+: u.path ∧ u.path ≠ p)

/-- No complete summary at `p` or any of its ancestors has been delivered. -/
def noCompPrefix (p : List String) (ns : List NodeSummary) : Prop :=
  ∀ u ∈ ns, u.is_complete = true → ¬ u.path <+: p

theorem nodeEvents_append (l1 l2 : List ScanEvent) :
    nodeEvents (l1 ++ l2) = nodeEvents l1 ++ nodeEvents l2 :=
  List.filterMap_append l1 l2 _

theorem atP_append (q : List String) (ns1 ns2 : List NodeSummary) :
    atP q (ns1 ++ ns2) = atP q ns1 ++ atP q ns2 :=
  List.filter_append ns1 ns2

theorem incompAt_append (q : List String) (ns1 ns2 : List NodeSummary) :
    incompAt q (ns1 ++ ns2) = incompAt q ns1 ++ incompAt q ns2 :=
  List.filter_append ns1 ns2

def NoNode (e : ScanEvent) : Prop := ∀ u, e ≠ ScanEvent.nodeUpdated u

theorem nodeEvents_eq_of_nonNode {Δ : List ScanEvent}
    (h : ∀ e ∈ Δ, NoNode e) (l : List ScanEvent) :
    nodeEvents (l ++ Δ) = nodeEvents l := by
  rw [nodeEvents_append]
  have hz : nodeEvents Δ = [] := by
    rw [nodeEvents, List.filterMap_eq_nil_iff]
    intro e he
    cases e with
    | nodeUpdated u => exact absurd rfl (h _ he u)
    | _ => rfl
  rw [hz, List.append_nil]

theorem NInv_append_nonNode {l Δ : List ScanEvent} (h : ∀ e ∈ Δ, NoNode e)
    (hinv : NInv (nodeEvents l)) : NInv (nodeEvents (l ++ Δ)) := by
  rw [nodeEvents_eq_of_nonNode h]
  exact hinv

theorem NInv_append_one (ns : List NodeSummary) (u : NodeSummary) (h : NInv ns)
    (h1 : ∀ v ∈ ns, v.is_complete = true → ¬ v.path <+: u.path)
    (h2 : u.is_complete = false → incompAt u.path ns = [] ∧ u.children_count = 0)
    (h3 : (u.kind = .file ∨ u.kind = .other) → u.is_complete = true) :
    NInv (ns ++ [u]) := by
  obtain ⟨hp, hc, hk, hcc⟩ := h
  refine ⟨?_, ?_, ?_, ?_⟩
  · rw [List.pairwise_append]
    refine ⟨hp, List.pairwise_singleton _ _, ?_⟩
    intro v hv w hw
    rw [List.mem_singleton] at hw
    subst hw
    exact fun hcompl => h1 v hv hcompl
  · intro q
    rw [incompAt_append]
    rw [List.length_append]
    cases hcompl : u.is_complete with
    | true =>
      have hz : incompAt q [u] = [] := by
        simp [incompAt, List.filter, hcompl]
      rw [hz]
      simpa using hc q
    | false =>
      obtain ⟨hemp, _⟩ := h2 hcompl
      by_cases hq : u.path = q
      · subst hq
        rw [hemp]
        have ho : incompAt u.path [u] = [u] := by
          simp [incompAt, List.filter, hcompl]
        rw [ho]
        simp
      · have hz : incompAt q [u] = [] := by
          simp [incompAt, List.filter, hq]
        rw [hz]
        simpa using hc q
  · intro v hv
    rcases List.mem_append.mp hv with hv1 | hv2
    · exact hk v hv1
    · rw [List.mem_singleton] at hv2
      subst hv2
      exact h3
  · intro v hv
    rcases List.mem_append.mp hv with hv1 | hv2
    · exact hcc v hv1
    · rw [List.mem_singleton] at hv2
      subst hv2
      intro hf
      exact (h2 hf).2

theorem noNode_progress (p : ScanProgress) : NoNode (.progress p) :=
  fun u h => by cases h

theorem noNode_warning (path : List String) (m : WarnMsg) : NoNode (.warning path m) :=
  fun u h => by cases h

theorem nodes_of_opEffect {s s' : ScannerSt} (h : OpEffect NoNode s s') :
    nodeEvents s'.sent = nodeEvents s.sent := by
  obtain ⟨Δ, hs, hΔ⟩ := h.sent_ext
  rw [hs]
  exact nodeEvents_eq_of_nonNode hΔ _

theorem nodes_bump_warning (s : ScannerSt) (path : List String) (m : WarnMsg) :
    nodeEvents (bump_warning s path m).sent = nodeEvents s.sent :=
  nodes_of_opEffect (bump_warning_opEffect (P := NoNode) (q := path) (m := m)
    noNode_progress (noNode_warning path m) s)

theorem nodes_bump_entry (s : ScannerSt) (a b : Nat) :
    nodeEvents (bump_entry s a b).sent = nodeEvents s.sent :=
  nodes_of_opEffect (bump_entry_opEffect (P := NoNode) noNode_progress s a b)

theorem nodes_should_cancel (s : ScannerSt) :
    nodeEvents (should_cancel s).2.sent = nodeEvents s.sent :=
  nodes_of_opEffect (should_cancel_opEffect (P := NoNode) s)

theorem nodes_gate (path : List String) (isl : Bool) (canon : Option Nat)
    (s : ScannerSt) :
    (∀ out, symlink_dir_gate path isl canon s = .inl out →
      nodeEvents out.2.sent = nodeEvents s.sent) ∧
    (∀ s2, symlink_dir_gate path isl canon s = .inr s2 →
      nodeEvents s2.sent = nodeEvents s.sent) := by
  unfold symlink_dir_gate
  cases isl with
  | false =>
    simp only [Bool.false_eq_true, if_false]
    exact ⟨fun out h => (by cases h), fun s2 h => (by cases h; rfl)⟩
  | true =>
    simp only [if_pos]
    cases canon with
    | none =>
      refine ⟨fun out h => ?_, fun s2 h => (by cases h)⟩
      cases h
      exact nodes_bump_warning s path _
    | some c =>
      by_cases hm : c ∈ s.visited_symlink_dirs
      · simp only [hm, if_true]
        refine ⟨fun out h => ?_, fun s2 h => (by cases h)⟩
        cases h
        exact nodes_bump_warning s path _
      · simp only [hm, if_false]
        refine ⟨fun out h => (by cases h), fun s2 h => ?_⟩
        cases h
        rfl

theorem nodes_send_node_update (s : ScannerSt) (u : NodeSummary) :
    nodeEvents (send_node_update s u).sent = nodeEvents s.sent ∨
    nodeEvents (send_node_update s u).sent = nodeEvents s.sent ++ [u] := by
  unfold send_node_update send_noncritical
  cases hc : s.channel_closed with
  | true => exact Or.inl (by simp)
  | false =>
    simp only [Bool.false_eq_true, if_false]
    obtain ⟨⟨Δf, hsf, hpf⟩, _, _, _, _, _, _⟩ := try_flush_spec s
    have hnodesF : nodeEvents (try_flush_pending_progress s).sent = nodeEvents s.sent := by
      rw [hsf]
      refine nodeEvents_eq_of_nonNode ?_ _
      intro e he
      obtain ⟨p, hp⟩ := hpf e he
      rw [hp]
      exact noNode_progress p
    simp only [trySend]
    cases ho : (try_flush_pending_progress s).oracle with
    | nil =>
      refine Or.inr ?_
      simp only [nodeEvents_append]
      rw [← hnodesF]
      simp [nodeEvents]
    | cons r rest =>
      cases r with
      | ok =>
        refine Or.inr ?_
        simp only
        have : nodeEvents ((try_flush_pending_progress s).sent ++ [.nodeUpdated u]) =
            nodeEvents (try_flush_pending_progress s).sent ++ [u] := by
          rw [nodeEvents_append]
          simp [nodeEvents]
        rw [this, hnodesF]
      | full =>
        refine Or.inl ?_
        simp only [handle_noncritical_backpressure]
        exact hnodesF
      | disconnected =>
        refine Or.inl ?_
        simp only
        exact hnodesF

theorem nodes_summarize (path : List String) (kind : FsEntryKind) (meta : Meta)
    (emit : Bool) (s : ScannerSt) :
    nodeEvents (summarize_non_dir path kind meta emit s).2.sent = nodeEvents s.sent ∨
    nodeEvents (summarize_non_dir path kind meta emit s).2.sent =
      nodeEvents s.sent ++ [(summarize_non_dir path kind meta emit s).1] := by
  unfold summarize_non_dir
  simp only
  split
  · rcases nodes_send_node_update (bump_entry s meta.len (allocated_size meta)) _ with
      hcase | hcase
    · exact Or.inl (by rw [hcase, nodes_bump_entry])
    · exact Or.inr (by rw [hcase, nodes_bump_entry])
  · exact Or.inl (nodes_bump_entry s _ _)

theorem mem_atP {q : List String} {ns : List NodeSummary} {u : NodeSummary} :
    u ∈ atP q ns ↔ u ∈ ns ∧ u.path = q := by
  simp [atP, List.mem_filter]

theorem atP_eq_nil_iff {q : List String} {ns : List NodeSummary} :
    atP q ns = [] ↔ ∀ u ∈ ns, u.path ≠ q := by
  simp [atP, List.filter_eq_nil_iff]

theorem incompAt_eq_nil_of_atP {q : List String} {ns : List NodeSummary}
    (h : atP q ns = []) : incompAt q ns = [] := by
  rw [atP_eq_nil_iff] at h
  simp only [incompAt, List.filter_eq_nil_iff]
  intro u hu
  simp [h u hu]

theorem prefix_snoc_cases {v P : List String} {n : String} (h : v <+: P ++ [n]) :
    v <+: P ∨ v = P ++ [n] := by
  rcases List.prefix_concat_iff.mp h with h' | h'
  · exact Or.inr h'
  · exact Or.inl h'

theorem snoc_prefix_snoc {P : List String} {n n' : String}
    (h : P ++ [n] <+: P ++ [n']) : n = n' := by
  obtain ⟨t, ht⟩ := h
  have hlen := congrArg List.length ht
  simp at hlen
  subst hlen
  simp at ht
  exact ht

theorem not_snoc_prefix_self {P : List String} {n : String} :
    ¬ (P ++ [n] <+: P) := by
  intro h
  have := h.length_le
  simp at this

theorem RawList.wf_cons_entry {n : String} {stat : Option FsTree}
    {rest : List RawEntry} (h : RawList.wf (.entry n stat :: rest) = true) :
    (∀ e ∈ rest, e.nameOf ≠ some n) ∧
    (∀ t, stat = some t → t.wf = true) ∧ RawList.wf rest = true := by
  unfold RawList.wf at h
  simp only [Bool.and_eq_true, List.all_eq_true] at h
  obtain ⟨⟨hnames, hstat⟩, hrest⟩ := h
  refine ⟨?_, ?_, hrest⟩
  · intro e he
    have := hnames e he
    simpa using this
  · intro t ht
    subst ht
    exact hstat

theorem entry_not_mem_of_names {n : String} {rest : List RawEntry}
    (h : ∀ e ∈ rest, e.nameOf ≠ some n) :
    ∀ stat, RawEntry.entry n stat ∉ rest := by
  intro stat hmem
  exact h _ hmem rfl

/-- The classification under which the entry loop defers a child to the
pending-directories pass (recomputed identically by both passes). -/
def is_pending_child (opts : ScanOptions) (rfs : Option Nat) (ct : FsTree) : Bool :=
  ! (ct.isSymlink && ! opts.follow_symlinks) &&
    (match resolved_of ct with
     | none => false
     | some res => ! ref_skip_other_filesystem opts.one_file_system rfs res && res.isDir)

theorem scan_dir_entries_nodes (P : List String) (depth : Nat) (eu : Bool) :
    ∀ (entries : List RawEntry) (cc a al : Nat) (s : ScannerSt),
      RawList.wf entries = true →
      NInv (nodeEvents s.sent) →
      noCompPrefix P (nodeEvents s.sent) →
      (∀ n stat, RawEntry.entry n stat ∈ entries →
        atP (P ++ [n]) (nodeEvents s.sent) = []) →
      NInv (nodeEvents (scan_dir_entries P depth eu entries cc a al s).state.sent) ∧
      ∃ Δn, nodeEvents (scan_dir_entries P depth eu entries cc a al s).state.sent =
          nodeEvents s.sent ++ Δn ∧
        (∀ u ∈ Δn, ∃ n stat, RawEntry.entry n stat ∈ entries ∧ u.path = P ++ [n]) ∧
        (∀ n ct, RawEntry.entry n (some ct) ∈ entries →
          is_pending_child s.options s.root_fs ct = true →
          (∀ u ∈ atP (P ++ [n]) Δn, u.is_complete = false) ∧
          ((ct.isSymlink || ! child_emit_updates s.options eu n (depth + 1)) = true →
            atP (P ++ [n]) Δn = [])) := by
  intro entries
  induction entries with
  | nil =>
    intro cc a al s hwf hinv hncp hfresh
    refine ⟨hinv, [], by simp [scan_dir_entries, LoopOut.state], ?_, ?_⟩
    · intro u hu
      cases hu
    · intro n ct hmem
      cases hmem
  | cons e rest ih =>
    intro cc a al s hwf hinv hncp hfresh
    unfold scan_dir_entries
    rcases hsc : should_cancel s with ⟨b, s1⟩
    have h0 : OpEffect NoNode s s1 := by
      have hx := should_cancel_opEffect (P := NoNode) s
      rwa [hsc] at hx
    have hn1 : nodeEvents s1.sent = nodeEvents s.sent := nodes_of_opEffect h0
    simp only [hsc]
    cases b with
    | true =>
      dsimp only [LoopOut.state]
      refine ⟨by rw [hn1]; exact hinv, [], by simp [hn1], ?_, ?_⟩
      · intro u hu
        cases hu
      · intro n ct hmem hpend
        exact ⟨fun u hu => (by cases hu), fun _ => rfl⟩
    | false =>
      dsimp only
      have hrestwf : RawList.wf rest = true := by
        cases e with
        | err => exact hwf
        | entry n stat => exact (RawList.wf_cons_entry hwf).2.2
      -- Generic continuation: the head step moved the state to s2 without
      -- emitting a node event, and the head entry is not a stat-ed entry.
      have contStep : ∀ (s2 : ScannerSt),
          nodeEvents s2.sent = nodeEvents s.sent →
          s2.options = s.options → s2.root_fs = s.root_fs →
          (∀ n ct2, e = RawEntry.entry n (some ct2) →
            is_pending_child s.options s.root_fs ct2 = false) →
          ∀ cc2 a2 al2,
          NInv (nodeEvents (scan_dir_entries P depth eu rest cc2 a2 al2
            s2).state.sent) ∧
          ∃ Δn, nodeEvents (scan_dir_entries P depth eu rest cc2 a2 al2
              s2).state.sent = nodeEvents s.sent ++ Δn ∧
            (∀ u ∈ Δn, ∃ n stat, RawEntry.entry n stat ∈ e :: rest ∧
              u.path = P ++ [n]) ∧
            (∀ n ct, RawEntry.entry n (some ct) ∈ e :: rest →
              is_pending_child s.options s.root_fs ct = true →
              (∀ u ∈ atP (P ++ [n]) Δn, u.is_complete = false) ∧
              ((ct.isSymlink || ! child_emit_updates s.options eu n (depth + 1)) =
                  true → atP (P ++ [n]) Δn = [])) := by
        intro s2 hn2 hopt2 hrfs2 hheadpend cc2 a2 al2
        obtain ⟨hinvR, ΔR, hΔR, hmemR, hperR⟩ := ih cc2 a2 al2 s2 hrestwf
          (by rw [hn2]; exact hinv) (by rw [hn2]; exact hncp)
          (by
            intro n stat hmem
            rw [hn2]
            exact hfresh n stat (List.mem_cons_of_mem _ hmem))
        refine ⟨hinvR, ΔR, by rw [hΔR, hn2], ?_, ?_⟩
        · intro u hu
          obtain ⟨n, stat, hm, hp⟩ := hmemR u hu
          exact ⟨n, stat, List.mem_cons_of_mem _ hm, hp⟩
        · intro n ct hmem hpend
          rcases List.mem_cons.mp hmem with hh | hh
          · have hx := hheadpend n ct hh.symm
            rw [hx] at hpend
            cases hpend
          · have := hperR n ct hh (by rw [hopt2, hrfs2]; exact hpend)
            refine ⟨this.1, ?_⟩
            intro hc
            exact this.2 (by rw [hopt2]; exact hc)
      cases e with
      | err =>
        have hw2 := bump_warning_opEffect_true s1 P .cannotReadEntry
        exact contStep _ (by rw [nodes_bump_warning, hn1])
          (hw2.options_eq.trans h0.options_eq) (hw2.root_fs_eq.trans h0.root_fs_eq)
          (fun n ct h => by cases h) cc a al
      | entry child_name stat =>
        dsimp only
        obtain ⟨hnames, hstatwf, _⟩ := RawList.wf_cons_entry hwf
        have hmem_rest_ne : ∀ stat2, RawEntry.entry child_name stat2 ∉ rest :=
          entry_not_mem_of_names hnames
        have hfhead : atP (P ++ [child_name]) (nodeEvents s.sent) = [] :=
          hfresh child_name stat (List.mem_cons_self _ _)
        cases stat with
        | none =>
          have hw2 := bump_warning_opEffect_true s1 (P ++ [child_name]) .cannotStatPath
          exact contStep _ (by rw [nodes_bump_warning, hn1])
            (hw2.options_eq.trans h0.options_eq) (hw2.root_fs_eq.trans h0.root_fs_eq)
            (fun n ct h => by cases h) cc a al
        | some ct =>
          dsimp only
          -- events of the recursive part never sit at the head's path
          have hΔrest_at : ∀ (ΔR : List NodeSummary),
              (∀ u ∈ ΔR, ∃ n stat, RawEntry.entry n stat ∈ rest ∧
                u.path = P ++ [n]) →
              atP (P ++ [child_name]) ΔR = [] := by
            intro ΔR hmemR
            rw [atP_eq_nil_iff]
            intro u hu hpath
            obtain ⟨n, stat2, hm, hp⟩ := hmemR u hu
            rw [hp] at hpath
            have hn : n = child_name := by
              have := List.append_inj_right hpath (by rfl)
              simpa using this
            subst hn
            exact hmem_rest_ne stat2 hm
          -- no delivered complete summary sits on the head's path or above it
          have hcomp_child : ∀ v ∈ nodeEvents s.sent, v.is_complete = true →
              ¬ v.path <+: P ++ [child_name] := by
            intro v hv hvc hpre
            rcases prefix_snoc_cases hpre with hp | hp
            · exact hncp v hv hvc hp
            · have hx : v ∈ atP (P ++ [child_name]) (nodeEvents s.sent) :=
                mem_atP.mpr ⟨hv, hp⟩
              rw [hfhead] at hx
              cases hx
          -- Generic continuation after the head emitted the (complete or
          -- provisional) summary `u0` at its own path.
          have emitStep : ∀ (s2 : ScannerSt) (u0 : NodeSummary),
              nodeEvents s2.sent = nodeEvents s.sent ++ [u0] →
              s2.options = s.options → s2.root_fs = s.root_fs →
              u0.path = P ++ [child_name] →
              (u0.is_complete = false → u0.children_count = 0 ∧
                (! ct.isSymlink &&
                  child_emit_updates s.options eu child_name (depth + 1)) = true) →
              ((u0.kind = .file ∨ u0.kind = .other) → u0.is_complete = true) →
              (is_pending_child s.options s.root_fs ct = true →
                u0.is_complete = false) →
              ∀ cc2 a2 al2,
              NInv (nodeEvents (scan_dir_entries P depth eu rest cc2 a2 al2
                s2).state.sent) ∧
              ∃ Δn, nodeEvents (scan_dir_entries P depth eu rest cc2 a2 al2
                  s2).state.sent = nodeEvents s.sent ++ Δn ∧
                (∀ u ∈ Δn, ∃ n stat, RawEntry.entry n stat ∈
                  RawEntry.entry child_name (some ct) :: rest ∧ u.path = P ++ [n]) ∧
                (∀ n ct2, RawEntry.entry n (some ct2) ∈
                    RawEntry.entry child_name (some ct) :: rest →
                  is_pending_child s.options s.root_fs ct2 = true →
                  (∀ u ∈ atP (P ++ [n]) Δn, u.is_complete = false) ∧
                  ((ct2.isSymlink ||
                    ! child_emit_updates s.options eu n (depth + 1)) = true →
                    atP (P ++ [n]) Δn = [])) := by
            intro s2 u0 hn2 hopt2 hrfs2 hpath0 hprov0 hkind0 hpend0 cc2 a2 al2
            have hinv2 : NInv (nodeEvents s2.sent) := by
              rw [hn2]
              refine NInv_append_one _ _ hinv ?_ ?_ hkind0
              · intro v hv hvc
                rw [hpath0]
                exact hcomp_child v hv hvc
              · intro hf
                refine ⟨?_, (hprov0 hf).1⟩
                rw [hpath0]
                exact incompAt_eq_nil_of_atP hfhead
            have hncp2 : noCompPrefix P (nodeEvents s2.sent) := by
              rw [hn2]
              intro v hv hvc hpre
              rcases List.mem_append.mp hv with hv1 | hv2
              · exact hncp v hv1 hvc hpre
              · rw [List.mem_singleton] at hv2
                subst hv2
                rw [hpath0] at hpre
                exact not_snoc_prefix_self hpre
            have hfresh2 : ∀ n stat, RawEntry.entry n stat ∈ rest →
                atP (P ++ [n]) (nodeEvents s2.sent) = [] := by
              intro n stat hmem
              rw [hn2, atP_append, hfresh n stat (List.mem_cons_of_mem _ hmem)]
              rw [List.nil_append, atP_eq_nil_iff]
              intro u hu
              rw [List.mem_singleton] at hu
              subst hu
              rw [hpath0]
              intro hx
              have hn : child_name = n := by
                have := List.append_inj_right hx (by rfl)
                simpa using this
              subst hn
              exact hmem_rest_ne stat hmem
            obtain ⟨hinvR, ΔR, hΔR, hmemR, hperR⟩ := ih cc2 a2 al2 s2 hrestwf
              hinv2 hncp2 hfresh2
            refine ⟨hinvR, [u0] ++ ΔR, by rw [hΔR, hn2, List.append_assoc], ?_, ?_⟩
            · intro u hu
              rcases List.mem_append.mp hu with hu1 | hu2
              · rw [List.mem_singleton] at hu1
                subst hu1
                exact ⟨child_name, some ct, List.mem_cons_self _ _, hpath0⟩
              · obtain ⟨n, stat2, hm, hp⟩ := hmemR u hu2
                exact ⟨n, stat2, List.mem_cons_of_mem _ hm, hp⟩
            · intro n ct2 hmem hpend
              rcases List.mem_cons.mp hmem with hh | hh
              · injection hh with hh1 hh2
                subst hh1
                injection hh2 with hh2
                subst hh2
                have hu0f : u0.is_complete = false := hpend0 hpend
                constructor
                · intro u hu
                  rw [atP_append] at hu
                  rcases List.mem_append.mp hu with hu1 | hu2
                  · rcases mem_atP.mp hu1 with ⟨hm1, _⟩
                    rw [List.mem_singleton] at hm1
                    subst hm1
                    exact hu0f
                  · rw [hΔrest_at ΔR hmemR] at hu2
                    cases hu2
                · intro hcond
                  exfalso
                  have := (hprov0 hu0f).2
                  rcases Bool.or_eq_true _ _ |>.mp hcond with hcs | hce
                  · simp [hcs] at this
                  · simp only [Bool.and_eq_true] at this
                    rw [Bool.not_eq_true'] at hce
                    rw [hce] at this
                    simp at this
              · have := hperR n ct2 hh (by rw [hopt2, hrfs2]; exact hpend)
                constructor
                · intro u hu
                  rw [atP_append] at hu
                  rcases List.mem_append.mp hu with hu1 | hu2
                  · exfalso
                    rcases mem_atP.mp hu1 with ⟨hm1, hp1⟩
                    rw [List.mem_singleton] at hm1
                    subst hm1
                    rw [hpath0] at hp1
                    have hn : child_name = n := by
                      have := List.append_inj_right hp1 (by rfl)
                      simpa using this
                    subst hn
                    exact hmem_rest_ne _ hh
                  · exact this.1 u hu2
                · intro hc
                  rw [atP_append]
                  have h2 := this.2 (by rw [hopt2]; exact hc)
                  rw [h2, List.append_nil, atP_eq_nil_iff]
                  intro u hu
                  rw [List.mem_singleton] at hu
                  subst hu
                  rw [hpath0]
                  intro hx
                  have hn : child_name = n := by
                    have := List.append_inj_right hx (by rfl)
                    simpa using this
                  subst hn
                  exact hmem_rest_ne _ hh
          cases hsym : ct.isSymlink && ! s1.options.follow_symlinks with
          | true =>
            simp only [hsym, if_pos]
            have hsym' : (ct.isSymlink && ! s.options.follow_symlinks) = true := by
              rw [← h0.options_eq]
              exact hsym
            have hpendF : is_pending_child s.options s.root_fs ct = false := by
              simp [is_pending_child, hsym']
            have hsume := summarize_opEffect_true (P ++ [child_name]) .symlink ct.meta
              (child_emit_updates s1.options eu child_name (depth + 1) &&
                s1.options.show_files) s1
            rcases nodes_summarize (P ++ [child_name]) .symlink ct.meta
                (child_emit_updates s1.options eu child_name (depth + 1) &&
                  s1.options.show_files) s1 with hcase | hcase
            · exact contStep _ (by rw [hcase, hn1])
                (hsume.options_eq.trans h0.options_eq)
                (hsume.root_fs_eq.trans h0.root_fs_eq)
                (fun n ct2 h => by
                  injection h with h1 h2
                  injection h2 with h2
                  subst h2
                  exact hpendF) _ _ _
            · refine emitStep _ _ (by rw [hcase, hn1])
                (hsume.options_eq.trans h0.options_eq)
                (hsume.root_fs_eq.trans h0.root_fs_eq)
                rfl ?_ (fun _ => rfl) ?_ _ _ _
              · intro hf
                exact absurd hf (by simp [summarize_non_dir])
              · intro hp
                rw [hpendF] at hp
                cases hp
          | false =>
            simp only [hsym, Bool.false_eq_true, if_false]
            cases hres : resolved_of ct with
            | none =>
              simp only [hres]
              have hw2 := bump_warning_opEffect_true s1 (P ++ [child_name])
                .cannotFollowSymlinkTarget
              exact contStep _ (by rw [nodes_bump_warning, hn1])
                (hw2.options_eq.trans h0.options_eq)
                (hw2.root_fs_eq.trans h0.root_fs_eq)
                (fun n ct2 h => by
                  injection h with h1 h2
                  injection h2 with h2
                  subst h2
                  simp [is_pending_child, hres]) _ _ _
            | some resolved =>
              simp only [hres]
              have hskipeq : ref_skip_other_filesystem s.options.one_file_system
                  s.root_fs resolved = skip_other_filesystem s1 resolved := by
                rw [← h0.options_eq, ← h0.root_fs_eq]
                exact skip_other_filesystem_ref s1 resolved
              cases hskip : skip_other_filesystem s1 resolved with
              | true =>
                simp only [hskip, if_pos]
                exact contStep s1 hn1 h0.options_eq h0.root_fs_eq
                  (fun n ct2 h => by
                    injection h with h1 h2
                    injection h2 with h2
                    subst h2
                    simp [is_pending_child, hres, hskipeq, hskip]) _ _ _
              | false =>
                simp only [hskip, Bool.false_eq_true, if_false]
                cases hdir : resolved.isDir with
                | false =>
                  simp only [hdir, Bool.false_eq_true, if_false]
                  have hpendF : is_pending_child s.options s.root_fs ct = false := by
                    simp [is_pending_child, hres, hdir]
                  have hsume := summarize_opEffect_true (P ++ [child_name])
                    (kind_from_non_dir resolved ct.isSymlink) resolved.meta
                    (child_emit_updates s1.options eu child_name (depth + 1) &&
                      s1.options.show_files) s1
                  rcases nodes_summarize (P ++ [child_name])
                      (kind_from_non_dir resolved ct.isSymlink) resolved.meta
                      (child_emit_updates s1.options eu child_name (depth + 1) &&
                        s1.options.show_files) s1 with hcase | hcase
                  · exact contStep _ (by rw [hcase, hn1])
                      (hsume.options_eq.trans h0.options_eq)
                      (hsume.root_fs_eq.trans h0.root_fs_eq)
                      (fun n ct2 h => by
                        injection h with h1 h2
                        injection h2 with h2
                        subst h2
                        exact hpendF) _ _ _
                  · refine emitStep _ _ (by rw [hcase, hn1])
                      (hsume.options_eq.trans h0.options_eq)
                      (hsume.root_fs_eq.trans h0.root_fs_eq)
                      rfl ?_ (fun _ => rfl) ?_ _ _ _
                    · intro hf
                      exact absurd hf (by simp [summarize_non_dir])
                    · intro hp
                      rw [hpendF] at hp
                      cases hp
                | true =>
                  simp only [hdir, if_pos]
                  cases hcond : ct.isSymlink ||
                      ! child_emit_updates s1.options eu child_name (depth + 1) with
                  | true =>
                    simp only [hcond, if_pos]
                    obtain ⟨hinvR, ΔR, hΔR, hmemR, hperR⟩ := ih cc a al s1 hrestwf
                      (by rw [hn1]; exact hinv) (by rw [hn1]; exact hncp)
                      (by intro n stat hmem
                          rw [hn1]
                          exact hfresh n stat (List.mem_cons_of_mem _ hmem))
                    refine ⟨hinvR, ΔR, by rw [hΔR, hn1], ?_, ?_⟩
                    · intro u hu
                      obtain ⟨n, stat2, hm, hp⟩ := hmemR u hu
                      exact ⟨n, stat2, List.mem_cons_of_mem _ hm, hp⟩
                    · intro n ct2 hmem hpend
                      rcases List.mem_cons.mp hmem with hh | hh
                      · injection hh with hh1 hh2
                        subst hh1
                        injection hh2 with hh2
                        subst hh2
                        have hz := hΔrest_at ΔR hmemR
                        refine ⟨?_, fun _ => hz⟩
                        intro u hu
                        rw [hz] at hu
                        cases hu
                      · have := hperR n ct2 hh
                          (by rw [h0.options_eq, h0.root_fs_eq]; exact hpend)
                        refine ⟨this.1, ?_⟩
                        intro hc
                        exact this.2 (by rw [h0.options_eq]; exact hc)
                  | false =>
                    simp only [hcond, Bool.false_eq_true, if_false]
                    have hsn := send_node_update_opEffect_true s1
                      { path := P ++ [child_name], kind := .dir,
                        apparent_bytes := resolved.meta.len,
                        allocated_bytes := allocated_size resolved.meta,
                        children_count := 0, is_complete := false }
                    have hcond' : (ct.isSymlink || ! child_emit_updates s.options eu
                        child_name (depth + 1)) = false := by
                      rw [← h0.options_eq]
                      exact hcond
                    rcases nodes_send_node_update s1
                        { path := P ++ [child_name], kind := .dir,
                          apparent_bytes := resolved.meta.len,
                          allocated_bytes := allocated_size resolved.meta,
                          children_count := 0, is_complete := false } with hcase | hcase
                    · obtain ⟨hinvR, ΔR, hΔR, hmemR, hperR⟩ := ih cc a al
                        (send_node_update s1 _) hrestwf
                        (by rw [hcase, hn1]; exact hinv)
                        (by rw [hcase, hn1]; exact hncp)
                        (by intro n stat hmem
                            rw [hcase, hn1]
                            exact hfresh n stat (List.mem_cons_of_mem _ hmem))
                      refine ⟨hinvR, ΔR, by rw [hΔR, hcase, hn1], ?_, ?_⟩
                      · intro u hu
                        obtain ⟨n, stat2, hm, hp⟩ := hmemR u hu
                        exact ⟨n, stat2, List.mem_cons_of_mem _ hm, hp⟩
                      · intro n ct2 hmem hpend
                        rcases List.mem_cons.mp hmem with hh | hh
                        · injection hh with hh1 hh2
                          subst hh1
                          injection hh2 with hh2
                          subst hh2
                          have hz := hΔrest_at ΔR hmemR
                          refine ⟨?_, fun hc => ?_⟩
                          · intro u hu
                            rw [hz] at hu
                            cases hu
                          · rw [hcond'] at hc
                            cases hc
                        · have := hperR n ct2 hh
                            (by rw [hsn.options_eq.trans h0.options_eq,
                              hsn.root_fs_eq.trans h0.root_fs_eq]; exact hpend)
                          refine ⟨this.1, ?_⟩
                          intro hc
                          exact this.2
                            (by rw [hsn.options_eq.trans h0.options_eq]; exact hc)
                    · refine emitStep _ _ (by rw [hcase, hn1])
                        (hsn.options_eq.trans h0.options_eq)
                        (hsn.root_fs_eq.trans h0.root_fs_eq)
                        rfl ?_ ?_ (fun _ => rfl) _ _ _
                      · intro _
                        refine ⟨rfl, ?_⟩
                        have hc2 := hcond'
                        simp only [Bool.or_eq_true, not_or, Bool.not_eq_true] at hc2
                        simp at hc2
                        simp [hc2.1, hc2.2]
                      · intro hk
                        rcases hk with hk | hk <;> cases hk

theorem not_prefix_of_longer {a b : List String} (h : b.length < a.length) :
    ¬ a <+: b := fun hp => absurd hp.length_le (by omega)

theorem strict_under_of_under_snoc {P : List String} {n : String} {q : List String}
    (h : P ++ [n] <+: q) : P <+: q ∧ q ≠ P := by
  constructor
  · exact (List.prefix_append P [n]).trans h
  · intro he
    subst he
    have := h.length_le
    simp at this

/-- Well-formedness of the data behind a directory's `read_dir` outcome. -/
def entriesWF : Option (List RawEntry) → Bool
  | some l => RawList.wf l
  | none => true

theorem entriesWF_of_wf (t : FsTree) (hw : t.wf = true) :
    entriesWF t.entries = true := by
  cases t with
  | dir m c es =>
    cases es with
    | none => rfl
    | some l => exact hw
  | file m => rfl
  | other m => rfl
  | symlink m tgt => rfl

theorem scan_dir_nodes (fuel : Nat) :
    (∀ path depth isl meta canon entries ei eu s out,
      scan_dir fuel path depth isl meta canon entries ei eu s = some out →
      entriesWF entries = true →
      NInv (nodeEvents s.sent) →
      noCompPrefix path (nodeEvents s.sent) →
      freshStrict path (nodeEvents s.sent) →
      ((ei && eu) = true → atP path (nodeEvents s.sent) = []) →
      NInv (nodeEvents out.2.sent) ∧
      ∃ Δn, nodeEvents out.2.sent = nodeEvents s.sent ++ Δn ∧
        ∀ u ∈ Δn, path <+: u.path) ∧
    (∀ path depth eu entries cc a al s out,
      scan_pending_dirs fuel path depth eu entries cc a al s = some out →
      RawList.wf entries = true →
      NInv (nodeEvents s.sent) →
      noCompPrefix path (nodeEvents s.sent) →
      (∀ n ct, RawEntry.entry n (some ct) ∈ entries →
        is_pending_child s.options s.root_fs ct = true →
        freshStrict (path ++ [n]) (nodeEvents s.sent) ∧
        (∀ u ∈ atP (path ++ [n]) (nodeEvents s.sent), u.is_complete = false) ∧
        ((ct.isSymlink || ! child_emit_updates s.options eu n (depth + 1)) = true →
          atP (path ++ [n]) (nodeEvents s.sent) = [])) →
      NInv (nodeEvents out.state.sent) ∧
      ∃ Δn, nodeEvents out.state.sent = nodeEvents s.sent ++ Δn ∧
        ∀ u ∈ Δn, path <+: u.path ∧ u.path ≠ path) := by
  induction fuel with
  | zero =>
    constructor
    · intro path depth isl meta canon entries ei eu s out h
      simp [scan_dir] at h
    · intro path depth eu entries cc a al s out h
      simp [scan_pending_dirs] at h
  | succ fuel ih =>
    obtain ⟨ihD, ihP⟩ := ih
    constructor
    · intro path depth isl meta canon entries ei eu s out h hwf hinv hncp hfresh hemit
      rw [scan_dir] at h
      rcases hsc : should_cancel s with ⟨b, sA⟩
      have h0 : OpEffect NoNode s sA := by
        have hx := should_cancel_opEffect (P := NoNode) s
        rwa [hsc] at hx
      have hn1 : nodeEvents sA.sent = nodeEvents s.sent := nodes_of_opEffect h0
      rw [hsc] at h
      cases b with
      | true =>
        cases h
        exact ⟨by simpa [hn1] using hinv, [], by simp [hn1], fun u hu => by cases hu⟩
      | false =>
        simp only at h
        rcases hg : symlink_dir_gate path isl canon sA with gout | sB
        · obtain ⟨ctrlO, sO⟩ := gout
          rw [hg] at h
          simp only at h
          cases h
          have hnO : nodeEvents sO.sent = nodeEvents s.sent := by
            rw [(nodes_gate path isl canon sA).1 _ hg, hn1]
          exact ⟨by simpa [hnO] using hinv, [], by simp [hnO], fun u hu => by cases hu⟩
        · rw [hg] at h
          simp only at h
          have hnB : nodeEvents sB.sent = nodeEvents s.sent := by
            rw [(nodes_gate path isl canon sA).2 _ hg, hn1]
          have hoptB : sB.options = s.options :=
            (((symlink_dir_gate_opEffect path isl canon sA).2 sB
              hg).options_eq).trans h0.options_eq
          have hrfsB : sB.root_fs = s.root_fs :=
            (((symlink_dir_gate_opEffect path isl canon sA).2 sB
              hg).root_fs_eq).trans h0.root_fs_eq
          set u0 : NodeSummary := {
            path := path,
            kind := if isl then FsEntryKind.symlink else FsEntryKind.dir,
            apparent_bytes := meta.len, allocated_bytes := allocated_size meta,
            children_count := 0, is_complete := false } with hu0
          set sI := (if ei && eu then send_node_update sB u0 else sB) with hsI
          have hnI : nodeEvents sI.sent = nodeEvents s.sent ∨
              nodeEvents sI.sent = nodeEvents s.sent ++ [u0] := by
            rw [hsI]
            cases hee : ei && eu with
            | false => simp [hnB]
            | true =>
              simp only [if_pos]
              rcases nodes_send_node_update sB u0 with hc | hc
              · exact Or.inl (by rw [hc, hnB])
              · exact Or.inr (by rw [hc, hnB])
          have hoptI : sI.options = s.options := by
            rw [hsI]
            split
            · exact (send_node_update_opEffect_true sB u0).options_eq.trans hoptB
            · exact hoptB
          have hrfsI : sI.root_fs = s.root_fs := by
            rw [hsI]
            split
            · exact (send_node_update_opEffect_true sB u0).root_fs_eq.trans hrfsB
            · exact hrfsB
          have hu0path : u0.path = path := rfl
          have hu0incomp : u0.is_complete = false := rfl
          have hatP0 : (ei && eu) = true → incompAt path (nodeEvents s.sent) = [] :=
            fun hee => incompAt_eq_nil_of_atP (hemit hee)
          have hemitted : nodeEvents sI.sent = nodeEvents s.sent ++ [u0] →
              incompAt path (nodeEvents s.sent) = [] := by
            intro hc
            cases hee : ei && eu with
            | true => exact hatP0 hee
            | false =>
              exfalso
              rw [hsI, hee] at hc
              simp only [Bool.false_eq_true, if_false] at hc
              rw [hnB] at hc
              have := congrArg List.length hc
              simp at this
          have hinvI : NInv (nodeEvents sI.sent) := by
            rcases hnI with hc | hc
            · rw [hc]; exact hinv
            · rw [hc]
              refine NInv_append_one _ _ hinv ?_ ?_ ?_
              · intro v hv hvc
                rw [hu0path]
                exact hncp v hv hvc
              · intro _
                rw [hu0path]
                exact ⟨hemitted hc, rfl⟩
              · intro hk
                exfalso
                rcases hk with hk | hk <;>
                  (rw [hu0] at hk; dsimp at hk; split at hk <;> cases hk)
          have hncpI : noCompPrefix path (nodeEvents sI.sent) := by
            rcases hnI with hc | hc
            · rw [hc]; exact hncp
            · rw [hc]
              intro v hv hvc hpre
              rcases List.mem_append.mp hv with hv1 | hv2
              · exact hncp v hv1 hvc hpre
              · rw [List.mem_singleton] at hv2
                subst hv2
                rw [hu0incomp] at hvc
                cases hvc
          have hfreshChildI : ∀ n : String,
              atP (path ++ [n]) (nodeEvents sI.sent) = [] := by
            intro n
            have hbase : atP (path ++ [n]) (nodeEvents s.sent) = [] := by
              rw [atP_eq_nil_iff]
              intro v hv hvp
              refine hfresh v hv ⟨hvp ▸ List.prefix_append path [n], ?_⟩
              intro hx
              rw [hvp] at hx
              have := congrArg List.length hx
              simp at this
            rcases hnI with hc | hc
            · rw [hc, hbase]
            · rw [hc, atP_append, hbase, List.nil_append, atP_eq_nil_iff]
              intro v hv
              rw [List.mem_singleton] at hv
              subst hv
              rw [hu0path]
              intro hx
              have := congrArg List.length hx
              simp at this
          have hglue : ∀ (ns' : List NodeSummary) (Δx : List NodeSummary),
              ns' = nodeEvents sI.sent ++ Δx → (∀ u ∈ Δx, path <+: u.path) →
              ∃ Δn, ns' = nodeEvents s.sent ++ Δn ∧ ∀ u ∈ Δn, path <+: u.path := by
            intro ns' Δx hx hux
            rcases hnI with hc | hc
            · exact ⟨Δx, by rw [hx, hc], hux⟩
            · refine ⟨[u0] ++ Δx, by rw [hx, hc, List.append_assoc], ?_⟩
              intro u hu
              rcases List.mem_append.mp hu with hu1 | hu2
              · rw [List.mem_singleton] at hu1
                subst hu1
                rw [hu0path]
              · exact hux u hu2
          cases entries with
          | none =>
            simp only at h
            cases h
            dsimp only
            have hnw : nodeEvents (bump_entry (bump_warning sI path
                .cannotReadDirectory) meta.len (allocated_size meta)).sent =
                nodeEvents sI.sent := by
              rw [nodes_bump_entry, nodes_bump_warning]
            set ufin : NodeSummary := {
              path := path,
              kind := if isl then FsEntryKind.symlink else FsEntryKind.dir,
              apparent_bytes := meta.len, allocated_bytes := allocated_size meta,
              children_count := 0, is_complete := true } with hufin
            have hfin : nodeEvents (if eu then send_node_update (bump_entry
                (bump_warning sI path .cannotReadDirectory) meta.len
                  (allocated_size meta)) ufin
                else bump_entry (bump_warning sI path .cannotReadDirectory) meta.len
                  (allocated_size meta)).sent = nodeEvents sI.sent ∨
                nodeEvents (if eu then send_node_update (bump_entry
                  (bump_warning sI path .cannotReadDirectory) meta.len
                    (allocated_size meta)) ufin
                  else bump_entry (bump_warning sI path .cannotReadDirectory) meta.len
                    (allocated_size meta)).sent = nodeEvents sI.sent ++ [ufin] := by
              split
              · rcases nodes_send_node_update (bump_entry (bump_warning sI path
                    .cannotReadDirectory) meta.len (allocated_size meta)) ufin with
                  hc | hc
                · exact Or.inl (by rw [hc, hnw])
                · exact Or.inr (by rw [hc, hnw])
              · exact Or.inl hnw
            rcases hfin with hc | hc
            · exact ⟨by rw [hc]; exact hinvI, hglue _ [] (by rw [hc, List.append_nil])
                (fun u hu => by cases hu)⟩
            · refine ⟨?_, ?_⟩
              · rw [hc]
                refine NInv_append_one _ _ hinvI ?_ ?_ (fun _ => rfl)
                · exact fun v hv hvc => hncpI v hv hvc
                · intro hx
                  cases hx
              · refine hglue _ [ufin] hc ?_
                intro u hu
                rw [List.mem_singleton] at hu
                subst hu
                exact List.prefix_refl _
          | some l =>
            simp only at h
            obtain ⟨hinv1, Δ1, hΔ1, hmem1, hper1⟩ :=
              scan_dir_entries_nodes path depth eu l 0 meta.len
                (allocated_size meta) sI hwf hinvI hncpI
                (fun n stat _ => hfreshChildI n)
            have hunder1 : ∀ u ∈ Δ1, path <+: u.path := by
              intro u hu
              obtain ⟨n, stat, _, hp⟩ := hmem1 u hu
              rw [hp]
              exact List.prefix_append path [n]
            cases hp1 : scan_dir_entries path depth eu l 0 meta.len
                (allocated_size meta) sI with
            | cancelled sC =>
              rw [hp1] at h hinv1 hΔ1
              simp only [LoopOut.state] at hinv1 hΔ1
              simp only at h
              cases h
              exact ⟨hinv1, hglue _ Δ1 hΔ1 hunder1⟩
            | done cc1 at1 al1 sC =>
              rw [hp1] at h hinv1 hΔ1
              simp only [LoopOut.state] at hinv1 hΔ1
              simp only at h
              have hCe : OpEffect scanPhaseEvt sI sC := by
                have hx := scan_dir_entries_opEffect path depth eu l 0 meta.len
                  (allocated_size meta) sI
                rwa [hp1] at hx
              have hoptC : sC.options = s.options := hCe.options_eq.trans hoptI
              have hrfsC : sC.root_fs = s.root_fs := hCe.root_fs_eq.trans hrfsI
              have hncpC : noCompPrefix path (nodeEvents sC.sent) := by
                rw [hΔ1]
                intro v hv hvc hpre
                rcases List.mem_append.mp hv with hv1 | hv2
                · exact hncpI v hv1 hvc hpre
                · obtain ⟨n, stat, _, hp⟩ := hmem1 v hv2
                  rw [hp] at hpre
                  exact absurd hpre (not_prefix_of_longer (by simp))
              have hpendhyp : ∀ n ct, RawEntry.entry n (some ct) ∈ l →
                  is_pending_child sC.options sC.root_fs ct = true →
                  freshStrict (path ++ [n]) (nodeEvents sC.sent) ∧
                  (∀ u ∈ atP (path ++ [n]) (nodeEvents sC.sent),
                    u.is_complete = false) ∧
                  ((ct.isSymlink || ! child_emit_updates sC.options eu n (depth + 1))
                      = true → atP (path ++ [n]) (nodeEvents sC.sent) = []) := by
                intro n ct hmem hpend
                rw [hoptC, hrfsC] at hpend
                have hper := hper1 n ct hmem (by rw [hoptI, hrfsI]; exact hpend)
                refine ⟨?_, ?_, ?_⟩
                · rw [hΔ1]
                  intro v hv
                  rcases List.mem_append.mp hv with hv1 | hv2
                  · rintro ⟨hpre, hne⟩
                    rcases hnI with hcI | hcI
                    · rw [hcI] at hv1
                      refine hfresh v hv1 ⟨(List.prefix_append path [n]).trans hpre, ?_⟩
                      intro hx
                      rw [hx] at hpre
                      exact absurd hpre (not_prefix_of_longer (by simp))
                    · rw [hcI] at hv1
                      rcases List.mem_append.mp hv1 with hv3 | hv4
                      · refine hfresh v hv3 ⟨(List.prefix_append path [n]).trans hpre, ?_⟩
                        intro hx
                        rw [hx] at hpre
                        exact absurd hpre (not_prefix_of_longer (by simp))
                      · rw [List.mem_singleton] at hv4
                        subst hv4
                        rw [hu0path] at hpre
                        exact absurd hpre (not_prefix_of_longer (by simp))
                  · rintro ⟨hpre, hne⟩
                    obtain ⟨nm, stat2, _, hp⟩ := hmem1 v hv2
                    rw [hp] at hpre hne
                    exact hne (by rw [snoc_prefix_snoc hpre])
                · rw [hΔ1, atP_append]
                  intro v hv
                  rcases List.mem_append.mp hv with hv1 | hv2
                  · exfalso
                    rcases mem_atP.mp hv1 with ⟨hm1, hp1x⟩
                    have := hfreshChildI n
                    rw [atP_eq_nil_iff] at this
                    exact this v hm1 hp1x
                  · exact hper.1 v hv2
                · intro hcond
                  rw [hΔ1, atP_append, hfreshChildI n, List.nil_append]
                  exact hper.2 (by rw [hoptC] at hcond; rw [hoptI]; exact hcond)
              cases hp2 : scan_pending_dirs fuel path depth eu l cc1 at1 al1 sC with
              | none => rw [hp2] at h; cases h
              | some lo =>
                rw [hp2] at h
                obtain ⟨hinv2, Δ2, hΔ2, hmem2⟩ := ihP path depth eu l cc1 at1 al1 sC
                  lo hp2 hwf hinv1 hncpC hpendhyp
                have hncpD : ∀ v ∈ nodeEvents lo.state.sent, v.is_complete = true →
                    ¬ v.path <+: path := by
                  rw [hΔ2]
                  intro v hv hvc hpre
                  rcases List.mem_append.mp hv with hv1 | hv2
                  · exact hncpC v hv1 hvc hpre
                  · obtain ⟨hup, hne⟩ := hmem2 v hv2
                    exact hne (hpre.eq_of_length
                      (Nat.le_antisymm hpre.length_le hup.length_le))
                cases lo with
                | cancelled s5 =>
                  dsimp only [LoopOut.state] at hinv2 hΔ2
                  simp only at h
                  cases h
                  dsimp only
                  refine ⟨hinv2, ?_⟩
                  refine hglue _ (Δ1 ++ Δ2) ?_ ?_
                  · rw [hΔ2, hΔ1, List.append_assoc]
                  · intro u hu
                    rcases List.mem_append.mp hu with hu1 | hu2
                    · exact hunder1 u hu1
                    · exact (hmem2 u hu2).1
                | done cc2 at2 al2 s5 =>
                  dsimp only [LoopOut.state] at hinv2 hΔ2 hncpD
                  simp only at h
                  cases h
                  dsimp only
                  set ufin : NodeSummary := {
                    path := path,
                    kind := if isl then FsEntryKind.symlink else FsEntryKind.dir,
                    apparent_bytes := at2, allocated_bytes := al2,
                    children_count := cc2, is_complete := true } with hufin
                  have hn6 : nodeEvents (bump_entry s5 meta.len
                      (allocated_size meta)).sent = nodeEvents s5.sent :=
                    nodes_bump_entry s5 _ _
                  have hfin : nodeEvents (if eu then send_node_update (bump_entry s5
                      meta.len (allocated_size meta)) ufin
                      else bump_entry s5 meta.len (allocated_size meta)).sent =
                      nodeEvents s5.sent ∨
                      nodeEvents (if eu then send_node_update (bump_entry s5
                        meta.len (allocated_size meta)) ufin
                        else bump_entry s5 meta.len (allocated_size meta)).sent =
                      nodeEvents s5.sent ++ [ufin] := by
                    split
                    · rcases nodes_send_node_update (bump_entry s5 meta.len
                          (allocated_size meta)) ufin with hc | hc
                      · exact Or.inl (by rw [hc, hn6])
                      · exact Or.inr (by rw [hc, hn6])
                    · exact Or.inl hn6
                  have hglue2 : ∀ Δy : List NodeSummary,
                      (∀ u ∈ Δy, path <+: u.path) →
                      ∃ Δn, nodeEvents s5.sent ++ Δy = nodeEvents s.sent ++ Δn ∧
                        ∀ u ∈ Δn, path <+: u.path := by
                    intro Δy hy
                    refine hglue _ (Δ1 ++ Δ2 ++ Δy) ?_ ?_
                    · rw [hΔ2, hΔ1]
                      simp [List.append_assoc]
                    · intro u hu
                      rcases List.mem_append.mp hu with hu1 | hu2
                      · rcases List.mem_append.mp hu1 with ha | hb
                        · exact hunder1 u ha
                        · exact (hmem2 u hb).1
                      · exact hy u hu2
                  rcases hfin with hc | hc
                  · rw [hc]
                    refine ⟨hinv2, ?_⟩
                    obtain ⟨Δn, he, hm⟩ := hglue2 [] (fun u hu => by cases hu)
                    rw [List.append_nil] at he
                    exact ⟨Δn, he, hm⟩
                  · rw [hc]
                    refine ⟨?_, ?_⟩
                    · refine NInv_append_one _ _ hinv2 ?_ ?_ (fun _ => rfl)
                      · intro v hv hvc
                        rw [hufin]
                        exact hncpD v hv hvc
                      · intro hx
                        rw [hufin] at hx
                        simp at hx
                    · refine hglue2 [ufin] ?_
                      intro u hu
                      rw [List.mem_singleton] at hu
                      subst hu
                      rw [hufin]
    · intro path depth eu entries cc a al s out h hwf hinv hncp hpend
      rw [scan_pending_dirs.eq_def] at h
      simp only at h
      cases entries with
      | nil =>
        simp only at h
        cases h
        exact ⟨hinv, [], by simp [LoopOut.state], fun u hu => by cases hu⟩
      | cons e rest =>
        cases e with
        | err =>
          simp only at h
          exact ihP path depth eu rest cc a al s out h hwf hinv hncp
            (fun n ct hm hp => hpend n ct (List.mem_cons_of_mem _ hm) hp)
        | entry child_name stat =>
          simp only at h
          cases stat with
          | none =>
            simp only at h
            exact ihP path depth eu rest cc a al s out h
              (RawList.wf_cons_entry hwf).2.2 hinv hncp
              (fun n ct hm hp => hpend n ct (List.mem_cons_of_mem _ hm) hp)
          | some child_tree =>
            simp only at h
            have hrestwf : RawList.wf rest = true := (RawList.wf_cons_entry hwf).2.2
            have hnames := (RawList.wf_cons_entry hwf).1
            have hpendR : ∀ n ct, RawEntry.entry n (some ct) ∈ rest →
                is_pending_child s.options s.root_fs ct = true →
                freshStrict (path ++ [n]) (nodeEvents s.sent) ∧
                (∀ u ∈ atP (path ++ [n]) (nodeEvents s.sent),
                  u.is_complete = false) ∧
                ((ct.isSymlink || ! child_emit_updates s.options eu n (depth + 1))
                    = true → atP (path ++ [n]) (nodeEvents s.sent) = []) :=
              fun n ct hm hp => hpend n ct (List.mem_cons_of_mem _ hm) hp
            cases hsym : child_tree.isSymlink && ! s.options.follow_symlinks with
            | true =>
              simp only [hsym, if_true] at h
              exact ihP path depth eu rest cc a al s out h hrestwf hinv hncp hpendR
            | false =>
              simp only [hsym, Bool.false_eq_true, if_false] at h
              cases hres : resolved_of child_tree with
              | none =>
                rw [hres] at h
                simp only at h
                exact ihP path depth eu rest cc a al s out h hrestwf hinv hncp hpendR
              | some resolved =>
                rw [hres] at h
                simp only at h
                cases hskip : skip_other_filesystem s resolved with
                | true =>
                  simp only [hskip, if_true] at h
                  exact ihP path depth eu rest cc a al s out h hrestwf hinv hncp
                    hpendR
                | false =>
                  simp only [hskip, Bool.false_eq_true, if_false] at h
                  cases hdir : resolved.isDir with
                  | false =>
                    simp only [hdir, Bool.false_eq_true, if_false] at h
                    exact ihP path depth eu rest cc a al s out h hrestwf hinv hncp
                      hpendR
                  | true =>
                    simp only [hdir, if_true] at h
                    have hpc : is_pending_child s.options s.root_fs child_tree =
                        true := by
                      unfold is_pending_child
                      rw [hres]
                      dsimp only
                      rw [skip_other_filesystem_ref s resolved, hskip, hdir, hsym]
                      decide
                    have hbase := hpend child_name child_tree
                      (List.mem_cons_self _ _) hpc
                    have hcwf : child_tree.wf = true :=
                      (RawList.wf_cons_entry hwf).2.1 child_tree rfl
                    have hewf : entriesWF resolved.entries = true :=
                      entriesWF_of_wf resolved
                        (resolved_of_wf child_tree hcwf resolved hres)
                    have hncpChild : noCompPrefix (path ++ [child_name])
                        (nodeEvents s.sent) := by
                      intro v hv hvc hpre
                      rcases prefix_snoc_cases hpre with hcase | hcase
                      · exact hncp v hv hvc hcase
                      · have hx := hbase.2.1 v (mem_atP.mpr ⟨hv, hcase⟩)
                        rw [hvc] at hx
                        simp at hx
                    have hemitChild :
                        ((! (! child_tree.isSymlink &&
                            child_emit_updates s.options eu child_name (depth + 1)))
                          && child_emit_updates s.options eu child_name (depth + 1))
                            = true →
                        atP (path ++ [child_name]) (nodeEvents s.sent) = [] := by
                      intro hee
                      refine hbase.2.2 ?_
                      cases hsymv : child_tree.isSymlink with
                      | true => simp [hsymv]
                      | false =>
                        exfalso
                        rw [hsymv] at hee
                        cases hce : child_emit_updates s.options eu child_name
                            (depth + 1) with
                        | false => rw [hce] at hee; simp at hee
                        | true => rw [hce] at hee; simp at hee
                    cases hd : scan_dir fuel (path ++ [child_name]) (depth + 1)
                        child_tree.isSymlink resolved.meta resolved.canon
                        resolved.entries
                        (! (! child_tree.isSymlink &&
                          child_emit_updates s.options eu child_name (depth + 1)))
                        (child_emit_updates s.options eu child_name (depth + 1))
                        s with
                    | none => rw [hd] at h; cases h
                    | some cs =>
                      rw [hd] at h
                      obtain ⟨ctrl2, sE⟩ := cs
                      obtain ⟨hinvE, ΔE, hΔE, hunderE⟩ := ihD (path ++ [child_name])
                        (depth + 1) child_tree.isSymlink resolved.meta resolved.canon
                        resolved.entries _ _ s (ctrl2, sE) hd hewf hinv hncpChild
                        hbase.1 hemitChild
                      dsimp only at hinvE hΔE
                      have hE : OpEffect scanPhaseEvt s sE :=
                        (scan_dir_opEffect fuel).1 _ _ _ _ _ _ _ _ _ _ _ hd
                      have hoptE : sE.options = s.options := hE.options_eq
                      have hrfsE : sE.root_fs = s.root_fs := hE.root_fs_eq
                      have hneName : ∀ n (st' : Option FsTree),
                          RawEntry.entry n st' ∈ rest → n ≠ child_name := by
                        intro n st' hm he
                        subst he
                        exact hnames _ hm rfl
                      have hatE : ∀ n : String, n ≠ child_name →
                          atP (path ++ [n]) ΔE = [] := by
                        intro n hne
                        rw [atP_eq_nil_iff]
                        intro u hu hup
                        have hcp := hunderE u hu
                        rw [hup] at hcp
                        exact hne (snoc_prefix_snoc hcp).symm
                      have hfreshE : ∀ n : String, n ≠ child_name → ∀ u ∈ ΔE,
                          ¬ (path ++ [n] <+: u.path ∧ u.path ≠ path ++ [n]) := by
                        intro n hne u hu
                        rintro ⟨hpre, _⟩
                        have hcp := hunderE u hu
                        rcases List.prefix_or_prefix_of_prefix hpre hcp with hx | hx
                        · exact hne (snoc_prefix_snoc hx)
                        · exact hne (snoc_prefix_snoc hx).symm
                      have hncpE : noCompPrefix path (nodeEvents sE.sent) := by
                        rw [hΔE]
                        intro v hv hvc hpre
                        rcases List.mem_append.mp hv with hv1 | hv2
                        · exact hncp v hv1 hvc hpre
                        · have hcp := hunderE v hv2
                          have h1l := hpre.length_le
                          have h2l := hcp.length_le
                          simp at h2l
                          omega
                      have hpendE : ∀ n ct, RawEntry.entry n (some ct) ∈ rest →
                          is_pending_child sE.options sE.root_fs ct = true →
                          freshStrict (path ++ [n]) (nodeEvents sE.sent) ∧
                          (∀ u ∈ atP (path ++ [n]) (nodeEvents sE.sent),
                            u.is_complete = false) ∧
                          ((ct.isSymlink ||
                              ! child_emit_updates sE.options eu n (depth + 1)) =
                                true →
                            atP (path ++ [n]) (nodeEvents sE.sent) = []) := by
                        intro n ct hm hp
                        rw [hoptE, hrfsE] at hp
                        have hb := hpendR n ct hm hp
                        have hnecn := hneName n (some ct) hm
                        refine ⟨?_, ?_, ?_⟩
                        · intro u hu
                          rw [hΔE] at hu
                          rcases List.mem_append.mp hu with h1 | h2
                          · exact hb.1 u h1
                          · exact hfreshE n hnecn u h2
                        · rw [hΔE, atP_append]
                          intro u hu
                          rcases List.mem_append.mp hu with h1 | h2
                          · exact hb.2.1 u h1
                          · rw [hatE n hnecn] at h2
                            cases h2
                        · intro hcond
                          rw [hΔE, atP_append, hatE n hnecn, List.append_nil]
                          exact hb.2.2 (by rw [hoptE] at hcond; exact hcond)
                      cases ctrl2 with
                      | cancelled =>
                        simp only at h
                        cases h
                        dsimp only [LoopOut.state]
                        refine ⟨hinvE, ΔE, hΔE, ?_⟩
                        intro u hu
                        exact strict_under_of_under_snoc (hunderE u hu)
                      | cont child =>
                        cases child with
                        | some childS =>
                          simp only at h
                          obtain ⟨hinvR, ΔR, hΔR, hmemR⟩ := ihP path depth eu rest
                            _ _ _ sE out h hrestwf hinvE hncpE hpendE
                          refine ⟨hinvR, ΔE ++ ΔR, ?_, ?_⟩
                          · rw [hΔR, hΔE, List.append_assoc]
                          · intro u hu
                            rcases List.mem_append.mp hu with h1 | h2
                            · exact strict_under_of_under_snoc (hunderE u h1)
                            · exact hmemR u h2
                        | none =>
                          simp only at h
                          obtain ⟨hinvR, ΔR, hΔR, hmemR⟩ := ihP path depth eu rest
                            cc a al sE out h hrestwf hinvE hncpE hpendE
                          refine ⟨hinvR, ΔE ++ ΔR, ?_, ?_⟩
                          · rw [hΔR, hΔE, List.append_assoc]
                          · intro u hu
                            rcases List.mem_append.mp hu with h1 | h2
                            · exact strict_under_of_under_snoc (hunderE u h1)
                            · exact hmemR u h2

/-! ## C5/C6: lifting the node-stream invariant to `run_scan` -/

theorem NInv_nil : NInv [] :=
  ⟨List.Pairwise.nil, fun q => by simp [incompAt],
   fun u hu => absurd hu (List.not_mem_nil u),
   fun u hu => absurd hu (List.not_mem_nil u)⟩

theorem nodes_summarize_NInv (path : List String) (kind : FsEntryKind) (meta : Meta)
    (emit : Bool) (s : ScannerSt) (hinv : NInv (nodeEvents s.sent))
    (hncp : noCompPrefix path (nodeEvents s.sent)) :
    NInv (nodeEvents (summarize_non_dir path kind meta emit s).2.sent) := by
  rcases nodes_summarize path kind meta emit s with hc | hc
  · rw [hc]
    exact hinv
  · rw [hc]
    refine NInv_append_one _ _ hinv ?_ ?_ (fun _ => rfl)
    · intro v hv hvc
      exact hncp v hv hvc
    · intro hx
      simp [summarize_non_dir] at hx

theorem scan_entry_nodes (fuel : Nat) (path : List String) (depth : Nat)
    (stat : Option FsTree) (s : ScannerSt) (out : ScanControl × ScannerSt)
    (h : scan_entry fuel path depth stat s = some out)
    (hwf : ∀ t, stat = some t → t.wf = true)
    (hinv : NInv (nodeEvents s.sent))
    (hncp : noCompPrefix path (nodeEvents s.sent))
    (hfresh : freshStrict path (nodeEvents s.sent))
    (hat : atP path (nodeEvents s.sent) = []) :
    NInv (nodeEvents out.2.sent) := by
  unfold scan_entry at h
  rcases hsc : should_cancel s with ⟨b, sA⟩
  rw [hsc] at h
  have hnA : nodeEvents sA.sent = nodeEvents s.sent := by
    have hx := nodes_should_cancel s
    rw [hsc] at hx
    exact hx
  have hinvA : NInv (nodeEvents sA.sent) := by rw [hnA]; exact hinv
  have hncpA : noCompPrefix path (nodeEvents sA.sent) := by rw [hnA]; exact hncp
  have hfreshA : freshStrict path (nodeEvents sA.sent) := by rw [hnA]; exact hfresh
  have hatA : atP path (nodeEvents sA.sent) = [] := by rw [hnA]; exact hat
  cases b with
  | true =>
    cases h
    exact hinvA
  | false =>
    simp only at h
    cases stat with
    | none =>
      cases h
      dsimp only
      rw [nodes_bump_warning]
      exact hinvA
    | some tree =>
      simp only at h
      split at h
      · cases h
        dsimp only
        exact nodes_summarize_NInv path _ _ _ sA hinvA hncpA
      · cases hres : resolved_of tree with
        | none =>
          rw [hres] at h
          simp only at h
          cases h
          dsimp only
          rw [nodes_bump_warning]
          exact hinvA
        | some resolved =>
          rw [hres] at h
          simp only at h
          split at h
          · cases h
            exact hinvA
          · split at h
            · cases h
              dsimp only
              exact nodes_summarize_NInv path _ _ _ sA hinvA hncpA
            · split at h
              · have hewf : entriesWF resolved.entries = true :=
                  entriesWF_of_wf resolved
                    (resolved_of_wf tree (hwf tree rfl) resolved hres)
                exact ((scan_dir_nodes fuel).1 path depth tree.isSymlink
                  resolved.meta resolved.canon resolved.entries true true sA out h
                  hewf hinvA hncpA hfreshA (fun _ => hatA)).1
              · cases h
                dsimp only
                exact nodes_summarize_NInv path _ _ _ sA hinvA hncpA

theorem nodes_emit_backpressure (s : ScannerSt) :
    nodeEvents (emit_backpressure_warning_if_needed s).sent =
      nodeEvents s.sent := by
  unfold emit_backpressure_warning_if_needed
  split
  · rfl
  · split
    · rfl
    · dsimp only
      refine Eq.trans (nodes_of_opEffect (send_critical_opEffect (P := NoNode)
        noNode_progress (noNode_warning _ _) _)) ?_
      rfl

theorem nodes_emit_progress_now (s : ScannerSt) :
    nodeEvents (emit_progress_now s).sent = nodeEvents s.sent :=
  nodes_of_opEffect (emit_progress_now_opEffect (P := NoNode) noNode_progress s)

theorem nodes_send_critical (s : ScannerSt) (e : ScanEvent) (he : NoNode e) :
    nodeEvents (send_critical s e).sent = nodeEvents s.sent :=
  nodes_of_opEffect (send_critical_opEffect (P := NoNode) noNode_progress he s)

theorem send_critical_event_sent (e : ScanEvent) : ∀ (fuel : Nat)
    (oracle : List SendResult) (sent : List ScanEvent),
    (send_critical_event fuel oracle sent e).2.2 = sent ∨
    (send_critical_event fuel oracle sent e).2.2 = sent ++ [e] := by
  intro fuel
  induction fuel with
  | zero => intro oracle sent; exact Or.inl rfl
  | succ fuel ih =>
    intro oracle sent
    cases oracle with
    | nil => exact Or.inr rfl
    | cons r rest =>
      cases r with
      | ok => exact Or.inr rfl
      | full => exact ih rest sent
      | disconnected => exact Or.inl rfl

/-- Every completed scan over a well-formed snapshot delivers a `NodeUpdated`
stream satisfying the emission invariant `NInv`. -/
theorem run_scan_nodes (fuel : Nat) (options : ScanOptions) (root_tree : FsTree)
    (oracle : List SendResult) (cancelFuel : Option Nat) (sF : ScannerSt)
    (h : run_scan fuel options (some root_tree) oracle cancelFuel = some sF)
    (hwf : root_tree.wf = true) :
    NInv (nodeEvents sF.sent) := by
  unfold run_scan at h
  rcases hce : send_critical_event (oracle.length + 1) oracle []
    (.reset options.root) with ⟨ok1, oracle1, sent1⟩
  rw [hce] at h
  have hn1 : nodeEvents sent1 = [] := by
    rcases send_critical_event_sent (.reset options.root) (oracle.length + 1)
      oracle [] with hc | hc
    · rw [hce] at hc
      dsimp only at hc
      rw [hc]
      simp [nodeEvents]
    · rw [hce] at hc
      dsimp only at hc
      rw [hc]
      simp [nodeEvents]
  cases ok1 with
  | false =>
    simp only at h
    cases h
    have hz : nodeEvents (initial_scanner_state options none oracle1 sent1
        cancelFuel true).sent = [] := hn1
    rw [hz]
    exact NInv_nil
  | true =>
    simp only at h
    cases hscan : scan_entry fuel options.root 0 (some root_tree)
        (initial_scanner_state options
          (if options.one_file_system then filesystem_id root_tree.meta else none)
          oracle1 sent1 cancelFuel false) with
    | none => rw [hscan] at h; cases h
    | some cs =>
      rw [hscan] at h
      obtain ⟨ctrl, s1⟩ := cs
      have hsent0 : nodeEvents (initial_scanner_state options
          (if options.one_file_system then filesystem_id root_tree.meta else none)
          oracle1 sent1 cancelFuel false).sent = [] := hn1
      have hinv1 : NInv (nodeEvents s1.sent) :=
        scan_entry_nodes fuel options.root 0 (some root_tree) _ (ctrl, s1) hscan
          (fun t ht => by cases ht; exact hwf)
          (by rw [hsent0]; exact NInv_nil)
          (by rw [hsent0]; intro u hu; exact absurd hu (List.not_mem_nil u))
          (by rw [hsent0]; intro u hu; exact absurd hu (List.not_mem_nil u))
          (by rw [hsent0]; rfl)
      cases ctrl with
      | cont o =>
        simp only at h
        cases h
        rw [nodes_send_critical _ _ (fun u hx => by cases hx),
          nodes_emit_progress_now, nodes_emit_backpressure]
        exact hinv1
      | cancelled =>
        simp only at h
        cases h
        rw [nodes_send_critical _ _ (fun u hx => by cases hx),
          nodes_emit_backpressure]
        exact hinv1

theorem incompAt_eq_filter (q : List String) (ns : List NodeSummary) :
    incompAt q ns = (atP q ns).filter (fun u => ! u.is_complete) := by
  simp [incompAt, atP, List.filter_filter, Bool.and_comm]

theorem pairwise_no_follow {ns : List NodeSummary} (hp : ns.Pairwise NOrd) :
    ∀ l1 u l2, ns = l1 ++ u :: l2 → u.is_complete = true →
      ∀ v ∈ l2, ¬ u.path <+: v.path := by
  intro l1 u l2 heq huc v hv
  have hp2 : (l1 ++ u :: l2).Pairwise NOrd := heq ▸ hp
  rcases List.pairwise_append.mp hp2 with ⟨_, hcons, _⟩
  exact (List.pairwise_cons.mp hcons).1 v hv huc

/-- The shape of the summaries delivered for a single path, extracted from
`NInv`. -/
theorem atP_shape {ns : List NodeSummary} (hinv : NInv ns) (q : List String) :
    (atP q ns).length ≤ 2 ∧
    (∀ u v, atP q ns = [u, v] →
      u.is_complete = false ∧ u.children_count = 0 ∧ v.is_complete = true) ∧
    (∀ l1 u l2, atP q ns = l1 ++ u :: l2 → u.is_complete = true → l2 = []) := by
  obtain ⟨hp, hc, hk, hcc⟩ := hinv
  have hsub : List.Sublist (atP q ns) ns := List.filter_sublist ns
  have hpl : (atP q ns).Pairwise NOrd := hp.sublist hsub
  have hqmem : ∀ u ∈ atP q ns, u.path = q := fun u hu => (mem_atP.mp hu).2
  have hlast : ∀ l1 u l2, atP q ns = l1 ++ u :: l2 → u.is_complete = true →
      l2 = [] := by
    intro l1 u l2 heq huc
    have hpl2 : (l1 ++ u :: l2).Pairwise NOrd := heq ▸ hpl
    rcases List.pairwise_append.mp hpl2 with ⟨_, hcons, _⟩
    have hu2 := (List.pairwise_cons.mp hcons).1
    rw [List.eq_nil_iff_forall_not_mem]
    intro v hv
    have hvmem : v ∈ atP q ns := by
      rw [heq]
      exact List.mem_append.mpr (Or.inr (List.mem_cons_of_mem u hv))
    have humem : u ∈ atP q ns := by
      rw [heq]
      exact List.mem_append.mpr (Or.inr (List.mem_cons_self u l2))
    exact hu2 v hv huc (by rw [hqmem u humem, hqmem v hvmem])
  have hpair : ∀ u v, atP q ns = [u, v] →
      u.is_complete = false ∧ u.children_count = 0 ∧ v.is_complete = true := by
    intro u v heq
    have humem : u ∈ atP q ns := by rw [heq]; exact List.mem_cons_self u [v]
    have hvmem : v ∈ atP q ns := by rw [heq]; simp
    have hpl2 : ([u, v]).Pairwise NOrd := heq ▸ hpl
    have hord : NOrd u v := (List.pairwise_cons.mp hpl2).1 v (by simp)
    have huinc : u.is_complete = false := by
      cases hic : u.is_complete with
      | false => rfl
      | true =>
        exact absurd (show u.path <+: v.path by
          rw [hqmem u humem, hqmem v hvmem]) (hord hic)
    refine ⟨huinc, hcc u (hsub.subset humem) huinc, ?_⟩
    cases hvc : v.is_complete with
    | true => rfl
    | false =>
      exfalso
      have hlen := hc q
      rw [incompAt_eq_filter, heq] at hlen
      simp [huinc, hvc] at hlen
  refine ⟨?_, hpair, hlast⟩
  cases hl : atP q ns with
  | nil => simp
  | cons u rest =>
    cases rest with
    | nil => simp
    | cons v t =>
      have hpl3 : (u :: v :: t).Pairwise NOrd := hl ▸ hpl
      have humem : u ∈ atP q ns := by rw [hl]; exact List.mem_cons_self _ _
      have hvmem : v ∈ atP q ns := by rw [hl]; simp
      have hord : NOrd u v := (List.pairwise_cons.mp hpl3).1 v (by simp)
      have huinc : u.is_complete = false := by
        cases hic : u.is_complete with
        | false => rfl
        | true =>
          exact absurd (show u.path <+: v.path by
            rw [hqmem u humem, hqmem v hvmem]) (hord hic)
      have hvc : v.is_complete = true := by
        cases hvc' : v.is_complete with
        | true => rfl
        | false =>
          exfalso
          have hlen := hc q
          rw [incompAt_eq_filter, hl] at hlen
          simp [huinc, hvc'] at hlen
      have ht : t = [] := hlast [u] v t hl hvc
      rw [ht]
      simp


/-! ## C5: sizes and origin of the delivered summaries

Anchoring each delivered `NodeUpdated` payload in the scanned tree:
`statAt` navigates the frozen filesystem exactly like the scanner
(resolving each intermediate node, reading its entries, stepping into the
named child); `ownMeta`/`scannedKind` compute the metadata and kind the
scanner reports for a node; `EmOrigin` states the claim's size discipline —
a provisional summary carries the node's own metadata sizes and zero
children, a complete summary carries either its own metadata sizes with
zero children (non-directory kinds, unreadable directories) or the
aggregate totals of `spec_dir_children` (settled directories). -/

/-- Look up the `read_dir` entry named `n` (first match; names are distinct
under `RawList.wf`). -/
def findStatL : List RawEntry → String → Option (Option FsTree)
  | [], _ => none
  | .err :: rest, n => findStatL rest n
  | .entry m stat :: rest, n => if m = n then some stat else findStatL rest n

/-- One navigation step: resolve the node (following a symlink to its
target) and look up the child's `symlink_metadata` among its entries. -/
def statStep (t : FsTree) (n : String) : Option FsTree :=
  match resolved_of t with
  | none => none
  | some r =>
    match r.entries with
    | none => none
    | some l =>
      match findStatL l n with
      | some (some child) => some child
      | _ => none

/-- The raw `symlink_metadata` view of the node at relative path `rel`
below the raw tree `t`. -/
def statAt (t : FsTree) : List String → Option FsTree
  | [] => some t
  | n :: rest =>
    match statStep t n with
    | none => none
    | some c => statAt c rest

/-- The metadata whose `len`/`allocated_size` the scanner reports for a
node with raw stat `t`: the symlink's own when symlinks are not followed,
the resolved target's otherwise. -/
def ownMeta (fsl : Bool) (t : FsTree) : Option Meta :=
  if t.isSymlink && ! fsl then some t.meta
  else (resolved_of t).map FsTree.meta

/-- The `FsEntryKind` the scanner reports for a node with raw stat `t`. -/
def scannedKind (fsl : Bool) (t : FsTree) : Option FsEntryKind :=
  if t.isSymlink && ! fsl then some FsEntryKind.symlink
  else (resolved_of t).map (fun r =>
    if t.isSymlink then FsEntryKind.symlink
    else if r.isFile then FsEntryKind.file
    else if r.isDir then FsEntryKind.dir
    else FsEntryKind.other)

/-- The origin of a delivered summary `u` in a scan of the tree `rt`
mounted at `root`: `u.path` names a node of the tree, `u.kind` is that
node's scanned kind, a provisional `u` carries the node's own metadata
sizes and zero children, and a complete `u` carries either its own
metadata sizes with zero children or the recursive aggregate of
`spec_dir_children` over its listing. -/
def EmOrigin (fsl ofs : Bool) (rfs : Option Nat) (root : List String)
    (rt : FsTree) (u : NodeSummary) : Prop :=
  ∃ rel t m, u.path = root ++ rel ∧ statAt rt rel = some t ∧
    ownMeta fsl t = some m ∧ scannedKind fsl t = some u.kind ∧
    (u.is_complete = false →
      u.apparent_bytes = m.len ∧ u.allocated_bytes = allocated_size m ∧
      u.children_count = 0) ∧
    (u.is_complete = true →
      (u.apparent_bytes = m.len ∧ u.allocated_bytes = allocated_size m ∧
        u.children_count = 0) ∨
      ∃ fuel r contribs visited visited',
        resolved_of t = some r ∧ r.isDir = true ∧
        spec_dir_children fuel fsl ofs rfs t.isSymlink r.canon r.entries
          visited = some (some (contribs, visited')) ∧
        u.apparent_bytes = (spec_totals_of m contribs).2.1 ∧
        u.allocated_bytes = (spec_totals_of m contribs).2.2 ∧
        u.children_count = min contribs.length U64MAX)

theorem findStatL_of_mem : ∀ {l : List RawEntry}, RawList.wf l = true →
    ∀ {n : String} {stat : Option FsTree}, RawEntry.entry n stat ∈ l →
      findStatL l n = some stat := by
  intro l
  induction l with
  | nil => intro _ n stat hm; cases hm
  | cons e rest ih =>
    intro hwf n stat hm
    cases e with
    | err =>
      have hwf2 : RawList.wf rest = true := by
        unfold RawList.wf at hwf
        exact hwf
      rcases List.mem_cons.mp hm with h1 | h2
      · cases h1
      · exact ih hwf2 h2
    | entry m st =>
      unfold RawList.wf at hwf
      simp only [Bool.and_eq_true] at hwf
      obtain ⟨⟨hall, hstwf⟩, hwfrest⟩ := hwf
      rcases List.mem_cons.mp hm with h1 | h2
      · injection h1 with hn hs
        subst hn
        subst hs
        unfold findStatL
        rw [if_pos rfl]
      · have hnm : m ≠ n := by
          have hq := List.all_eq_true.mp hall _ h2
          simp only [RawEntry.nameOf, decide_eq_true_eq] at hq
          intro hx
          exact hq (by rw [hx])
        unfold findStatL
        rw [if_neg hnm]
        exact ih hwfrest h2

theorem wf_of_mem_entries : ∀ {l : List RawEntry}, RawList.wf l = true →
    ∀ {n : String} {ct : FsTree}, RawEntry.entry n (some ct) ∈ l →
      ct.wf = true := by
  intro l
  induction l with
  | nil => intro _ n ct hm; cases hm
  | cons e rest ih =>
    intro hwf n ct hm
    cases e with
    | err =>
      have hwf2 : RawList.wf rest = true := by
        unfold RawList.wf at hwf
        exact hwf
      rcases List.mem_cons.mp hm with h1 | h2
      · cases h1
      · exact ih hwf2 h2
    | entry m st =>
      unfold RawList.wf at hwf
      simp only [Bool.and_eq_true] at hwf
      obtain ⟨⟨hall, hstwf⟩, hwfrest⟩ := hwf
      rcases List.mem_cons.mp hm with h1 | h2
      · injection h1 with hn hs
        subst hs
        exact hstwf
      · exact ih hwfrest h2

theorem statAt_append (rel : List String) (n : String) :
    ∀ t : FsTree, statAt t (rel ++ [n]) =
      match statAt t rel with
      | none => none
      | some c => statStep c n := by
  induction rel with
  | nil =>
    intro t
    show statAt t [n] = statStep t n
    unfold statAt
    cases hs : statStep t n with
    | none => rfl
    | some c => rfl
  | cons m rest ih =>
    intro t
    show statAt t (m :: (rest ++ [n])) = _
    unfold statAt
    cases hs : statStep t m with
    | none => rfl
    | some c => exact ih c

theorem statAt_child {rt t r : FsTree} {rel : List String} {l : List RawEntry}
    (ht : statAt rt rel = some t) (hr : resolved_of t = some r)
    (hl : r.entries = some l) (hwf : RawList.wf l = true) :
    ∀ n ct, RawEntry.entry n (some ct) ∈ l →
      statAt rt (rel ++ [n]) = some ct := by
  intro n ct hm
  rw [statAt_append rel n rt, ht]
  simp only [statStep, hr, hl, findStatL_of_mem hwf hm]

theorem isDir_false_of_isFile {r : FsTree} (h : r.isFile = true) :
    r.isDir = false := by
  cases r with
  | file m => rfl
  | other m => rfl
  | symlink m t => rfl
  | dir m c es => exact Bool.noConfusion h

theorem isFile_false_of_isDir {r : FsTree} (h : r.isDir = true) :
    r.isFile = false := by
  cases r with
  | file m => exact Bool.noConfusion h
  | other m => rfl
  | symlink m t => rfl
  | dir m c es => rfl

theorem ownMeta_not_followed {fsl : Bool} {t : FsTree}
    (h : (t.isSymlink && ! fsl) = true) : ownMeta fsl t = some t.meta := by
  unfold ownMeta
  rw [if_pos h]

theorem ownMeta_resolved {fsl : Bool} {t r : FsTree}
    (hg : (t.isSymlink && ! fsl) = false) (hr : resolved_of t = some r) :
    ownMeta fsl t = some r.meta := by
  unfold ownMeta
  simp only [hg, Bool.false_eq_true, if_false, hr]
  rfl

theorem scannedKind_not_followed {fsl : Bool} {t : FsTree}
    (h : (t.isSymlink && ! fsl) = true) :
    scannedKind fsl t = some FsEntryKind.symlink := by
  unfold scannedKind
  rw [if_pos h]

theorem scannedKind_resolved {fsl : Bool} {t r : FsTree}
    (hg : (t.isSymlink && ! fsl) = false) (hr : resolved_of t = some r) :
    scannedKind fsl t = some (if t.isSymlink then FsEntryKind.symlink
      else if r.isFile then FsEntryKind.file
      else if r.isDir then FsEntryKind.dir
      else FsEntryKind.other) := by
  unfold scannedKind
  simp only [hg, Bool.false_eq_true, if_false, hr]
  rfl

theorem scannedKind_dir {fsl : Bool} {t r : FsTree}
    (hg : (t.isSymlink && ! fsl) = false) (hr : resolved_of t = some r)
    (hdir : r.isDir = true) :
    scannedKind fsl t = some (if t.isSymlink then FsEntryKind.symlink
      else FsEntryKind.dir) := by
  rw [scannedKind_resolved hg hr, isFile_false_of_isDir hdir, hdir]
  simp only [Bool.false_eq_true, if_false, if_pos]

theorem scannedKind_non_dir {fsl : Bool} {t r : FsTree}
    (hg : (t.isSymlink && ! fsl) = false) (hr : resolved_of t = some r)
    (hdir : r.isDir = false) :
    scannedKind fsl t = some (kind_from_non_dir r t.isSymlink) := by
  rw [scannedKind_resolved hg hr, hdir]
  unfold kind_from_non_dir
  simp only [Bool.false_eq_true, if_false]

theorem emOrigin_of_complete_own (fsl ofs : Bool) (rfs : Option Nat)
    (root : List String) (rt : FsTree) {p : List String} {k : FsEntryKind}
    {ap al : Nat} (rel : List String) (t : FsTree) (m : Meta)
    (hp : p = root ++ rel) (hstat : statAt rt rel = some t)
    (hm : ownMeta fsl t = some m) (hk : scannedKind fsl t = some k)
    (hap : ap = m.len) (hal : al = allocated_size m) :
    EmOrigin fsl ofs rfs root rt ⟨p, k, ap, al, 0, true⟩ :=
  ⟨rel, t, m, hp, hstat, hm, hk, fun hx => Bool.noConfusion hx,
    fun _ => Or.inl ⟨hap, hal, rfl⟩⟩

theorem emOrigin_of_incomplete_own (fsl ofs : Bool) (rfs : Option Nat)
    (root : List String) (rt : FsTree) {p : List String} {k : FsEntryKind}
    {ap al : Nat} (rel : List String) (t : FsTree) (m : Meta)
    (hp : p = root ++ rel) (hstat : statAt rt rel = some t)
    (hm : ownMeta fsl t = some m) (hk : scannedKind fsl t = some k)
    (hap : ap = m.len) (hal : al = allocated_size m) :
    EmOrigin fsl ofs rfs root rt ⟨p, k, ap, al, 0, false⟩ :=
  ⟨rel, t, m, hp, hstat, hm, hk, fun _ => ⟨hap, hal, rfl⟩,
    fun hx => Bool.noConfusion hx⟩

theorem nodes_send_node_update_mem {s : ScannerSt} {v u : NodeSummary}
    (hu : u ∈ nodeEvents (send_node_update s v).sent) :
    u ∈ nodeEvents s.sent ∨ u = v := by
  rcases nodes_send_node_update s v with h | h
  · rw [h] at hu
    exact Or.inl hu
  · rw [h] at hu
    rcases List.mem_append.mp hu with h1 | h2
    · exact Or.inl h1
    · exact Or.inr (List.mem_singleton.mp h2)

theorem nodes_summarize_mem {p : List String} {k : FsEntryKind} {m : Meta}
    {emit : Bool} {s : ScannerSt} {u : NodeSummary}
    (hu : u ∈ nodeEvents (summarize_non_dir p k m emit s).2.sent) :
    u ∈ nodeEvents s.sent ∨ u = (summarize_non_dir p k m emit s).1 := by
  rcases nodes_summarize p k m emit s with h | h
  · rw [h] at hu
    exact Or.inl hu
  · rw [h] at hu
    rcases List.mem_append.mp hu with h1 | h2
    · exact Or.inl h1
    · exact Or.inr (List.mem_singleton.mp h2)

theorem summarize_fst (p : List String) (k : FsEntryKind) (m : Meta)
    (emit : Bool) (s : ScannerSt) :
    (summarize_non_dir p k m emit s).1 =
      ⟨p, k, m.len, allocated_size m, 0, true⟩ := rfl

/-- The anchoring of a `scan_dir` invocation in the scanned tree: the
directory's path names a node `t` whose resolution `r` is the directory the
call's `meta`/`canon`/`entries` arguments describe. -/
def DirAnchor (fsl : Bool) (root : List String) (rt : FsTree)
    (path : List String) (isl : Bool) (meta : Meta) (canon : Option Nat)
    (entries : Option (List RawEntry)) : Prop :=
  ∃ rel t r, path = root ++ rel ∧ statAt rt rel = some t ∧ t.wf = true ∧
    (t.isSymlink && ! fsl) = false ∧ resolved_of t = some r ∧
    isl = t.isSymlink ∧ r.isDir = true ∧ meta = r.meta ∧ canon = r.canon ∧
    entries = r.entries

/-- The anchoring of a directory listing: every statted entry of the list
is the tree's node at the child path. -/
def ChildAnchor (root : List String) (rt : FsTree) (path : List String)
    (entries : List RawEntry) : Prop :=
  ∀ n ct, RawEntry.entry n (some ct) ∈ entries →
    ∃ rel, path ++ [n] = root ++ rel ∧ statAt rt rel = some ct ∧
      ct.wf = true

theorem childAnchor_of_dirAnchor {fsl : Bool} {root : List String}
    {rt : FsTree} {path : List String} {isl : Bool} {meta : Meta}
    {canon : Option Nat} {entries : Option (List RawEntry)}
    (h : DirAnchor fsl root rt path isl meta canon entries)
    (l : List RawEntry) (hl : entries = some l) :
    RawList.wf l = true ∧ ChildAnchor root rt path l := by
  obtain ⟨rel, t, r, hpath, hstat, htwf, hguard, hres, hisl, hdir, hmeta,
    hcanon, hent⟩ := h
  have hrl : r.entries = some l := by
    rw [← hent]
    exact hl
  have hrwf : r.wf = true := resolved_of_wf t htwf r hres
  have hlwf : RawList.wf l = true := entries_wf r hrwf l hrl
  refine ⟨hlwf, fun n ct hm => ⟨rel ++ [n], ?_, ?_, ?_⟩⟩
  · rw [hpath, List.append_assoc]
  · exact statAt_child hstat hres hrl hlwf n ct hm
  · exact wf_of_mem_entries hlwf hm

theorem gate_state_inr {path : List String} {isl : Bool} {canon : Option Nat}
    {s s2 : ScannerSt} (h : symlink_dir_gate path isl canon s = .inr s2) :
    s2.options = s.options ∧ s2.root_fs = s.root_fs ∧ (Live s → Live s2) ∧
    nodeEvents s2.sent = nodeEvents s.sent := by
  unfold symlink_dir_gate at h
  cases isl with
  | false =>
    simp only [Bool.false_eq_true, if_false] at h
    cases h
    exact ⟨rfl, rfl, fun hl => hl, rfl⟩
  | true =>
    rw [if_pos rfl] at h
    cases canon with
    | none => cases h
    | some c =>
      by_cases hm : c ∈ s.visited_symlink_dirs
      · simp only [hm, if_true] at h
        cases h
      · simp only [hm, if_false] at h
        cases h
        exact ⟨rfl, rfl, fun hl => ⟨hl.1, hl.2⟩, rfl⟩

theorem scan_dir_entries_sizes (fsl ofs : Bool) (rfs : Option Nat)
    (root : List String) (rt : FsTree) (path : List String) (depth : Nat)
    (eu : Bool) :
    ∀ (entries : List RawEntry) (cc a al : Nat) (s : ScannerSt),
      s.options.follow_symlinks = fsl →
      ChildAnchor root rt path entries →
      (∀ u ∈ nodeEvents s.sent, EmOrigin fsl ofs rfs root rt u) →
      ∀ u ∈ nodeEvents
          (scan_dir_entries path depth eu entries cc a al s).state.sent,
        EmOrigin fsl ofs rfs root rt u := by
  intro entries
  induction entries with
  | nil => intro cc a al s hfsl hanch hall; exact hall
  | cons e rest ih =>
    intro cc a al s hfsl hanch hall
    unfold scan_dir_entries
    rcases hsc : should_cancel s with ⟨b, s1⟩
    have hop1 : OpEffect (fun _ => True) s s1 := by
      have hx := should_cancel_opEffect (P := fun _ => True) s
      rwa [hsc] at hx
    have hfsl1 : s1.options.follow_symlinks = fsl := by
      rw [hop1.options_eq]
      exact hfsl
    have hall1 : ∀ u ∈ nodeEvents s1.sent, EmOrigin fsl ofs rfs root rt u := by
      have hn : nodeEvents s1.sent = nodeEvents s.sent := by
        have hx := nodes_should_cancel s
        rwa [hsc] at hx
      rw [hn]
      exact hall
    have hanchR : ChildAnchor root rt path rest :=
      fun n ct hm => hanch n ct (List.mem_cons_of_mem _ hm)
    simp only [hsc]
    cases b with
    | true => exact hall1
    | false =>
      cases e with
      | err =>
        simp only
        refine ih _ _ _ _ ?_ hanchR ?_
        · rw [(bump_warning_opEffect_true s1 path _).options_eq]
          exact hfsl1
        · intro u hu
          rw [nodes_bump_warning] at hu
          exact hall1 u hu
      | entry child_name stat =>
        simp only
        cases stat with
        | none =>
          simp only
          refine ih _ _ _ _ ?_ hanchR ?_
          · rw [(bump_warning_opEffect_true s1 _ _).options_eq]
            exact hfsl1
          · intro u hu
            rw [nodes_bump_warning] at hu
            exact hall1 u hu
        | some child_tree =>
          simp only
          obtain ⟨rel, hpathn, hstatn, hwfn⟩ := hanch child_name child_tree
            (List.mem_cons_self _ _)
          cases hsym : child_tree.isSymlink && ! s1.options.follow_symlinks with
          | true =>
            simp only [hsym, if_pos]
            have hsymf : (child_tree.isSymlink && ! fsl) = true := by
              rwa [hfsl1] at hsym
            refine ih _ _ _ _ ?_ hanchR ?_
            · rw [(summarize_opEffect_true _ _ _ _ s1).options_eq]
              exact hfsl1
            · intro u hu
              rcases nodes_summarize_mem hu with h1 | h2
              · exact hall1 u h1
              · rw [h2, summarize_fst]
                exact emOrigin_of_complete_own fsl ofs rfs root rt rel
                  child_tree child_tree.meta hpathn hstatn
                  (ownMeta_not_followed hsymf) (scannedKind_not_followed hsymf)
                  rfl rfl
          | false =>
            simp only [hsym, Bool.false_eq_true, if_false]
            have hguard : (child_tree.isSymlink && ! fsl) = false := by
              rwa [hfsl1] at hsym
            cases hres : resolved_of child_tree with
            | none =>
              simp only
              refine ih _ _ _ _ ?_ hanchR ?_
              · rw [(bump_warning_opEffect_true s1 _ _).options_eq]
                exact hfsl1
              · intro u hu
                rw [nodes_bump_warning] at hu
                exact hall1 u hu
            | some resolved =>
              simp only
              cases hskip : skip_other_filesystem s1 resolved with
              | true =>
                simp only [hskip, if_pos]
                exact ih _ _ _ _ hfsl1 hanchR hall1
              | false =>
                simp only [hskip, Bool.false_eq_true, if_false]
                cases hdir : resolved.isDir with
                | true =>
                  simp only [hdir, if_pos]
                  cases hor : child_tree.isSymlink ||
                      ! child_emit_updates s1.options eu child_name (depth + 1) with
                  | true =>
                    simp only [hor, if_pos]
                    exact ih _ _ _ _ hfsl1 hanchR hall1
                  | false =>
                    simp only [hor, Bool.false_eq_true, if_false]
                    have hsl : child_tree.isSymlink = false := by
                      cases hx : child_tree.isSymlink
                      · rfl
                      · rw [hx] at hor
                        exact absurd hor (by simp)
                    refine ih _ _ _ _ ?_ hanchR ?_
                    · rw [(send_node_update_opEffect_true s1 _).options_eq]
                      exact hfsl1
                    · intro u hu
                      rcases nodes_send_node_update_mem hu with h1 | h2
                      · exact hall1 u h1
                      · rw [h2]
                        refine emOrigin_of_incomplete_own fsl ofs rfs root rt rel
                          child_tree resolved.meta hpathn hstatn
                          (ownMeta_resolved hguard hres) ?_ rfl rfl
                        rw [scannedKind_dir hguard hres hdir, hsl]
                        simp only [Bool.false_eq_true, if_false]
                | false =>
                  simp only [hdir, Bool.false_eq_true, if_false]
                  refine ih _ _ _ _ ?_ hanchR ?_
                  · rw [(summarize_opEffect_true _ _ _ _ s1).options_eq]
                    exact hfsl1
                  · intro u hu
                    rcases nodes_summarize_mem hu with h1 | h2
                    · exact hall1 u h1
                    · rw [h2, summarize_fst]
                      exact emOrigin_of_complete_own fsl ofs rfs root rt rel
                        child_tree resolved.meta hpathn hstatn
                        (ownMeta_resolved hguard hres)
                        (scannedKind_non_dir hguard hres hdir) rfl rfl

theorem scan_dir_sizes (fsl ofs : Bool) (rfs : Option Nat)
    (root : List String) (rt : FsTree) (fuel : Nat) :
    (∀ path depth isl meta canon entries ei eu s out,
      scan_dir fuel path depth isl meta canon entries ei eu s = some out →
      s.options.follow_symlinks = fsl → s.options.one_file_system = ofs →
      s.root_fs = rfs → Live s →
      DirAnchor fsl root rt path isl meta canon entries →
      (∀ u ∈ nodeEvents s.sent, EmOrigin fsl ofs rfs root rt u) →
      ∀ u ∈ nodeEvents out.2.sent, EmOrigin fsl ofs rfs root rt u) ∧
    (∀ path depth eu entries cc a al s out,
      scan_pending_dirs fuel path depth eu entries cc a al s = some out →
      s.options.follow_symlinks = fsl → s.options.one_file_system = ofs →
      s.root_fs = rfs → Live s →
      ChildAnchor root rt path entries →
      (∀ u ∈ nodeEvents s.sent, EmOrigin fsl ofs rfs root rt u) →
      ∀ u ∈ nodeEvents out.state.sent, EmOrigin fsl ofs rfs root rt u) := by
  induction fuel with
  | zero =>
    constructor
    · intro path depth isl meta canon entries ei eu s out h
      simp [scan_dir] at h
    · intro path depth eu entries cc a al s out h
      simp [scan_pending_dirs] at h
  | succ fuel ih =>
    obtain ⟨ihD, ihP⟩ := ih
    constructor
    · intro path depth isl meta canon entries ei eu s out h hfsl hofs hrfs hlive
        hanch hall
      have horig := h
      obtain ⟨rel, t, r, hpath, hstat, htwf, hguard, hres, hisl, hdirR, hmeta,
        hcanon, hent⟩ := hanch
      rw [scan_dir] at h
      rcases hsc : should_cancel s with ⟨b, sA⟩
      have hopA : OpEffect (fun _ => True) s sA := by
        have hx := should_cancel_opEffect (P := fun _ => True) s
        rwa [hsc] at hx
      have hallA : ∀ u ∈ nodeEvents sA.sent, EmOrigin fsl ofs rfs root rt u := by
        have hn : nodeEvents sA.sent = nodeEvents s.sent := by
          have hx := nodes_should_cancel s
          rwa [hsc] at hx
        rw [hn]
        exact hall
      rw [hsc] at h
      cases b with
      | true =>
        cases h
        exact hallA
      | false =>
        simp only at h
        rcases hg : symlink_dir_gate path isl canon sA with gout | sB
        · obtain ⟨ctrlO, sO⟩ := gout
          rw [hg] at h
          simp only at h
          cases h
          have hn : nodeEvents sO.sent = nodeEvents sA.sent :=
            (nodes_gate path isl canon sA).1 _ hg
          intro u hu
          rw [hn] at hu
          exact hallA u hu
        · rw [hg] at h
          simp only at h
          obtain ⟨hoB, hrB, hlB, hnB⟩ := gate_state_inr hg
          have hallB : ∀ u ∈ nodeEvents sB.sent,
              EmOrigin fsl ofs rfs root rt u := by
            rw [hnB]
            exact hallA
          set sI := (if ei && eu then
              send_node_update sB {
                path := path,
                kind := if isl then FsEntryKind.symlink else FsEntryKind.dir,
                apparent_bytes := meta.len, allocated_bytes := allocated_size meta,
                children_count := 0, is_complete := false }
            else sB) with hsI
          have hallI : ∀ u ∈ nodeEvents sI.sent,
              EmOrigin fsl ofs rfs root rt u := by
            rw [hsI]
            split
            · intro u hu
              rcases nodes_send_node_update_mem hu with h1 | h2
              · exact hallB u h1
              · rw [h2]
                refine emOrigin_of_incomplete_own fsl ofs rfs root rt rel t
                  r.meta hpath hstat (ownMeta_resolved hguard hres) ?_ ?_ ?_
                · rw [hisl]
                  exact scannedKind_dir hguard hres hdirR
                · rw [hmeta]
                · rw [hmeta]
            · exact hallB
          have hopI : OpEffect (fun _ => True) sB sI := by
            rw [hsI]
            split
            · exact send_node_update_opEffect_true sB _
            · exact OpEffect.id sB
          have hoI : sI.options = s.options := by
            rw [hopI.options_eq, hoB, hopA.options_eq]
          have hrI : sI.root_fs = s.root_fs := by
            rw [hopI.root_fs_eq, hrB, hopA.root_fs_eq]
          have hlI : Live sI :=
            Live.of_opEffect hopI (hlB (Live.of_opEffect hopA hlive))
          have hfslI : sI.options.follow_symlinks = fsl := by
            rw [hoI]
            exact hfsl
          cases entries with
          | none =>
            simp only at h
            cases h
            dsimp only
            split
            · intro u hu
              rcases nodes_send_node_update_mem hu with h1 | h2
              · rw [nodes_bump_entry, nodes_bump_warning] at h1
                exact hallI u h1
              · rw [h2]
                refine emOrigin_of_complete_own fsl ofs rfs root rt rel t
                  r.meta hpath hstat (ownMeta_resolved hguard hres) ?_ ?_ ?_
                · rw [hisl]
                  exact scannedKind_dir hguard hres hdirR
                · rw [hmeta]
                · rw [hmeta]
            · intro u hu
              rw [nodes_bump_entry, nodes_bump_warning] at hu
              exact hallI u hu
          | some entry_list =>
            simp only at h
            obtain ⟨hlwf, hcanch⟩ := childAnchor_of_dirAnchor
              (⟨rel, t, r, hpath, hstat, htwf, hguard, hres, hisl, hdirR, hmeta,
                hcanon, hent⟩ : DirAnchor fsl root rt path isl meta canon
                  (some entry_list)) entry_list rfl
            have hallE := scan_dir_entries_sizes fsl ofs rfs root rt path depth
              eu entry_list 0 meta.len (allocated_size meta) sI hfslI hcanch
              hallI
            have hopE := scan_dir_entries_opEffect path depth eu entry_list
              0 meta.len (allocated_size meta) sI
            cases hp1 : scan_dir_entries path depth eu entry_list 0 meta.len
                (allocated_size meta) sI with
            | cancelled sC =>
              rw [hp1] at h hallE
              simp only [LoopOut.state] at hallE
              simp only at h
              cases h
              exact hallE
            | done cc1 at1 al1 sC =>
              rw [hp1] at h hallE hopE
              simp only [LoopOut.state] at hallE hopE
              simp only at h
              have hoC : sC.options = s.options := by
                rw [hopE.options_eq, hoI]
              have hrC : sC.root_fs = s.root_fs := by
                rw [hopE.root_fs_eq, hrI]
              have hlC : Live sC := Live.of_opEffect hopE hlI
              cases hp2 : scan_pending_dirs fuel path depth eu entry_list
                  cc1 at1 al1 sC with
              | none =>
                rw [hp2] at h
                cases h
              | some lo =>
                rw [hp2] at h
                have hallP := ihP path depth eu entry_list cc1 at1 al1 sC lo hp2
                  (by rw [hoC]; exact hfsl) (by rw [hoC]; exact hofs)
                  (by rw [hrC]; exact hrfs) hlC hcanch hallE
                cases lo with
                | cancelled sD =>
                  simp only [LoopOut.state] at hallP
                  simp only at h
                  cases h
                  exact hallP
                | done cc2 at2 al2 sD =>
                  simp only [LoopOut.state] at hallP
                  simp only at h
                  cases h
                  obtain ⟨contribs, visited', hspec, hsum, hccmin⟩ :=
                    dir_aggregation_spec (fuel + 1) path depth isl meta canon
                      (some entry_list) ei eu s _ _ horig rfl hlive
                  have hap := congrArg NodeSummary.apparent_bytes hsum
                  have hal := congrArg NodeSummary.allocated_bytes hsum
                  have hsumEm : EmOrigin fsl ofs rfs root rt
                      ⟨path, if isl then FsEntryKind.symlink else FsEntryKind.dir,
                        at2, al2, cc2, true⟩ := by
                    refine ⟨rel, t, r.meta, hpath, hstat,
                      ownMeta_resolved hguard hres, ?_, ?_, ?_⟩
                    · rw [hisl]
                      exact scannedKind_dir hguard hres hdirR
                    · intro hx
                      exact Bool.noConfusion hx
                    · intro hx
                      refine Or.inr ⟨fuel + 1, r, contribs,
                        s.visited_symlink_dirs, visited', hres, hdirR, ?_, ?_,
                        ?_, ?_⟩
                      · rw [← hfsl, ← hofs, ← hrfs, ← hisl, ← hcanon, ← hent]
                        exact hspec
                      · rw [← hmeta]
                        exact hap
                      · rw [← hmeta]
                        exact hal
                      · exact hccmin
                  dsimp only
                  split
                  · intro u hu
                    rcases nodes_send_node_update_mem hu with h1 | h2
                    · rw [nodes_bump_entry] at h1
                      exact hallP u h1
                    · rw [h2]
                      exact hsumEm
                  · intro u hu
                    rw [nodes_bump_entry] at hu
                    exact hallP u hu
    · intro path depth eu entries cc a al s out h hfsl hofs hrfs hlive hanch
        hall
      rw [scan_pending_dirs.eq_def] at h
      simp only at h
      cases entries with
      | nil =>
        simp only at h
        cases h
        exact hall
      | cons e rest =>
        have hanchR : ChildAnchor root rt path rest :=
          fun n ct hm => hanch n ct (List.mem_cons_of_mem _ hm)
        cases e with
        | err =>
          simp only at h
          exact ihP path depth eu rest cc a al s out h hfsl hofs hrfs hlive
            hanchR hall
        | entry child_name stat =>
          simp only at h
          cases stat with
          | none =>
            simp only at h
            exact ihP path depth eu rest cc a al s out h hfsl hofs hrfs hlive
              hanchR hall
          | some child_tree =>
            simp only at h
            cases hsym : child_tree.isSymlink && ! s.options.follow_symlinks with
            | true =>
              simp only [hsym, if_pos] at h
              exact ihP path depth eu rest cc a al s out h hfsl hofs hrfs hlive
                hanchR hall
            | false =>
              simp only [hsym, Bool.false_eq_true, if_false] at h
              cases hres : resolved_of child_tree with
              | none =>
                rw [hres] at h
                simp only at h
                exact ihP path depth eu rest cc a al s out h hfsl hofs hrfs
                  hlive hanchR hall
              | some resolved =>
                rw [hres] at h
                simp only at h
                cases hskip : skip_other_filesystem s resolved with
                | true =>
                  simp only [hskip, if_pos] at h
                  exact ihP path depth eu rest cc a al s out h hfsl hofs hrfs
                    hlive hanchR hall
                | false =>
                  simp only [hskip, Bool.false_eq_true, if_false] at h
                  cases hdir : resolved.isDir with
                  | false =>
                    simp only [hdir, Bool.false_eq_true, if_false] at h
                    exact ihP path depth eu rest cc a al s out h hfsl hofs hrfs
                      hlive hanchR hall
                  | true =>
                    simp only [hdir, if_pos] at h
                    obtain ⟨reln, hpathn, hstatn, hwfn⟩ := hanch child_name
                      child_tree (List.mem_cons_self _ _)
                    have hguardn : (child_tree.isSymlink && ! fsl) = false := by
                      rwa [hfsl] at hsym
                    cases hd : scan_dir fuel (path ++ [child_name]) (depth + 1)
                        child_tree.isSymlink resolved.meta resolved.canon
                        resolved.entries
                        (! (! child_tree.isSymlink &&
                          child_emit_updates s.options eu child_name (depth + 1)))
                        (child_emit_updates s.options eu child_name (depth + 1))
                        s with
                    | none =>
                      rw [hd] at h
                      cases h
                    | some cs =>
                      rw [hd] at h
                      obtain ⟨ctrl2, sE⟩ := cs
                      have hallE := ihD (path ++ [child_name]) (depth + 1)
                        child_tree.isSymlink resolved.meta resolved.canon
                        resolved.entries _ _ s (ctrl2, sE) hd hfsl hofs hrfs
                        hlive
                        ⟨reln, child_tree, resolved, hpathn, hstatn, hwfn,
                          hguardn, hres, rfl, hdir, rfl, rfl, rfl⟩ hall
                      dsimp only at hallE
                      have hopC := (scan_dir_opEffect fuel).1
                        (path ++ [child_name]) (depth + 1) child_tree.isSymlink
                        resolved.meta resolved.canon resolved.entries _ _ s
                        ctrl2 sE hd
                      have hoE : sE.options = s.options := hopC.options_eq
                      have hrE : sE.root_fs = s.root_fs := hopC.root_fs_eq
                      have hlE : Live sE := Live.of_opEffect hopC hlive
                      cases ctrl2 with
                      | cancelled =>
                        simp only at h
                        cases h
                        exact hallE
                      | cont child =>
                        cases child with
                        | some childS =>
                          simp only at h
                          exact ihP path depth eu rest _ _ _ sE out h
                            (by rw [hoE]; exact hfsl) (by rw [hoE]; exact hofs)
                            (by rw [hrE]; exact hrfs) hlE hanchR hallE
                        | none =>
                          simp only at h
                          exact ihP path depth eu rest cc a al sE out h
                            (by rw [hoE]; exact hfsl) (by rw [hoE]; exact hofs)
                            (by rw [hrE]; exact hrfs) hlE hanchR hallE

theorem scan_entry_sizes (fsl ofs : Bool) (rfs : Option Nat)
    (root : List String) (rt : FsTree) (fuel : Nat) (path : List String)
    (depth : Nat) (t0 : FsTree) (s : ScannerSt) (out : ScanControl × ScannerSt)
    (h : scan_entry fuel path depth (some t0) s = some out)
    (hfsl : s.options.follow_symlinks = fsl)
    (hofs : s.options.one_file_system = ofs) (hrfs : s.root_fs = rfs)
    (hlive : Live s) (rel : List String) (hpath : path = root ++ rel)
    (hstat : statAt rt rel = some t0) (hwf0 : t0.wf = true)
    (hall : ∀ u ∈ nodeEvents s.sent, EmOrigin fsl ofs rfs root rt u) :
    ∀ u ∈ nodeEvents out.2.sent, EmOrigin fsl ofs rfs root rt u := by
  unfold scan_entry at h
  rcases hsc : should_cancel s with ⟨b, sA⟩
  have hopA : OpEffect (fun _ => True) s sA := by
    have hx := should_cancel_opEffect (P := fun _ => True) s
    rwa [hsc] at hx
  have hallA : ∀ u ∈ nodeEvents sA.sent, EmOrigin fsl ofs rfs root rt u := by
    have hn : nodeEvents sA.sent = nodeEvents s.sent := by
      have hx := nodes_should_cancel s
      rwa [hsc] at hx
    rw [hn]
    exact hall
  have hoA : sA.options = s.options := hopA.options_eq
  rw [hsc] at h
  cases b with
  | true =>
    cases h
    exact hallA
  | false =>
    simp only at h
    cases hsym : t0.isSymlink && ! sA.options.follow_symlinks with
    | true =>
      simp only [hsym, if_pos] at h
      cases h
      have hsymf : (t0.isSymlink && ! fsl) = true := by
        rw [hoA] at hsym
        rwa [hfsl] at hsym
      intro u hu
      rcases nodes_summarize_mem hu with h1 | h2
      · exact hallA u h1
      · rw [h2, summarize_fst]
        exact emOrigin_of_complete_own fsl ofs rfs root rt rel t0 t0.meta
          hpath hstat (ownMeta_not_followed hsymf)
          (scannedKind_not_followed hsymf) rfl rfl
    | false =>
      simp only [hsym, Bool.false_eq_true, if_false] at h
      have hguard : (t0.isSymlink && ! fsl) = false := by
        rw [hoA] at hsym
        rwa [hfsl] at hsym
      cases hres : resolved_of t0 with
      | none =>
        rw [hres] at h
        simp only at h
        cases h
        intro u hu
        rw [nodes_bump_warning] at hu
        exact hallA u hu
      | some resolved =>
        rw [hres] at h
        simp only at h
        split at h
        · cases h
          exact hallA
        · cases hfile : resolved.isFile with
          | true =>
            simp only [hfile, if_pos] at h
            cases h
            intro u hu
            rcases nodes_summarize_mem hu with h1 | h2
            · exact hallA u h1
            · rw [h2, summarize_fst]
              exact emOrigin_of_complete_own fsl ofs rfs root rt rel t0
                resolved.meta hpath hstat (ownMeta_resolved hguard hres)
                (scannedKind_non_dir hguard hres (isDir_false_of_isFile hfile))
                rfl rfl
          | false =>
            simp only [hfile, Bool.false_eq_true, if_false] at h
            cases hdir : resolved.isDir with
            | true =>
              simp only [hdir, if_pos] at h
              exact (scan_dir_sizes fsl ofs rfs root rt fuel).1 path depth
                t0.isSymlink resolved.meta resolved.canon resolved.entries
                true true sA out h (by rw [hoA]; exact hfsl)
                (by rw [hoA]; exact hofs)
                (by rw [hopA.root_fs_eq]; exact hrfs)
                (Live.of_opEffect hopA hlive)
                ⟨rel, t0, resolved, hpath, hstat, hwf0, hguard, hres, rfl,
                  hdir, rfl, rfl, rfl⟩ hallA
            | false =>
              simp only [hdir, Bool.false_eq_true, if_false] at h
              cases h
              intro u hu
              rcases nodes_summarize_mem hu with h1 | h2
              · exact hallA u h1
              · rw [h2, summarize_fst]
                exact emOrigin_of_complete_own fsl ofs rfs root rt rel t0
                  resolved.meta hpath hstat (ownMeta_resolved hguard hres)
                  (scannedKind_non_dir hguard hres hdir) rfl rfl

theorem run_scan_sizes (fuel : Nat) (options : ScanOptions)
    (root_tree : FsTree) (oracle : List SendResult) (cancelFuel : Option Nat)
    (sF : ScannerSt)
    (h : run_scan fuel options (some root_tree) oracle cancelFuel = some sF)
    (hwf : root_tree.wf = true) (hnd : SendResult.disconnected ∉ oracle) :
    ∀ u ∈ nodeEvents sF.sent,
      EmOrigin options.follow_symlinks options.one_file_system
        (if options.one_file_system then filesystem_id root_tree.meta else none)
        options.root root_tree u := by
  unfold run_scan at h
  obtain ⟨oracle2, heq, hnd2⟩ := send_critical_event_spec (.reset options.root)
    (oracle.length + 1) oracle [] hnd (by omega)
  rw [heq] at h
  simp only at h
  cases hscan : scan_entry fuel options.root 0 (some root_tree)
      (initial_scanner_state options
        (if options.one_file_system then filesystem_id root_tree.meta else none)
        oracle2 ([] ++ [ScanEvent.reset options.root]) cancelFuel false) with
  | none =>
    rw [hscan] at h
    cases h
  | some cs =>
    rw [hscan] at h
    obtain ⟨ctrl, s1⟩ := cs
    have hall1 := scan_entry_sizes options.follow_symlinks
      options.one_file_system
      (if options.one_file_system then filesystem_id root_tree.meta else none)
      options.root root_tree fuel options.root 0 root_tree _ (ctrl, s1) hscan
      rfl rfl rfl ⟨rfl, hnd2⟩ [] (List.append_nil _).symm rfl hwf
      (by
        intro u hu
        have hz : nodeEvents (initial_scanner_state options
            (if options.one_file_system then filesystem_id root_tree.meta
              else none)
            oracle2 ([] ++ [ScanEvent.reset options.root]) cancelFuel
            false).sent = [] := rfl
        rw [hz] at hu
        cases hu)
    dsimp only at hall1
    cases ctrl with
    | cont o =>
      simp only at h
      cases h
      intro u hu
      rw [nodes_send_critical _ _ (fun v hx => by cases hx),
        nodes_emit_progress_now, nodes_emit_backpressure] at hu
      exact hall1 u hu
    | cancelled =>
      simp only at h
      cases h
      intro u hu
      rw [nodes_send_critical _ _ (fun v hx => by cases hx),
        nodes_emit_backpressure] at hu
      exact hall1 u hu

def c5_opts : ScanOptions :=
  { root := ["r"], one_file_system := false, follow_symlinks := true,
    show_hidden := true, show_files := true, max_depth := none }

/-- A directory whose one entry is a symlink to a directory containing a
file. -/
def c5_tree : FsTree :=
  .dir ⟨10, 0, 1⟩ none (some [
    .entry "s" (some (.symlink ⟨2, 0, 1⟩
      (some (.dir ⟨5, 0, 1⟩ (some 99)
        (some [.entry "f" (some (.file ⟨3, 0, 1⟩))])))))])

/-- C5 counterexample: with `follow_symlinks = true` a symlink to a
directory is scanned as a directory (worker.rs lines 405-420), so the
delivered stream contains a `NodeUpdated` of `symlink` kind with
`is_complete = false` — the provisional summary of `r/s`, carrying the
resolved target directory's own metadata sizes — refuting the original
claim's "for non-directory kinds, completeness is always true" (a symlink
is not a directory kind, yet its summary is provisional here). -/
theorem symlink_dir_provisional_counterexample :
    ∃ sF, run_scan 10 c5_opts (some c5_tree) [] none = some sF ∧
      (⟨["r", "s"], FsEntryKind.symlink, 5, 5, 0, false⟩ : NodeSummary) ∈
        nodeEvents sF.sent :=
  ⟨(run_scan 10 c5_opts (some c5_tree) [] none).getD w_default,
    by rfl, by decide⟩

/-- C5 (amended).  Within one scan, the delivered `NodeUpdated` stream obeys
the per-path emission discipline: every path receives at most two summaries;
a summary of `file` or `other` kind is always complete; when a path receives
two summaries, the first is the provisional one (`is_complete = false`,
`children_count = 0`) and the second the final one (`is_complete = true`);
whenever a complete summary for a path has been delivered, no later summary
for that path is incomplete (the complete summary is the last one delivered
for its path).  Moreover every delivered summary is anchored in the scanned
tree (`EmOrigin`): its path names a node whose scanned kind it carries, a
provisional summary carries that node's own metadata sizes
(`len` / `allocated_size` of its reported stat) with zero children, and a
final summary carries either its own metadata sizes with zero children
(non-directory kinds, unreadable directories) or the recursive aggregate of
`spec_dir_children` over its listing (settled directories).  The original
claim's "every non-directory path has at most one emission and it carries
`is_complete = true`" is refuted by
`symlink_dir_provisional_counterexample`: when `follow_symlinks = true` a
symlink to a directory receives a provisional `symlink`-kind summary with
`is_complete = false` before its final aggregate; always-complete holds for
`file` and `other` kinds only. -/
theorem node_emission_shape (fuel : Nat) (options : ScanOptions)
    (root_tree : FsTree) (oracle : List SendResult) (cancelFuel : Option Nat)
    (sF : ScannerSt)
    (h : run_scan fuel options (some root_tree) oracle cancelFuel = some sF)
    (hwf : root_tree.wf = true) (hnd : SendResult.disconnected ∉ oracle) :
    (∀ q : List String,
      (atP q (nodeEvents sF.sent)).length ≤ 2 ∧
      (∀ u ∈ atP q (nodeEvents sF.sent),
        (u.kind = FsEntryKind.file ∨ u.kind = FsEntryKind.other) →
          u.is_complete = true) ∧
      (∀ u v, atP q (nodeEvents sF.sent) = [u, v] →
        u.is_complete = false ∧ u.children_count = 0 ∧ v.is_complete = true) ∧
      (∀ l1 u l2, atP q (nodeEvents sF.sent) = l1 ++ u :: l2 →
        u.is_complete = true → l2 = [])) ∧
    (∀ l1 u l2, nodeEvents sF.sent = l1 ++ u :: l2 → u.is_complete = true →
      ∀ v ∈ l2, v.path = u.path → v.is_complete = true) ∧
    (∀ u ∈ nodeEvents sF.sent,
      EmOrigin options.follow_symlinks options.one_file_system
        (if options.one_file_system then filesystem_id root_tree.meta
          else none)
        options.root root_tree u) := by
  have hinv := run_scan_nodes fuel options root_tree oracle cancelFuel sF h hwf
  refine ⟨?_, ?_,
    run_scan_sizes fuel options root_tree oracle cancelFuel sF h hwf hnd⟩
  · intro q
    obtain ⟨ha, hpair, hlast⟩ := atP_shape hinv q
    exact ⟨ha, fun u hu => hinv.2.2.1 u (mem_atP.mp hu).1, hpair, hlast⟩
  · intro l1 u l2 heq huc v hv hvp
    exact absurd (show u.path <+: v.path by rw [hvp])
      (pairwise_no_follow hinv.1 l1 u l2 heq huc v hv)

/-- C5 witness: the shape part at the plain fixture, and the origin part at
the symlink fixture. -/
theorem node_emission_shape_witness :
    (atP ["r"] (nodeEvents ((run_scan 10 w_opts (some w_tree) [] none).getD
        w_default).sent)).length ≤ 2 ∧
    (∀ u ∈ nodeEvents ((run_scan 10 c5_opts (some c5_tree) [] none).getD
        w_default).sent,
      EmOrigin c5_opts.follow_symlinks c5_opts.one_file_system
        (if c5_opts.one_file_system then filesystem_id c5_tree.meta else none)
        c5_opts.root c5_tree u) :=
  ⟨((node_emission_shape 10 w_opts w_tree [] none
      ((run_scan 10 w_opts (some w_tree) [] none).getD w_default)
      (by rfl) (by decide) (List.not_mem_nil _)).1 ["r"]).1,
   (node_emission_shape 10 c5_opts c5_tree [] none
      ((run_scan 10 c5_opts (some c5_tree) [] none).getD w_default)
      (by rfl) (by decide) (List.not_mem_nil _)).2.2⟩

/-- C6.  Within one scan, once a directory's final aggregate summary
(`is_complete = true`) has been sent into the channel, every summary delivered
anywhere in the stream for a path strictly below that directory (its children,
recursively) lies strictly before it: in any decomposition of the node stream
around a complete summary `u`, every delivered `v` below `u.path` is a member
of the prefix.  Equivalently, every delivered child `NodeUpdated` is sent into
the channel before the parent directory's final aggregate `NodeUpdated`. -/
theorem children_emitted_before_final (fuel : Nat) (options : ScanOptions)
    (root_tree : FsTree) (oracle : List SendResult) (cancelFuel : Option Nat)
    (sF : ScannerSt)
    (h : run_scan fuel options (some root_tree) oracle cancelFuel = some sF)
    (hwf : root_tree.wf = true) :
    ∀ l1 u l2, nodeEvents sF.sent = l1 ++ u :: l2 → u.is_complete = true →
      ∀ v ∈ nodeEvents sF.sent, u.path <+: v.path ∧ v.path ≠ u.path → v ∈ l1 := by
  intro l1 u l2 heq huc v hv hbelow
  have hnf := pairwise_no_follow (run_scan_nodes fuel options root_tree oracle
    cancelFuel sF h hwf).1 l1 u l2 heq huc
  rw [heq] at hv
  rcases List.mem_append.mp hv with h1 | h2
  · exact h1
  · rcases List.mem_cons.mp h2 with h3 | h4
    · exact absurd (h3 ▸ hbelow.2) (by intro hx; exact hx rfl)
    · exact absurd hbelow.1 (hnf v h4)

/-- C6 witness: in the fixture scan, the deep file `r/a/f1` lies below the
subdirectory `r/a`, whose final aggregate summary is the sixth node event; the
theorem places the file's event in the five-event prefix before that final. -/
theorem children_emitted_before_final_witness :
    (⟨["r", "a", "f1"], FsEntryKind.file, 100, 100, 0, true⟩ : NodeSummary) ∈
      [(⟨["r"], FsEntryKind.dir, 10, 10, 0, false⟩ : NodeSummary),
       ⟨["r", "a"], FsEntryKind.dir, 5, 5, 0, false⟩,
       ⟨["r", "f2"], FsEntryKind.file, 50, 50, 0, true⟩,
       ⟨["r", ".h"], FsEntryKind.file, 7, 7, 0, true⟩,
       ⟨["r", "a", "f1"], FsEntryKind.file, 100, 100, 0, true⟩] :=
  children_emitted_before_final 10 w_opts w_tree [] none
    ((run_scan 10 w_opts (some w_tree) [] none).getD w_default) (by rfl) (by decide)
    [⟨["r"], FsEntryKind.dir, 10, 10, 0, false⟩,
     ⟨["r", "a"], FsEntryKind.dir, 5, 5, 0, false⟩,
     ⟨["r", "f2"], FsEntryKind.file, 50, 50, 0, true⟩,
     ⟨["r", ".h"], FsEntryKind.file, 7, 7, 0, true⟩,
     ⟨["r", "a", "f1"], FsEntryKind.file, 100, 100, 0, true⟩]
    ⟨["r", "a"], FsEntryKind.dir, 105, 105, 1, true⟩
    [⟨["r"], FsEntryKind.dir, 172, 172, 3, true⟩]
    (by rfl) rfl
    ⟨["r", "a", "f1"], FsEntryKind.file, 100, 100, 0, true⟩
    (by decide) ⟨⟨["f1"], rfl⟩, by decide⟩

/-! ## C7: monotonicity of the progress counters along a session

The inversion counterexample below shows the *delivered* stream need not be
sorted: a snapshot deferred into the pending slot can be flushed after a newer
snapshot was delivered (flush meets a full channel, the very next `try_send`
succeeds).  What does hold — and what the machinery here proves — is that the
live counters only ever grow, at every update site including the `warnings`
bump of `emit_backpressure_warning_if_needed`, so snapshots dominate all
earlier-taken ones and every delivered payload is below the session-final
counters. -/

/-- The `Progress` payloads of a stream, in delivery order. -/
def progEvents (l : List ScanEvent) : List ScanProgress :=
  l.filterMap (fun e => match e with | .progress p => some p | _ => none)

theorem progEvents_append (l1 l2 : List ScanEvent) :
    progEvents (l1 ++ l2) = progEvents l1 ++ progEvents l2 :=
  List.filterMap_append l1 l2 _

theorem pe_mem_snoc {l : List ScanEvent} {e : ScanEvent} {q : ScanProgress}
    (hq : q ∈ progEvents (l ++ [e])) :
    q ∈ progEvents l ∨ e = ScanEvent.progress q := by
  rw [progEvents_append] at hq
  rcases List.mem_append.mp hq with h1 | h2
  · exact Or.inl h1
  · right
    cases e
    case progress p =>
      have hqp : q = p := by simpa [progEvents] using h2
      rw [hqp]
    all_goals simp [progEvents] at h2

/-- One operation of the scanner session, as performed by the worker. -/
inductive ScanStep : ScannerSt → ScannerSt → Prop where
  | bump_entry (s : ScannerSt) (a b : Nat) : ScanStep s (bump_entry s a b)
  | bump_warning (s : ScannerSt) (path : List String) (m : WarnMsg) :
      ScanStep s (bump_warning s path m)
  | send_node_update (s : ScannerSt) (u : NodeSummary) :
      ScanStep s (send_node_update s u)
  | send_critical (s : ScannerSt) (e : ScanEvent) : ScanStep s (send_critical s e)
  | send_noncritical (s : ScannerSt) (e : ScanEvent) :
      ScanStep s (send_noncritical s e)
  | summarize (s : ScannerSt) (path : List String) (kind : FsEntryKind)
      (meta : Meta) (emit : Bool) :
      ScanStep s (summarize_non_dir path kind meta emit s).2
  | emit_progress_now (s : ScannerSt) : ScanStep s (emit_progress_now s)
  | emit_backpressure (s : ScannerSt) :
      ScanStep s (emit_backpressure_warning_if_needed s)
  | should_cancel (s : ScannerSt) : ScanStep s (should_cancel s).2
  | scan_entry (fuel : Nat) (path : List String) (depth : Nat)
      (stat : Option FsTree) (s : ScannerSt) (ctrl : ScanControl) (s1 : ScannerSt)
      (h : scan_entry fuel path depth stat s = some (ctrl, s1)) : ScanStep s s1
  | scan_dir (fuel : Nat) (path : List String) (depth : Nat) (isl : Bool)
      (meta : Meta) (canon : Option Nat) (entries : Option (List RawEntry))
      (ei eu : Bool) (s : ScannerSt) (ctrl : ScanControl) (s1 : ScannerSt)
      (h : scan_dir fuel path depth isl meta canon entries ei eu s =
        some (ctrl, s1)) : ScanStep s s1

theorem emit_backpressure_prog_mono (s : ScannerSt) (hwf : ProgWF s.progress) :
    ProgLE s.progress (emit_backpressure_warning_if_needed s).progress ∧
    ProgWF (emit_backpressure_warning_if_needed s).progress := by
  unfold emit_backpressure_warning_if_needed
  split
  · exact ⟨ProgLE.rfl _, hwf⟩
  · split
    · exact ⟨ProgLE.rfl _, hwf⟩
    · dsimp only
      rw [send_critical_progress]
      exact ⟨⟨le_refl _, satAdd_le_right _ _ hwf.2.1, le_refl _, le_refl _⟩,
        hwf.1, satAdd_le_max _ _, hwf.2.2.1, hwf.2.2.2⟩

theorem scanStep_prog_mono {s t : ScannerSt} (h : ScanStep s t)
    (hwf : ProgWF s.progress) : ProgLE s.progress t.progress ∧ ProgWF t.progress := by
  cases h with
  | bump_entry s a b =>
    have h := bump_entry_opEffect (P := fun _ => True) (fun _ => trivial) s a b
    exact ⟨h.prog_mono hwf, h.prog_wf hwf⟩
  | bump_warning s path m =>
    have h := bump_warning_opEffect_true s path m
    exact ⟨h.prog_mono hwf, h.prog_wf hwf⟩
  | send_node_update s u =>
    have h := send_node_update_opEffect_true s u
    exact ⟨h.prog_mono hwf, h.prog_wf hwf⟩
  | send_critical s e =>
    have h := send_critical_opEffect (P := fun _ => True) (e := e)
      (fun _ => trivial) trivial s
    exact ⟨h.prog_mono hwf, h.prog_wf hwf⟩
  | send_noncritical s e =>
    have h := send_noncritical_opEffect (P := fun _ => True) (e := e)
      (fun _ => trivial) trivial s
    exact ⟨h.prog_mono hwf, h.prog_wf hwf⟩
  | summarize s path kind meta emit =>
    have h := summarize_opEffect_true path kind meta emit s
    exact ⟨h.prog_mono hwf, h.prog_wf hwf⟩
  | emit_progress_now s =>
    have h := emit_progress_now_opEffect (P := fun _ => True) (fun _ => trivial) s
    exact ⟨h.prog_mono hwf, h.prog_wf hwf⟩
  | emit_backpressure s => exact emit_backpressure_prog_mono s hwf
  | should_cancel s =>
    have h := should_cancel_opEffect (P := fun _ => True) s
    exact ⟨h.prog_mono hwf, h.prog_wf hwf⟩
  | scan_entry fuel path depth stat s ctrl s1 hrun =>
    have h := scan_entry_opEffect fuel path depth stat s ctrl t hrun
    exact ⟨h.prog_mono hwf, h.prog_wf hwf⟩
  | scan_dir fuel path depth isl meta canon entries ei eu s ctrl s1 hrun =>
    have h := (scan_dir_opEffect fuel).1 path depth isl meta canon entries
      ei eu s ctrl t hrun
    exact ⟨h.prog_mono hwf, h.prog_wf hwf⟩

theorem scanSession_prog_mono {s t : ScannerSt}
    (h : Relation.ReflTransGen ScanStep s t) (hwf : ProgWF s.progress) :
    ProgLE s.progress t.progress ∧ ProgWF t.progress := by
  induction h with
  | refl => exact ⟨ProgLE.rfl _, hwf⟩
  | tail hst hstep ih =>
    obtain ⟨hle, hwf2⟩ := ih
    obtain ⟨hle2, hwf3⟩ := scanStep_prog_mono hstep hwf2
    exact ⟨hle.trans hle2, hwf3⟩

/-- Dominance invariant: counters well-formed, and every delivered or pending
progress payload lies componentwise below the live counters. -/
def ProgDom (s : ScannerSt) : Prop :=
  ProgWF s.progress ∧
  (∀ p ∈ progEvents s.sent, ProgLE p s.progress) ∧
  (∀ p, s.pending_progress = some p → ProgLE p s.progress)

theorem try_flush_progress (s : ScannerSt) :
    (try_flush_pending_progress s).progress = s.progress := by
  unfold try_flush_pending_progress
  cases hpp : s.pending_progress with
  | none => rfl
  | some p =>
    simp only [trySend]
    cases ho : s.oracle with
    | nil => rfl
    | cons r rest => cases r <;> rfl

theorem try_flush_ProgDom (s : ScannerSt) (h : ProgDom s) :
    ProgDom (try_flush_pending_progress s) := by
  obtain ⟨hwf, hub, hpend⟩ := h
  unfold try_flush_pending_progress
  cases hpp : s.pending_progress with
  | none => exact ⟨hwf, hub, hpend⟩
  | some p =>
    have hple := hpend p hpp
    simp only [trySend]
    cases ho : s.oracle with
    | nil =>
      dsimp only
      refine ⟨hwf, ?_, ?_⟩
      · intro q hq
        rcases pe_mem_snoc hq with h1 | h2
        · exact hub q h1
        · cases h2
          exact hple
      · intro q hq
        exact Option.noConfusion hq
    | cons r rest =>
      cases r with
      | ok =>
        dsimp only
        refine ⟨hwf, ?_, ?_⟩
        · intro q hq
          rcases pe_mem_snoc hq with h1 | h2
          · exact hub q h1
          · cases h2
            exact hple
        · intro q hq
          exact Option.noConfusion hq
      | full =>
        dsimp only
        refine ⟨hwf, hub, ?_⟩
        intro q hq
        dsimp only at hq
        cases hq
        exact hple
      | disconnected =>
        dsimp only
        exact ⟨hwf, hub, fun q hq => Option.noConfusion hq⟩

theorem send_noncritical_ProgDom (s : ScannerSt) (e : ScanEvent)
    (he : ∀ q, e = ScanEvent.progress q → ProgLE q s.progress)
    (h : ProgDom s) : ProgDom (send_noncritical s e) := by
  unfold send_noncritical
  cases hc : s.channel_closed with
  | true => simp only [hc, if_true]; exact h
  | false =>
    simp only [hc, Bool.false_eq_true, if_false]
    obtain ⟨hwf, hub, hpend⟩ := try_flush_ProgDom s h
    have htp : (try_flush_pending_progress s).progress = s.progress :=
      try_flush_progress s
    simp only [trySend]
    cases ho : (try_flush_pending_progress s).oracle with
    | nil =>
      dsimp only
      refine ⟨hwf, ?_, hpend⟩
      intro q hq
      rcases pe_mem_snoc hq with h1 | h2
      · exact hub q h1
      · rw [htp]
        exact he q h2
    | cons r rest =>
      cases r with
      | ok =>
        dsimp only
        refine ⟨hwf, ?_, hpend⟩
        intro q hq
        rcases pe_mem_snoc hq with h1 | h2
        · exact hub q h1
        · rw [htp]
          exact he q h2
      | full =>
        dsimp only
        unfold handle_noncritical_backpressure
        cases e with
        | nodeUpdated u => exact ⟨hwf, hub, hpend⟩
        | progress p =>
          dsimp only
          split
          · refine ⟨hwf, hub, ?_⟩
            intro q hq
            dsimp only at hq
            cases hq
            rw [htp]
            exact he _ rfl
          · refine ⟨hwf, hub, ?_⟩
            intro q hq
            dsimp only at hq
            cases hq
            rw [htp]
            exact he _ rfl
        | reset r => exact ⟨hwf, hub, hpend⟩
        | warning q m => exact ⟨hwf, hub, hpend⟩
        | complete p => exact ⟨hwf, hub, hpend⟩
        | error r => exact ⟨hwf, hub, hpend⟩
        | cancelled => exact ⟨hwf, hub, hpend⟩
      | disconnected =>
        dsimp only
        exact ⟨hwf, hub, hpend⟩

theorem send_node_update_ProgDom (s : ScannerSt) (u : NodeSummary)
    (h : ProgDom s) : ProgDom (send_node_update s u) :=
  send_noncritical_ProgDom s _ (fun q hq => by cases hq) h

theorem send_critical_loop_ProgDom (e : ScanEvent) :
    ∀ (fuel : Nat) (s : ScannerSt), ProgDom s →
      (∀ q, e = ScanEvent.progress q → ProgLE q s.progress) →
      ProgDom (send_critical_loop fuel s e) := by
  intro fuel
  induction fuel with
  | zero => intro s h he; exact h
  | succ fuel ih =>
    intro s h he
    unfold send_critical_loop
    simp only [trySend]
    cases ho : s.oracle with
    | nil =>
      dsimp only
      obtain ⟨hwf, hub, hpend⟩ := h
      refine ⟨hwf, ?_, hpend⟩
      intro q hq
      rcases pe_mem_snoc hq with h1 | h2
      · exact hub q h1
      · exact he q h2
    | cons r rest =>
      cases r with
      | ok =>
        dsimp only
        obtain ⟨hwf, hub, hpend⟩ := h
        refine ⟨hwf, ?_, hpend⟩
        intro q hq
        rcases pe_mem_snoc hq with h1 | h2
        · exact hub q h1
        · exact he q h2
      | full =>
        dsimp only
        refine ih _ (try_flush_ProgDom _ h) ?_
        intro q hq
        rw [try_flush_progress]
        exact he q hq
      | disconnected =>
        dsimp only
        exact ⟨h.1, h.2.1, h.2.2⟩

theorem send_critical_ProgDom (s : ScannerSt) (e : ScanEvent)
    (he : ∀ q, e = ScanEvent.progress q → ProgLE q s.progress)
    (h : ProgDom s) : ProgDom (send_critical s e) := by
  unfold send_critical
  cases hc : s.channel_closed with
  | true => simp only [hc, if_true]; exact h
  | false =>
    simp only [hc, Bool.false_eq_true, if_false]
    refine send_critical_loop_ProgDom e _ _ (try_flush_ProgDom s h) ?_
    intro q hq
    rw [try_flush_progress]
    exact he q hq

theorem bump_entry_ProgDom (s : ScannerSt) (a b : Nat) (h : ProgDom s) :
    ProgDom (bump_entry s a b) := by
  obtain ⟨hwf, hub, hpend⟩ := h
  unfold bump_entry
  dsimp only
  have hle : ProgLE s.progress
      { visited_entries := satAdd s.progress.visited_entries 1,
        warnings := s.progress.warnings,
        apparent_bytes_seen := satAdd s.progress.apparent_bytes_seen a,
        allocated_bytes_seen := satAdd s.progress.allocated_bytes_seen b } :=
    ⟨satAdd_le_right _ _ hwf.1, le_refl _, satAdd_le_right _ _ hwf.2.2.1,
     satAdd_le_right _ _ hwf.2.2.2⟩
  have hwf1 : ProgWF
      ({ visited_entries := satAdd s.progress.visited_entries 1,
         warnings := s.progress.warnings,
         apparent_bytes_seen := satAdd s.progress.apparent_bytes_seen a,
         allocated_bytes_seen := satAdd s.progress.allocated_bytes_seen b } :
        ScanProgress) :=
    ⟨satAdd_le_max _ _, hwf.2.1, satAdd_le_max _ _, satAdd_le_max _ _⟩
  split
  · refine send_noncritical_ProgDom _ _ ?_ ?_
    · intro q hq
      cases hq
      exact ProgLE.rfl _
    · exact ⟨hwf1, fun p hp => (hub p hp).trans hle,
        fun p hp => (hpend p hp).trans hle⟩
  · exact ⟨hwf1, fun p hp => (hub p hp).trans hle,
      fun p hp => (hpend p hp).trans hle⟩

theorem bump_warning_ProgDom (s : ScannerSt) (path : List String) (m : WarnMsg)
    (h : ProgDom s) : ProgDom (bump_warning s path m) := by
  obtain ⟨hwf, hub, hpend⟩ := h
  unfold bump_warning
  dsimp only
  have hle : ProgLE s.progress
      { s.progress with warnings := satAdd s.progress.warnings 1 } :=
    ⟨le_refl _, satAdd_le_right _ _ hwf.2.1, le_refl _, le_refl _⟩
  have hwf1 : ProgWF { s.progress with warnings := satAdd s.progress.warnings 1 } :=
    ⟨hwf.1, satAdd_le_max _ _, hwf.2.2.1, hwf.2.2.2⟩
  refine send_critical_ProgDom _ _ ?_ ?_
  · intro q hq
    cases hq
  · exact ⟨hwf1, fun p hp => (hub p hp).trans hle,
      fun p hp => (hpend p hp).trans hle⟩

theorem should_cancel_ProgDom (s : ScannerSt) (h : ProgDom s) :
    ProgDom (should_cancel s).2 := by
  unfold should_cancel
  cases hcc : s.channel_closed with
  | true => simp only [hcc, if_true]; exact h
  | false =>
    simp only [hcc, Bool.false_eq_true, if_false]
    cases hcf : s.cancelFuel with
    | none => exact h
    | some n =>
      cases n with
      | zero => exact h
      | succ m => exact ⟨h.1, h.2.1, h.2.2⟩

theorem emit_progress_now_ProgDom (s : ScannerSt) (h : ProgDom s) :
    ProgDom (emit_progress_now s) := by
  unfold emit_progress_now
  dsimp only
  refine send_noncritical_ProgDom _ _ ?_ ⟨h.1, h.2.1, h.2.2⟩
  intro q hq
  cases hq
  exact ProgLE.rfl _

theorem emit_backpressure_ProgDom (s : ScannerSt) (h : ProgDom s) :
    ProgDom (emit_backpressure_warning_if_needed s) := by
  obtain ⟨hwf, hub, hpend⟩ := h
  unfold emit_backpressure_warning_if_needed
  split
  · exact ⟨hwf, hub, hpend⟩
  · split
    · exact ⟨hwf, hub, hpend⟩
    · dsimp only
      have hle : ProgLE s.progress
          { s.progress with warnings := satAdd s.progress.warnings 1 } :=
        ⟨le_refl _, satAdd_le_right _ _ hwf.2.1, le_refl _, le_refl _⟩
      have hwf1 : ProgWF
          { s.progress with warnings := satAdd s.progress.warnings 1 } :=
        ⟨hwf.1, satAdd_le_max _ _, hwf.2.2.1, hwf.2.2.2⟩
      refine send_critical_ProgDom _ _ ?_ ?_
      · intro q hq
        cases hq
      · exact ⟨hwf1, fun p hp => (hub p hp).trans hle,
          fun p hp => (hpend p hp).trans hle⟩

theorem summarize_ProgDom (path : List String) (kind : FsEntryKind) (meta : Meta)
    (emit : Bool) (s : ScannerSt) (h : ProgDom s) :
    ProgDom (summarize_non_dir path kind meta emit s).2 := by
  unfold summarize_non_dir
  dsimp only
  split
  · exact send_node_update_ProgDom _ _ (bump_entry_ProgDom s _ _ h)
  · exact bump_entry_ProgDom s _ _ h

theorem gate_ProgDom (path : List String) (isl : Bool) (canon : Option Nat)
    (s : ScannerSt) (h : ProgDom s) :
    (∀ out, symlink_dir_gate path isl canon s = .inl out → ProgDom out.2) ∧
    (∀ s2, symlink_dir_gate path isl canon s = .inr s2 → ProgDom s2) := by
  unfold symlink_dir_gate
  cases isl with
  | false =>
    simp only [Bool.false_eq_true, if_false]
    refine ⟨fun out hx => ?_, fun s2 hx => ?_⟩
    · cases hx
    · cases hx
      exact h
  | true =>
    rw [if_pos rfl]
    cases canon with
    | none =>
      refine ⟨fun out hx => ?_, fun s2 hx => ?_⟩
      · cases hx
        exact bump_warning_ProgDom s path _ h
      · cases hx
    | some c =>
      by_cases hm : c ∈ s.visited_symlink_dirs
      · simp only [hm, if_true]
        refine ⟨fun out hx => ?_, fun s2 hx => ?_⟩
        · cases hx
          exact bump_warning_ProgDom s path _ h
        · cases hx
      · simp only [hm, if_false]
        refine ⟨fun out hx => ?_, fun s2 hx => ?_⟩
        · cases hx
        · cases hx
          exact ⟨h.1, h.2.1, h.2.2⟩

theorem scan_dir_entries_ProgDom (path : List String) (depth : Nat) (eu : Bool) :
    ∀ (entries : List RawEntry) (cc a al : Nat) (s : ScannerSt), ProgDom s →
      ProgDom (scan_dir_entries path depth eu entries cc a al s).state := by
  intro entries
  induction entries with
  | nil => intro cc a al s h; exact h
  | cons e rest ih =>
    intro cc a al s h
    unfold scan_dir_entries
    rcases hsc : should_cancel s with ⟨b, s1⟩
    have h1 : ProgDom s1 := by
      have hx := should_cancel_ProgDom s h
      rwa [hsc] at hx
    simp only [hsc]
    cases b with
    | true => exact h1
    | false =>
      cases e with
      | err =>
        simp only
        exact ih _ _ _ _ (bump_warning_ProgDom s1 path _ h1)
      | entry child_name stat =>
        simp only
        cases stat with
        | none =>
          simp only
          exact ih _ _ _ _ (bump_warning_ProgDom s1 _ _ h1)
        | some child_tree =>
          simp only
          split
          · exact ih _ _ _ _ (summarize_ProgDom _ _ _ _ s1 h1)
          · cases hres : resolved_of child_tree with
            | none =>
              simp only
              exact ih _ _ _ _ (bump_warning_ProgDom s1 _ _ h1)
            | some resolved =>
              simp only
              split
              · exact ih _ _ _ _ h1
              · split
                · split
                  · exact ih _ _ _ _ h1
                  · exact ih _ _ _ _ (send_node_update_ProgDom s1 _ h1)
                · exact ih _ _ _ _ (summarize_ProgDom _ _ _ _ s1 h1)

theorem scan_dir_ProgDom (fuel : Nat) :
    (∀ path depth isl meta canon entries ei eu s out,
      scan_dir fuel path depth isl meta canon entries ei eu s = some out →
      ProgDom s → ProgDom out.2) ∧
    (∀ path depth eu entries cc a al s out,
      scan_pending_dirs fuel path depth eu entries cc a al s = some out →
      ProgDom s → ProgDom out.state) := by
  induction fuel with
  | zero =>
    constructor
    · intro path depth isl meta canon entries ei eu s out h
      simp [scan_dir] at h
    · intro path depth eu entries cc a al s out h
      simp [scan_pending_dirs] at h
  | succ fuel ih =>
    obtain ⟨ihD, ihP⟩ := ih
    constructor
    · intro path depth isl meta canon entries ei eu s out h hdom
      rw [scan_dir] at h
      rcases hsc : should_cancel s with ⟨b, sA⟩
      have hA : ProgDom sA := by
        have hx := should_cancel_ProgDom s hdom
        rwa [hsc] at hx
      rw [hsc] at h
      cases b with
      | true => cases h; exact hA
      | false =>
        simp only at h
        rcases hg : symlink_dir_gate path isl canon sA with gout | sB
        · obtain ⟨ctrlO, sO⟩ := gout
          rw [hg] at h
          simp only at h
          cases h
          exact (gate_ProgDom path isl canon sA hA).1 _ hg
        · rw [hg] at h
          simp only at h
          have hB : ProgDom sB := (gate_ProgDom path isl canon sA hA).2 _ hg
          set sI := (if ei && eu then
              send_node_update sB {
                path := path,
                kind := if isl then FsEntryKind.symlink else FsEntryKind.dir,
                apparent_bytes := meta.len, allocated_bytes := allocated_size meta,
                children_count := 0, is_complete := false }
            else sB) with hsI
          have hI : ProgDom sI := by
            rw [hsI]
            split
            · exact send_node_update_ProgDom sB _ hB
            · exact hB
          cases entries with
          | none =>
            simp only at h
            cases h
            dsimp only
            split
            · exact send_node_update_ProgDom _ _
                (bump_entry_ProgDom _ _ _ (bump_warning_ProgDom sI path _ hI))
            · exact bump_entry_ProgDom _ _ _ (bump_warning_ProgDom sI path _ hI)
          | some entry_list =>
            simp only at h
            have h4 := scan_dir_entries_ProgDom path depth eu entry_list 0 meta.len
              (allocated_size meta) sI hI
            cases hp1 : scan_dir_entries path depth eu entry_list 0 meta.len
                (allocated_size meta) sI with
            | cancelled sC =>
              rw [hp1] at h h4
              simp only [LoopOut.state] at h4
              simp only at h
              cases h
              exact h4
            | done cc1 at1 al1 sC =>
              rw [hp1] at h h4
              simp only [LoopOut.state] at h4
              simp only at h
              cases hp2 : scan_pending_dirs fuel path depth eu entry_list
                  cc1 at1 al1 sC with
              | none => rw [hp2] at h; cases h
              | some lo =>
                rw [hp2] at h
                have h5 := ihP path depth eu entry_list cc1 at1 al1 sC lo hp2 h4
                cases lo with
                | cancelled sD =>
                  simp only [LoopOut.state] at h5
                  simp only at h
                  cases h
                  exact h5
                | done cc2 at2 al2 sD =>
                  simp only [LoopOut.state] at h5
                  simp only at h
                  cases h
                  dsimp only
                  split
                  · exact send_node_update_ProgDom _ _
                      (bump_entry_ProgDom sD _ _ h5)
                  · exact bump_entry_ProgDom sD _ _ h5
    · intro path depth eu entries cc a al s out h hdom
      rw [scan_pending_dirs.eq_def] at h
      simp only at h
      cases entries with
      | nil =>
        simp only at h
        cases h
        exact hdom
      | cons e rest =>
        cases e with
        | err =>
          simp only at h
          exact ihP path depth eu rest cc a al s out h hdom
        | entry child_name stat =>
          simp only at h
          cases stat with
          | none =>
            simp only at h
            exact ihP path depth eu rest cc a al s out h hdom
          | some child_tree =>
            simp only at h
            split at h
            · exact ihP path depth eu rest cc a al s out h hdom
            · cases hres : resolved_of child_tree with
              | none =>
                rw [hres] at h
                simp only at h
                exact ihP path depth eu rest cc a al s out h hdom
              | some resolved =>
                rw [hres] at h
                simp only at h
                split at h
                · exact ihP path depth eu rest cc a al s out h hdom
                · split at h
                  · cases hd : scan_dir fuel (path ++ [child_name]) (depth + 1)
                        child_tree.isSymlink resolved.meta resolved.canon
                        resolved.entries
                        (! (! child_tree.isSymlink &&
                          child_emit_updates s.options eu child_name (depth + 1)))
                        (child_emit_updates s.options eu child_name (depth + 1))
                        s with
                    | none => rw [hd] at h; cases h
                    | some cs =>
                      rw [hd] at h
                      obtain ⟨ctrl2, sE⟩ := cs
                      have h6 := ihD (path ++ [child_name]) (depth + 1)
                        child_tree.isSymlink resolved.meta resolved.canon
                        resolved.entries _ _ s (ctrl2, sE) hd hdom
                      dsimp only at h6
                      cases ctrl2 with
                      | cancelled =>
                        simp only at h
                        cases h
                        exact h6
                      | cont child =>
                        cases child with
                        | some childS =>
                          simp only at h
                          exact ihP path depth eu rest _ _ _ sE out h h6
                        | none =>
                          simp only at h
                          exact ihP path depth eu rest cc a al sE out h h6
                  · exact ihP path depth eu rest cc a al s out h hdom

theorem scan_entry_ProgDom (fuel : Nat) (path : List String) (depth : Nat)
    (stat : Option FsTree) (s : ScannerSt) (out : ScanControl × ScannerSt)
    (h : scan_entry fuel path depth stat s = some out) (hdom : ProgDom s) :
    ProgDom out.2 := by
  unfold scan_entry at h
  rcases hsc : should_cancel s with ⟨b, sA⟩
  rw [hsc] at h
  have hA : ProgDom sA := by
    have hx := should_cancel_ProgDom s hdom
    rwa [hsc] at hx
  cases b with
  | true => cases h; exact hA
  | false =>
    simp only at h
    cases stat with
    | none =>
      cases h
      exact bump_warning_ProgDom sA path _ hA
    | some tree =>
      simp only at h
      split at h
      · cases h
        exact summarize_ProgDom path _ _ _ sA hA
      · cases hres : resolved_of tree with
        | none =>
          rw [hres] at h
          simp only at h
          cases h
          exact bump_warning_ProgDom sA path _ hA
        | some resolved =>
          rw [hres] at h
          simp only at h
          split at h
          · cases h
            exact hA
          · split at h
            · cases h
              exact summarize_ProgDom path _ _ _ sA hA
            · split at h
              · exact (scan_dir_ProgDom fuel).1 path depth tree.isSymlink
                  resolved.meta resolved.canon resolved.entries true true sA out
                  h hA
              · cases h
                exact summarize_ProgDom path _ _ _ sA hA

theorem run_scan_ProgDom (fuel : Nat) (options : ScanOptions)
    (root_stat : Option FsTree) (oracle : List SendResult)
    (cancelFuel : Option Nat) (sF : ScannerSt)
    (h : run_scan fuel options root_stat oracle cancelFuel = some sF) :
    ProgDom sF := by
  unfold run_scan at h
  rcases hce : send_critical_event (oracle.length + 1) oracle []
    (.reset options.root) with ⟨ok1, oracle1, sent1⟩
  rw [hce] at h
  have hpe1 : progEvents sent1 = [] := by
    rcases send_critical_event_sent (.reset options.root) (oracle.length + 1)
      oracle [] with hc | hc
    · rw [hce] at hc
      dsimp only at hc
      rw [hc]
      rfl
    · rw [hce] at hc
      dsimp only at hc
      rw [hc]
      rfl
  have hwf0 : ProgWF ({} : ScanProgress) :=
    ⟨Nat.zero_le _, Nat.zero_le _, Nat.zero_le _, Nat.zero_le _⟩
  cases ok1 with
  | false =>
    simp only at h
    cases h
    refine ⟨hwf0, ?_, fun p hp => Option.noConfusion hp⟩
    intro p hp
    have hz : progEvents (initial_scanner_state options none oracle1 sent1
        cancelFuel true).sent = [] := hpe1
    rw [hz] at hp
    cases hp
  | true =>
    simp only at h
    cases root_stat with
    | none =>
      rcases hce2 : send_critical_event (oracle1.length + 1) oracle1 sent1
        (.error options.root) with ⟨ok2, oracle2, sent2⟩
      rw [hce2] at h
      simp only at h
      cases h
      have hpe2 : progEvents sent2 = [] := by
        rcases send_critical_event_sent (.error options.root) (oracle1.length + 1)
          oracle1 sent1 with hc | hc
        · rw [hce2] at hc
          dsimp only at hc
          rw [hc, hpe1]
        · rw [hce2] at hc
          dsimp only at hc
          rw [hc, progEvents_append, hpe1]
          rfl
      refine ⟨hwf0, ?_, fun p hp => Option.noConfusion hp⟩
      intro p hp
      have hz : progEvents (initial_scanner_state options none oracle2 sent2
          cancelFuel (! ok2)).sent = [] := hpe2
      rw [hz] at hp
      cases hp
    | some root_tree =>
      simp only at h
      cases hscan : scan_entry fuel options.root 0 (some root_tree)
          (initial_scanner_state options
            (if options.one_file_system then filesystem_id root_tree.meta else none)
            oracle1 sent1 cancelFuel false) with
      | none => rw [hscan] at h; cases h
      | some cs =>
        rw [hscan] at h
        obtain ⟨ctrl, s1⟩ := cs
        have hdom0 : ProgDom (initial_scanner_state options
            (if options.one_file_system then filesystem_id root_tree.meta else none)
            oracle1 sent1 cancelFuel false) := by
          refine ⟨hwf0, ?_, fun p hp => Option.noConfusion hp⟩
          intro p hp
          have hz : progEvents (initial_scanner_state options
              (if options.one_file_system then filesystem_id root_tree.meta
                else none) oracle1 sent1 cancelFuel false).sent = [] := hpe1
          rw [hz] at hp
          cases hp
        have hdom1 : ProgDom s1 :=
          scan_entry_ProgDom fuel options.root 0 (some root_tree) _ (ctrl, s1)
            hscan hdom0
        cases ctrl with
        | cont o =>
          simp only at h
          cases h
          refine send_critical_ProgDom _ _ ?_
            (emit_progress_now_ProgDom _ (emit_backpressure_ProgDom _ hdom1))
          intro q hq
          cases hq
        | cancelled =>
          simp only at h
          cases h
          refine send_critical_ProgDom _ _ ?_ (emit_backpressure_ProgDom _ hdom1)
          intro q hq
          cases hq


/-- One scanned file entry. -/
def c7_file (i : Nat) : RawEntry :=
  RawEntry.entry (toString i) (some (.file ⟨1, 0, 1⟩))

def c7_chunkA : List RawEntry := (List.range 150).map (fun i => c7_file i)
def c7_chunkB : List RawEntry := (List.range 150).map (fun i => c7_file (i + 150))
def c7_chunkC : List RawEntry := (List.range 150).map (fun i => c7_file (i + 300))
def c7_chunkD : List RawEntry := (List.range 71).map (fun i => c7_file (i + 450))

/-- 521 one-byte files, each below the file filter (in four chunks, so that
the run below can be settled chunk by chunk). -/
def c7_files : List RawEntry :=
  c7_chunkA ++ (c7_chunkB ++ (c7_chunkC ++ c7_chunkD))

def c7_tree : FsTree := .dir ⟨10, 0, 1⟩ none (some c7_files)

def c7_opts : ScanOptions := { w_opts with show_files := false }

/-- Channel behaviour for the inversion run: the progress snapshot taken at
entry 512 meets a full channel and is parked in the pending slot; the final
forced snapshot (taken later, at entry 522) is delivered first and the
parked, older one is flushed after it during the terminal `send_critical`. -/
def c7_oracle : List SendResult :=
  [.ok, .ok, .full, .full, .ok, .full, .ok, .full, .ok, .ok, .ok]

/-- The scanner state right after the `Reset` send. -/
def c7_s0 : ScannerSt :=
  { options := c7_opts,
    oracle := [.ok, .full, .full, .ok, .full, .ok, .full, .ok, .ok, .ok],
    sent := [.reset ["r"]], cancelFuel := none, progress := ⟨0, 0, 0, 0⟩,
    root_fs := some 1, emitted_progress_entries := 0,
    visited_symlink_dirs := [], pending_progress := none,
    dropped_node_updates := 0, deferred_progress_updates := 0,
    coalesced_progress_updates := 0, backpressure_warning_emitted := false,
    channel_closed := false }

/-- … after the root's provisional summary was delivered. -/
def c7_sI : ScannerSt :=
  { c7_s0 with
    oracle := [.full, .full, .ok, .full, .ok, .full, .ok, .ok, .ok],
    sent := [.reset ["r"], .nodeUpdated ⟨["r"], .dir, 10, 10, 0, false⟩] }

def c7_sA : ScannerSt := { c7_sI with progress := ⟨150, 0, 150, 150⟩ }
def c7_sB : ScannerSt := { c7_sI with progress := ⟨300, 0, 300, 300⟩ }
def c7_sC : ScannerSt := { c7_sI with progress := ⟨450, 0, 450, 450⟩ }

/-- … after the entry pass: the snapshot taken at entry 512 met a full
channel and sits in the pending slot. -/
def c7_s4 : ScannerSt :=
  { c7_sI with
    oracle := [.full, .ok, .full, .ok, .full, .ok, .ok, .ok],
    progress := ⟨521, 0, 521, 521⟩, emitted_progress_entries := 512,
    pending_progress := some ⟨512, 0, 512, 512⟩,
    deferred_progress_updates := 1 }

/-- … after the root's final aggregate summary was delivered (the flush of
the parked snapshot met a full channel again). -/
def c7_s7 : ScannerSt :=
  { c7_s4 with
    oracle := [.full, .ok, .full, .ok, .ok, .ok],
    sent := [.reset ["r"], .nodeUpdated ⟨["r"], .dir, 10, 10, 0, false⟩,
      .nodeUpdated ⟨["r"], .dir, 531, 531, 521, true⟩],
    progress := ⟨522, 0, 531, 531⟩ }

/-- The final state of the inversion run (proved below to be what
`run_scan` returns). -/
def c7_final : ScannerSt :=
  { options := c7_opts, oracle := [],
    sent := [.reset ["r"],
      .nodeUpdated ⟨["r"], .dir, 10, 10, 0, false⟩,
      .nodeUpdated ⟨["r"], .dir, 531, 531, 521, true⟩,
      .warning ["r"] (.backpressure 0 1 0),
      .progress ⟨522, 1, 531, 531⟩,
      .progress ⟨512, 0, 512, 512⟩,
      .complete ⟨522, 1, 531, 531⟩],
    cancelFuel := none, progress := ⟨522, 1, 531, 531⟩, root_fs := some 1,
    emitted_progress_entries := 522, visited_symlink_dirs := [],
    pending_progress := none, dropped_node_updates := 0,
    deferred_progress_updates := 1, coalesced_progress_updates := 0,
    backpressure_warning_emitted := true, channel_closed := false }

theorem scan_dir_entries_append (p : List String) (d : Nat) (eu : Bool) :
    ∀ (l1 l2 : List RawEntry) (cc a al : Nat) (s : ScannerSt),
      scan_dir_entries p d eu (l1 ++ l2) cc a al s =
        match scan_dir_entries p d eu l1 cc a al s with
        | .done cc1 a1 al1 s1 => scan_dir_entries p d eu l2 cc1 a1 al1 s1
        | .cancelled s1 => .cancelled s1 := by
  intro l1
  induction l1 with
  | nil => intro l2 cc a al s; rfl
  | cons e rest ih =>
    intro l2 cc a al s
    show scan_dir_entries p d eu (e :: (rest ++ l2)) cc a al s = _
    conv_lhs => rw [scan_dir_entries.eq_def]
    conv_rhs => rw [scan_dir_entries.eq_def]
    rcases hsc : should_cancel s with ⟨b, s1⟩
    simp only [hsc]
    cases b with
    | true => rfl
    | false =>
      cases e with
      | err => exact ih l2 _ _ _ _
      | entry n stat =>
        cases stat with
        | none => exact ih l2 _ _ _ _
        | some ct =>
          dsimp only
          split
          · exact ih l2 _ _ _ _
          · cases hres : resolved_of ct with
            | none => exact ih l2 _ _ _ _
            | some r =>
              dsimp only
              split
              · exact ih l2 _ _ _ _
              · split
                · exact ih l2 _ _ _ _
                · exact ih l2 _ _ _ _

theorem scan_pending_dirs_files (p : List String) (d : Nat) (eu : Bool) :
    ∀ (l1 : List RawEntry),
      (∀ e ∈ l1, ∃ n m, e = RawEntry.entry n (some (FsTree.file m))) →
      ∀ (fuel : Nat) (l2 : List RawEntry) (cc a al : Nat) (s : ScannerSt),
        scan_pending_dirs (fuel + l1.length) p d eu (l1 ++ l2) cc a al s =
          scan_pending_dirs fuel p d eu l2 cc a al s := by
  intro l1
  induction l1 with
  | nil => intro _ fuel l2 cc a al s; rfl
  | cons e rest ih =>
    intro hf fuel l2 cc a al s
    obtain ⟨n, m, he⟩ := hf e (List.mem_cons_self _ _)
    subst he
    rw [List.length_cons, Nat.add_succ, List.cons_append]
    conv_lhs => rw [scan_pending_dirs.eq_def]
    dsimp only
    simp only [FsTree.isSymlink, Bool.false_and, Bool.false_eq_true, if_false,
      resolved_of, skip_other_filesystem, FsTree.isDir, Bool.and_false]
    exact ih (fun e2 he2 => hf e2 (List.mem_cons_of_mem _ he2)) fuel l2 cc a al s

theorem c7_chunk_files :
    (∀ e ∈ c7_chunkA, ∃ n m, e = RawEntry.entry n (some (FsTree.file m))) ∧
    (∀ e ∈ c7_chunkB, ∃ n m, e = RawEntry.entry n (some (FsTree.file m))) ∧
    (∀ e ∈ c7_chunkC, ∃ n m, e = RawEntry.entry n (some (FsTree.file m))) ∧
    (∀ e ∈ c7_chunkD, ∃ n m, e = RawEntry.entry n (some (FsTree.file m))) := by
  refine ⟨?_, ?_, ?_, ?_⟩ <;>
  · intro e he
    simp only [c7_chunkA, c7_chunkB, c7_chunkC, c7_chunkD, c7_file,
      List.mem_map, List.mem_range] at he
    obtain ⟨i, _, rfl⟩ := he
    exact ⟨_, _, rfl⟩

set_option maxRecDepth 100000 in
theorem c7_EA : scan_dir_entries ["r"] 0 true c7_chunkA 0 10 10 c7_sI =
    .done 150 160 160 c7_sA := rfl

set_option maxRecDepth 100000 in
theorem c7_EB : scan_dir_entries ["r"] 0 true c7_chunkB 150 160 160 c7_sA =
    .done 300 310 310 c7_sB := rfl

set_option maxRecDepth 100000 in
theorem c7_EC : scan_dir_entries ["r"] 0 true c7_chunkC 300 310 310 c7_sB =
    .done 450 460 460 c7_sC := rfl

set_option maxRecDepth 100000 in
theorem c7_ED : scan_dir_entries ["r"] 0 true c7_chunkD 450 460 460 c7_sC =
    .done 521 531 531 c7_s4 := rfl

set_option maxRecDepth 100000 in
theorem c7_entries_eq :
    scan_dir_entries ["r"] 0 true c7_files 0 10 10 c7_sI =
      .done 521 531 531 c7_s4 := by
  show scan_dir_entries ["r"] 0 true
    (c7_chunkA ++ (c7_chunkB ++ (c7_chunkC ++ c7_chunkD))) 0 10 10 c7_sI = _
  rw [scan_dir_entries_append, c7_EA]
  dsimp only
  rw [scan_dir_entries_append, c7_EB]
  dsimp only
  rw [scan_dir_entries_append, c7_EC]
  dsimp only
  exact c7_ED

theorem c7_chunk_len : c7_chunkA.length = 150 ∧ c7_chunkB.length = 150 ∧
    c7_chunkC.length = 150 ∧ c7_chunkD.length = 71 := by
  refine ⟨?_, ?_, ?_, ?_⟩ <;>
    simp [c7_chunkA, c7_chunkB, c7_chunkC, c7_chunkD]

set_option maxRecDepth 40000 in
theorem c7_pending_eq :
    scan_pending_dirs 599 ["r"] 0 true c7_files 521 531 531 c7_s4 =
      some (.done 521 531 531 c7_s4) := by
  show scan_pending_dirs 599 ["r"] 0 true
    (c7_chunkA ++ (c7_chunkB ++ (c7_chunkC ++ c7_chunkD))) 521 531 531 c7_s4 = _
  rw [show (599 : Nat) = 449 + c7_chunkA.length from by rw [c7_chunk_len.1],
    scan_pending_dirs_files ["r"] 0 true c7_chunkA c7_chunk_files.1]
  rw [show (449 : Nat) = 299 + c7_chunkB.length from by rw [c7_chunk_len.2.1],
    scan_pending_dirs_files ["r"] 0 true c7_chunkB c7_chunk_files.2.1]
  rw [show (299 : Nat) = 149 + c7_chunkC.length from by rw [c7_chunk_len.2.2.1],
    scan_pending_dirs_files ["r"] 0 true c7_chunkC c7_chunk_files.2.2.1]
  rfl

theorem scan_dir_root_split (fuel : Nat) (p : List String) (meta : Meta)
    (l : List RawEntry) (s : ScannerSt) (cc1 at1 al1 : Nat) (s4 : ScannerSt)
    (cc2 at2 al2 : Nat) (s5 : ScannerSt)
    (hsc : should_cancel s = (false, s))
    (h1 : scan_dir_entries p 0 true l 0 meta.len (allocated_size meta)
      (send_node_update s ⟨p, FsEntryKind.dir, meta.len, allocated_size meta,
        0, false⟩) = .done cc1 at1 al1 s4)
    (h2 : scan_pending_dirs fuel p 0 true l cc1 at1 al1 s4 =
      some (.done cc2 at2 al2 s5)) :
    scan_dir (fuel + 1) p 0 false meta none (some l) true true s =
      some (.cont (some ⟨p, FsEntryKind.dir, at2, al2, cc2, true⟩),
        send_node_update (bump_entry s5 meta.len (allocated_size meta))
          ⟨p, FsEntryKind.dir, at2, al2, cc2, true⟩) := by
  rw [scan_dir]
  rw [hsc]
  dsimp only
  simp only [symlink_dir_gate, Bool.false_eq_true, if_false, Bool.and_self,
    if_true]
  rw [h1]
  dsimp only
  rw [h2]

set_option maxRecDepth 100000 in
theorem c7_scan_dir_eq :
    scan_dir 600 ["r"] 0 false ⟨10, 0, 1⟩ none (some c7_files) true true
      c7_s0 = some (.cont (some ⟨["r"], FsEntryKind.dir, 531, 531, 521, true⟩),
        c7_s7) := by
  have h := scan_dir_root_split 599 ["r"] ⟨10, 0, 1⟩ c7_files c7_s0
    521 531 531 c7_s4 521 531 531 c7_s4 rfl c7_entries_eq c7_pending_eq
  rw [h]
  rfl



set_option maxRecDepth 4000 in
theorem c7_scan_entry_eq :
    scan_entry 600 ["r"] 0 (some c7_tree) c7_s0 =
      some (.cont (some ⟨["r"], FsEntryKind.dir, 531, 531, 521, true⟩), c7_s7) := by
  unfold scan_entry
  rw [show should_cancel c7_s0 = (false, c7_s0) from rfl]
  dsimp only
  rw [show FsTree.isSymlink c7_tree = false from rfl]
  simp only [Bool.false_and, Bool.false_eq_true, if_false]
  rw [show resolved_of c7_tree = some c7_tree from rfl]
  dsimp only
  rw [show FsTree.isDir c7_tree = true from rfl,
    show FsTree.isFile c7_tree = false from rfl]
  rw [show decide ((0 : Nat) > 0) = false from rfl]
  simp only [Bool.and_false, Bool.false_and, Bool.false_eq_true, if_false]
  rw [if_pos trivial]
  rw [show FsTree.meta c7_tree = (⟨10, 0, 1⟩ : Meta) from rfl,
    show FsTree.canon c7_tree = (none : Option Nat) from rfl,
    show FsTree.entries c7_tree = some c7_files from rfl]
  exact c7_scan_dir_eq

set_option maxRecDepth 4000 in
theorem c7_tail_eq :
    send_critical (emit_progress_now (emit_backpressure_warning_if_needed c7_s7))
      (.complete (emit_progress_now (emit_backpressure_warning_if_needed c7_s7)).progress) =
      c7_final := rfl

set_option maxRecDepth 4000 in
theorem c7_run_eq :
    run_scan 600 c7_opts (some c7_tree) c7_oracle none = some c7_final := by
  unfold run_scan
  rw [show send_critical_event (c7_oracle.length + 1) c7_oracle []
      (.reset c7_opts.root) = (true,
        [.ok, .full, .full, .ok, .full, .ok, .full, .ok, .ok, .ok],
        [.reset ["r"]]) from rfl]
  dsimp only
  rw [show scan_entry 600 c7_opts.root 0 (some c7_tree)
      (initial_scanner_state c7_opts
        (if c7_opts.one_file_system then filesystem_id c7_tree.meta else none)
        [.ok, .full, .full, .ok, .full, .ok, .full, .ok, .ok, .ok]
        [.reset ["r"]] none false) =
      some (.cont (some ⟨["r"], FsEntryKind.dir, 531, 531, 521, true⟩), c7_s7)
    from c7_scan_entry_eq]
  dsimp only
  exact congrArg some c7_tail_eq

/-- C7 counterexample: the delivered `Progress` stream of a completed scan is
not sorted.  On a directory of 521 files with the oracle above, the stream
contains the snapshot taken at entry 522 *before* the snapshot taken at entry
512 (the latter sat in the coalescing slot while the former was accepted), so
the later-delivered event has strictly smaller `visited_entries`. -/
theorem progress_delivery_inversion_counterexample :
    ∃ sF, run_scan 600 c7_opts (some c7_tree) c7_oracle none = some sF ∧
      progEvents sF.sent = [⟨522, 1, 531, 531⟩, ⟨512, 0, 512, 512⟩] ∧
      ¬ ProgLE ⟨522, 1, 531, 531⟩ ⟨512, 0, 512, 512⟩ :=
  ⟨c7_final, c7_run_eq, rfl, fun h => absurd h.1 (by decide)⟩

/-- C7 (amended).  The four `ScanProgress` counters are non-decreasing within
one scan session: (1) every scanner operation — `bump_entry`, `bump_warning`,
the `warnings` bump inside `emit_backpressure_warning_if_needed`, every send,
`summarize_non_dir`, `emit_progress_now`, `should_cancel`, and whole
`scan_entry`/`scan_dir` segments — moves the counters weakly up, hence along
any session (any `ScanStep`-chain) each counter of a later state dominates the
corresponding counter of any earlier state, so snapshots cloned at later
moments dominate snapshots cloned earlier; and (2) in every completed scan,
every delivered `Progress` payload is componentwise at most the final
counters.  The original claim's reading that the *delivered* snapshots appear
in non-decreasing order is refuted by
`progress_delivery_inversion_counterexample`: progress coalescing can deliver
a newer snapshot before an older parked one. -/
theorem progress_counters_monotone_session :
    (∀ s t, Relation.ReflTransGen ScanStep s t → ProgWF s.progress →
      ProgLE s.progress t.progress ∧ ProgWF t.progress) ∧
    (∀ fuel options root_stat oracle cancelFuel sF,
      run_scan fuel options root_stat oracle cancelFuel = some sF →
      ∀ p ∈ progEvents sF.sent, ProgLE p sF.progress) :=
  ⟨fun _ _ h hwf => scanSession_prog_mono h hwf,
   fun fuel options root_stat oracle cancelFuel sF h p hp =>
     (run_scan_ProgDom fuel options root_stat oracle cancelFuel sF h).2.1 p hp⟩

/-- C7 witness: a session chain that passes through `bump_entry` and the
backpressure warning bump, and the delivered-payload bound at the inversion
run. -/
theorem progress_counters_monotone_session_witness :
    (ProgLE w_default.progress
        (emit_backpressure_warning_if_needed (bump_entry w_default 3 4)).progress ∧
      ProgWF
        (emit_backpressure_warning_if_needed (bump_entry w_default 3 4)).progress) ∧
    ProgLE ⟨512, 0, 512, 512⟩ c7_final.progress :=
  ⟨progress_counters_monotone_session.1 w_default _
      (Relation.ReflTransGen.tail
        (Relation.ReflTransGen.single (ScanStep.bump_entry w_default 3 4))
        (ScanStep.emit_backpressure _))
      (by refine ⟨?_, ?_, ?_, ?_⟩ <;>
        simp [w_default, initial_scanner_state, U64MAX]),
   progress_counters_monotone_session.2 600 c7_opts (some c7_tree) c7_oracle none
      c7_final c7_run_eq _ (by decide)⟩
